import Mathlib

/-!
# Verification of the soap-film relaxation core and mesh-builder helpers

A shallow embedding, over exact rational arithmetic, of the procedural mesh
core of the graphics-sketchbook repository:

* the soap-film relaxation state and its operations `bootstrap`, `refine`
  (with the edge-midpoint cache `getEdgeCenter`) and `smooth`
  (from `src/slides/soap.tsx`);
* the surface-geometry builder (`addVertex`, `addTriangle`, `addQuadrangle`,
  finalization) and the barycentric triangle subdivider `triangulate`
  (from `src/utils/Polynomial.tsx`);
* the helper `subdivide` (from `src/utils/lib.tsx`).

Numbers are embedded as `ℚ` (the source evaluates the boundary curve only at
rationals with small denominators, and the properties verified here are stated
at the level of exact arithmetic).  The boundary-curve function is a parameter
`boundary : ℚ → Vec3` throughout, mirroring how `borderVertex` is used by the
algorithm as an opaque-to-the-mesh-logic sampling function.
-/

/-! ## Vectors -/

/-- A 3D vector with exact rational coordinates (embedding `THREE.Vector3`
as used by the algorithm: only `add`, `multiplyScalar`/`divideScalar` and
`copy` are exercised by the verified code paths). -/
structure Vec3 where
  x : ℚ
  y : ℚ
  z : ℚ
deriving DecidableEq, Repr

namespace Vec3

/-- `v.add(w)` (value form of the in-place `Vector3.add`). -/
def add (v w : Vec3) : Vec3 := ⟨v.x + w.x, v.y + w.y, v.z + w.z⟩

/-- `v.multiplyScalar(q)`; `divideScalar(q)` is `scale (1/q)`. -/
def scale (q : ℚ) (v : Vec3) : Vec3 := ⟨q * v.x, q * v.y, q * v.z⟩

/-- `new Vector3(0, 0, 0)`. -/
def zero : Vec3 := ⟨0, 0, 0⟩

instance : Zero Vec3 := ⟨zero⟩

instance : Add Vec3 := ⟨add⟩

theorem add_def (v w : Vec3) : v + w = ⟨v.x + w.x, v.y + w.y, v.z + w.z⟩ := rfl

theorem zero_def : (0 : Vec3) = ⟨0, 0, 0⟩ := rfl

protected theorem add_assoc (u v w : Vec3) : u + v + w = u + (v + w) := by
  simp [add_def, add_assoc]

protected theorem add_comm (v w : Vec3) : v + w = w + v := by
  simp [add_def]; exact ⟨add_comm _ _, add_comm _ _, add_comm _ _⟩

protected theorem zero_add (v : Vec3) : 0 + v = v := by
  simp [add_def, zero_def]

protected theorem add_zero (v : Vec3) : v + 0 = v := by
  simp [add_def, zero_def]

instance : AddCommMonoid Vec3 where
  add_assoc := Vec3.add_assoc
  add_comm := Vec3.add_comm
  zero_add := Vec3.zero_add
  add_zero := Vec3.add_zero
  nsmul := nsmulRec

theorem scale_add (q : ℚ) (v w : Vec3) :
    scale q (v + w) = scale q v + scale q w := by
  simp [scale, add_def, mul_add]

theorem scale_zero (q : ℚ) : scale q 0 = 0 := by
  simp [scale, zero_def]

end Vec3

/-! ## Association lists

The source uses JavaScript `Map` objects (`borderVertices`, `edgeCenters`),
keyed by numbers.  We embed them as insertion-ordered association lists:
`set` replaces the entry of an existing key in place and appends a new key at
the end, `get`/`has` find the (unique) entry of a key — exactly the observable
behaviour of `Map.set` / `Map.get` / `Map.has`. -/

/-- `Map.get`: the value stored for key `k`, if any. -/
def alGet {β : Type} : List (Nat × β) → Nat → Option β
  | [], _ => none
  | e :: rest, k => if e.1 = k then some e.2 else alGet rest k

/-- `Map.has`. -/
def alHas {β : Type} (m : List (Nat × β)) (k : Nat) : Bool :=
  (alGet m k).isSome

/-- `Map.set`: replace the entry of an existing key, else append. -/
def alSet {β : Type} : List (Nat × β) → Nat → β → List (Nat × β)
  | [], k, v => [(k, v)]
  | e :: rest, k, v => if e.1 = k then (k, v) :: rest else e :: alSet rest k v

namespace AListLemmas

variable {β : Type}

@[simp] theorem alGet_nil (k : Nat) : alGet ([] : List (Nat × β)) k = none := rfl

@[simp] theorem alGet_cons (e : Nat × β) (m : List (Nat × β)) (k : Nat) :
    alGet (e :: m) k = if e.1 = k then some e.2 else alGet m k := rfl

@[simp] theorem alGet_set_self (m : List (Nat × β)) (k : Nat) (v : β) :
    alGet (alSet m k v) k = some v := by
  induction m with
  | nil => simp [alSet]
  | cons e rest ih =>
    by_cases h : e.1 = k <;> simp [alSet, h, ih]

theorem alGet_set_ne (m : List (Nat × β)) (k k' : Nat) (v : β) (h : k ≠ k') :
    alGet (alSet m k v) k' = alGet m k' := by
  induction m with
  | nil => simp [alSet, h]
  | cons e rest ih =>
    by_cases he : e.1 = k
    · simp [alSet, he, h]
    · simp [alSet, he, ih]

theorem alHas_set (m : List (Nat × β)) (k k' : Nat) (v : β) :
    alHas (alSet m k v) k' = (k = k' || alHas m k') := by
  by_cases h : k = k'
  · subst h; simp [alHas]
  · simp [alHas, alGet_set_ne m k k' v h, h]

theorem alGet_append_left (m m' : List (Nat × β)) (k : Nat)
    (h : (alGet m k).isSome) : alGet (m ++ m') k = alGet m k := by
  induction m with
  | nil => simp [alHas, alGet] at h
  | cons e rest ih =>
    by_cases he : e.1 = k <;> simp_all [alGet, he]

theorem alGet_mem {m : List (Nat × β)} {k : Nat} {v : β}
    (h : alGet m k = some v) : (k, v) ∈ m := by
  induction m with
  | nil => simp [alGet] at h
  | cons e rest ih =>
    by_cases he : e.1 = k
    · simp [alGet, he] at h
      obtain ⟨k', v'⟩ := e
      simp only at he h
      subst he; subst h
      exact List.mem_cons_self _ _
    · simp [alGet, he] at h
      exact List.mem_cons_of_mem _ (ih h)

theorem mem_alGet {m : List (Nat × β)} {k : Nat} {v : β}
    (hnd : (m.map Prod.fst).Nodup) (h : (k, v) ∈ m) : alGet m k = some v := by
  induction m with
  | nil => simp at h
  | cons e rest ih =>
    simp only [List.map_cons, List.nodup_cons] at hnd
    rcases List.mem_cons.1 h with h | h
    · subst h; simp [alGet]
    · have hne : e.1 ≠ k := by
        intro he
        exact hnd.1 (he ▸ (List.mem_map_of_mem Prod.fst h))
      simp [alGet, hne, ih hnd.2 h]

theorem alGet_isSome_iff_mem {m : List (Nat × β)} {k : Nat} :
    (alGet m k).isSome = true ↔ ∃ v, (k, v) ∈ m := by
  constructor
  · intro h
    rcases Option.isSome_iff_exists.1 h with ⟨v, hv⟩
    exact ⟨v, alGet_mem hv⟩
  · intro ⟨v, hv⟩
    induction m with
    | nil => simp at hv
    | cons e rest ih =>
      rcases List.mem_cons.1 hv with h | h
      · subst h; simp [alGet]
      · by_cases he : e.1 = k <;> simp [alGet, he, ih h]

theorem alSet_keys_incl (m : List (Nat × β)) (k : Nat) (v : β) :
    ((alSet m k v).map Prod.fst) ⊆ (m.map Prod.fst) ++ [k] := by
  induction m with
  | nil => simp [alSet]
  | cons e rest ih =>
    by_cases he : e.1 = k
    · subst he
      intro a ha
      simp only [alSet, if_pos rfl, List.map_cons] at ha
      rcases List.mem_cons.1 ha with h | h
      · subst h; simp
      · simp only [List.map_cons, List.cons_append]
        exact List.mem_cons_of_mem _ (List.mem_append_left _ h)
    · intro a ha
      simp only [alSet, if_neg he, List.map_cons] at ha
      rcases List.mem_cons.1 ha with h | h
      · subst h; simp
      · simp only [List.map_cons, List.cons_append]
        exact List.mem_cons_of_mem _ (ih h)

theorem alSet_append_of_not_has (m : List (Nat × β)) (k : Nat) (v : β)
    (h : alHas m k = false) : alSet m k v = m ++ [(k, v)] := by
  induction m with
  | nil => simp [alSet]
  | cons e rest ih =>
    simp only [alHas, alGet_cons] at h
    by_cases he : e.1 = k
    · simp [he] at h
    · simp only [alHas] at ih
      simp [alSet, he, ih (by simpa [he] using h)]

theorem mem_alSet_of_mem {m : List (Nat × β)} {e : Nat × β} (k : Nat) (v : β)
    (h : e ∈ m) (hne : e.1 ≠ k) : e ∈ alSet m k v := by
  induction m with
  | nil => simp at h
  | cons f rest ih =>
    by_cases hf : f.1 = k
    · simp only [alSet, if_pos hf]
      rcases List.mem_cons.1 h with h | h
      · exact absurd (h ▸ hf) hne
      · exact List.mem_cons_of_mem _ h
    · simp only [alSet, if_neg hf]
      rcases List.mem_cons.1 h with h | h
      · exact h ▸ List.mem_cons_self _ _
      · exact List.mem_cons_of_mem _ (ih h)

theorem mem_of_mem_alSet {m : List (Nat × β)} {e : Nat × β} {k : Nat} {v : β}
    (h : e ∈ alSet m k v) : e ∈ m ∨ e = (k, v) := by
  induction m with
  | nil => simp [alSet] at h; right; exact h
  | cons f rest ih =>
    by_cases hf : f.1 = k
    · simp only [alSet, if_pos hf] at h
      rcases List.mem_cons.1 h with h | h
      · right; exact h
      · left; exact List.mem_cons_of_mem _ h
    · simp only [alSet, if_neg hf] at h
      rcases List.mem_cons.1 h with h | h
      · left; exact h ▸ List.mem_cons_self _ _
      · rcases ih h with h | h
        · left; exact List.mem_cons_of_mem _ h
        · right; exact h

end AListLemmas

/-! ## The helper `subdivide` (from `src/utils/lib.tsx`)

```js
export function subdivide(from, to, nSteps) {
  if (nSteps === 0) { ... return [from]; }
  const out = [];
  for (let i = 0, j = nSteps; j >= 0; i++, j--) {
    out.push((from * j + to * i) / nSteps);
  }
  return out;
}
```
-/

def subdivide (start stop : ℚ) (nSteps : Nat) : List ℚ :=
  if nSteps = 0 then [start]
  else (List.range (nSteps + 1)).map
    (fun i => (start * ((nSteps - i : Nat) : ℚ) + stop * (i : ℚ)) / (nSteps : ℚ))

/-! ## The soap-film working mesh (from `src/slides/soap.tsx`)

The relaxation algorithm owns three pieces of mutable state:
`vertices : Vector3[]`, `borderVertices : Map<number, number>` (vertex index
to boundary parameter) and `triangles : [number, number, number][]`. -/

structure SoapState where
  vertices : List Vec3
  border : List (Nat × ℚ)
  triangles : List (Nat × Nat × Nat)
deriving DecidableEq, Repr

namespace Soap

/-- `vertices[i]` (all verified accesses are in range; out-of-range reads
default to the zero vector). -/
def posD (s : SoapState) (i : Nat) : Vec3 := s.vertices.getD i 0

/-- The bootstrap: sample the boundary at the six parameters
`subdivide(0, 5/6, 5)`, register each sample as a border vertex, add the
centroid as a seventh (interior) vertex, and emit the six-triangle fan
`(center, v_i, v_{(i+1) % 6})`. -/
def bootstrap (boundary : ℚ → Vec3) : SoapState :=
  let step := fun (p : SoapState × List Nat) f =>
    let v := p.1.vertices.length
    (⟨p.1.vertices ++ [boundary f], alSet p.1.border v f, p.1.triangles⟩,
     p.2 ++ [v])
  let p := (subdivide 0 (5/6) 5).foldl step (⟨[], [], []⟩, [])
  let s1 := p.1
  let initialBorder := p.2
  let centerPos :=
    Vec3.scale (1 / (initialBorder.length : ℚ))
      (initialBorder.foldl (fun acc v => acc + posD s1 v) 0)
  let center := s1.vertices.length
  { vertices := s1.vertices ++ [centerPos],
    border := s1.border,
    triangles := initialBorder.enum.map
      (fun iv => (center, iv.2, initialBorder.getD ((iv.1 + 1) % 6) 0)) }

/-! ### Smoothing

```js
function smooth() {
  const sums = vertices.map(() => new Vector3(0, 0, 0));
  for (const [a, b, c] of triangles) {
    sums[a].add(vertices[b]);
    sums[b].add(vertices[c]);
    sums[c].add(vertices[a]);
  };
  sums.forEach((s, i) => {
    if (!borderVertices.has(i)) {
      s.divideScalar(6);
      ...
      v.copy(s);
    }
  });
}
```
-/

/-- `sums[i].add(w)`. -/
def addAt (l : List Vec3) (i : Nat) (w : Vec3) : List Vec3 :=
  l.set i (l.getD i 0 + w)

/-- The neighbor-position accumulator built by the triangle scan of
`smooth` (each triangle pulls each of its vertices towards one of the two
adjacent vertices, with orientation; the neighbor triangle supplies the
other one). -/
def smoothSums (s : SoapState) : List Vec3 :=
  s.triangles.foldl
    (fun sums t =>
      addAt (addAt (addAt sums t.1 (posD s t.2.1)) t.2.1 (posD s t.2.2))
        t.2.2 (posD s t.1))
    (s.vertices.map (fun _ => 0))

/-- One smoothing step: every non-border vertex is moved to one sixth of
its accumulated neighbor sum, computed entirely from the pre-step
positions; border vertices are left untouched. -/
def smooth (s : SoapState) : SoapState :=
  let newVertices := (smoothSums s).enum.map
    (fun p => if alHas s.border p.1 then posD s p.1 else Vec3.scale (1/6) p.2)
  { s with vertices := newVertices }

/-! ### Refinement

```js
function refine() {
  const edgeCenters = new Map();
  function getEdgeCenter(a, b) {
    const index = (Math.min(a, b) * (1 << 26)) + Math.max(a, b);
    if (edgeCenters.has(index)) { return edgeCenters.get(index); }
    let v;
    if (borderVertices.has(a) && borderVertices.has(b)) {
      const fa = borderVertices.get(a);
      const fb = borderVertices.get(b);
      const f = ((fa + fb + Number(Math.abs(fb - fa) > 0.5)) / 2) % 1;
      v = mkVertex(borderVertex(f));
      borderVertices.set(v, f);
    } else {
      v = mkVertex(vertices[a].clone().add(vertices[b]).multiplyScalar(0.5));
    }
    edgeCenters.set(index, v);
    return v;
  }
  const nTriangles = triangles.length;
  for (let i = 0; i < nTriangles; i++) {
    const [a, b, c] = triangles[i];
    const ab = getEdgeCenter(a, b);
    const bc = getEdgeCenter(b, c);
    const ca = getEdgeCenter(c, a);
    mkTriangle(a, ab, ca);
    mkTriangle(b, bc, ab);
    mkTriangle(c, ca, bc);
    triangles[i] = [ab, bc, ca];
  }
}
```
-/

/-- The packed cache key `(Math.min(a,b) * (1 << 26)) + Math.max(a,b)`. -/
def edgeKey (a b : Nat) : Nat := min a b * 2 ^ 26 + max a b

/-- JavaScript `x % 1` (truncated remainder by one; for the verified calls
the argument is nonnegative, where this is `x - ⌊x⌋`). -/
def jsModOne (x : ℚ) : ℚ := x - (if 0 ≤ x then (⌊x⌋ : ℚ) else -(⌊-x⌋ : ℚ))

/-- The parameter assigned to the midpoint of a border-border edge:
`((fa + fb + Number(Math.abs(fb - fa) > 0.5)) / 2) % 1`. -/
def midParam (fa fb : ℚ) : ℚ :=
  jsModOne ((fa + fb + (if 1/2 < |fb - fa| then 1 else 0)) / 2)

/-- The mutable state visible inside one refinement pass: the working mesh
vertex list and border map, plus the pass-scoped `edgeCenters` cache. -/
structure PassSt where
  vertices : List Vec3
  border : List (Nat × ℚ)
  cache : List (Nat × Nat)
deriving DecidableEq, Repr

/-- `getEdgeCenter(a, b)`. -/
def getEdgeCenter (boundary : ℚ → Vec3) (a b : Nat) (st : PassSt) :
    Nat × PassSt :=
  let index := edgeKey a b
  match alGet st.cache index with
  | some v => (v, st)
  | none =>
    if alHas st.border a && alHas st.border b then
      let fa := (alGet st.border a).getD 0
      let fb := (alGet st.border b).getD 0
      let f := midParam fa fb
      let v := st.vertices.length
      (v, ⟨st.vertices ++ [boundary f], alSet st.border v f,
           alSet st.cache index v⟩)
    else
      let v := st.vertices.length
      (v, ⟨st.vertices ++
             [Vec3.scale (1/2) (st.vertices.getD a 0 + st.vertices.getD b 0)],
           st.border, alSet st.cache index v⟩)

/-- Refining one triangle: three `getEdgeCenter` calls, yielding the center
replacement triangle and the three appended corner triangles. -/
def refineTri (boundary : ℚ → Vec3) (t : Nat × Nat × Nat) (st : PassSt) :
    ((Nat × Nat × Nat) × List (Nat × Nat × Nat)) × PassSt :=
  let r1 := getEdgeCenter boundary t.1 t.2.1 st
  let r2 := getEdgeCenter boundary t.2.1 t.2.2 r1.2
  let r3 := getEdgeCenter boundary t.2.2 t.1 r2.2
  let ab := r1.1
  let bc := r2.1
  let ca := r3.1
  (((ab, bc, ca), [(t.1, ab, ca), (t.2.1, bc, ab), (t.2.2, ca, bc)]), r3.2)

/-- The whole refinement pass as a fold: the first output component collects
the center triangles (which overwrite the originals in place) and the corner
triangles (which are appended, three per original, in scan order). -/
def refinePass (boundary : ℚ → Vec3) (s : SoapState) :
    ((List (Nat × Nat × Nat)) × (List (Nat × Nat × Nat))) × PassSt :=
  s.triangles.foldl
    (fun acc t =>
      let r := refineTri boundary t acc.2
      ((acc.1.1 ++ [r.1.1], acc.1.2 ++ r.1.2), r.2))
    (([], []), ⟨s.vertices, s.border, []⟩)

/-- One refinement pass: every triangle is subdivided into four; the center
triangles take the slots of the originals, the corner triangles follow. -/
def refine (boundary : ℚ → Vec3) (s : SoapState) : SoapState :=
  let r := refinePass boundary s
  ⟨r.2.vertices, r.2.border, r.1.1 ++ r.1.2⟩

/-- The midpoint-vertex assignment materialized by one refinement pass on
`s`: the final content of the `edgeCenters` cache at the packed key of
`{x, y}`. -/
def passMid (boundary : ℚ → Vec3) (s : SoapState) (x y : Nat) : Nat :=
  (alGet (refinePass boundary s).2.cache (edgeKey x y)).getD 0

/-- All mesh states reachable from the bootstrap fan by refinement passes
and smoothing steps (the program visits the subfamily
`(refine; smoothᔆ)ᴿ (bootstrap)`). -/
inductive Reaches (boundary : ℚ → Vec3) : SoapState → Prop where
  | boot : Reaches boundary (bootstrap boundary)
  | refine {s} : Reaches boundary s → Reaches boundary (refine boundary s)
  | smooth {s} : Reaches boundary s → Reaches boundary (smooth s)

end Soap

/-! ## Basic facts about the soap operations -/

namespace Soap

open AListLemmas

/-- Evaluating the six bootstrap parameters. -/
theorem subdivide_bootstrap_eval :
    subdivide 0 (5/6) 5 = [0, 1/6, 1/3, 1/2, 2/3, 5/6] := by
  norm_num [subdivide, List.range_succ]

/-- The border map built by the bootstrap. -/
theorem bootstrap_border (b : ℚ → Vec3) : (bootstrap b).border =
    [(0, 0), (1, 1/6), (2, 1/3), (3, 1/2), (4, 2/3), (5, 5/6)] := by
  simp [bootstrap, subdivide_bootstrap_eval, alSet]

/-- The vertex list built by the bootstrap: the six boundary samples and
their centroid. -/
theorem bootstrap_vertices (b : ℚ → Vec3) : (bootstrap b).vertices =
    [b 0, b (1/6), b (1/3), b (1/2), b (2/3), b (5/6),
     Vec3.scale (1/6)
       (0 + b 0 + b (1/6) + b (1/3) + b (1/2) + b (2/3) + b (5/6))] := by
  simp [bootstrap, subdivide_bootstrap_eval, alSet, posD]

/-- The fan of six triangles built by the bootstrap. -/
theorem bootstrap_triangles (b : ℚ → Vec3) : (bootstrap b).triangles =
    [(6,0,1),(6,1,2),(6,2,3),(6,3,4),(6,4,5),(6,5,0)] := by
  simp [bootstrap, subdivide_bootstrap_eval, alSet]
  decide

/-! ### Smoothing is a frame for everything but interior positions -/

@[simp] theorem smooth_triangles (s : SoapState) :
    (smooth s).triangles = s.triangles := rfl

@[simp] theorem smooth_border (s : SoapState) :
    (smooth s).border = s.border := rfl

@[simp] theorem addAt_length (l : List Vec3) (i : Nat) (w : Vec3) :
    (addAt l i w).length = l.length := by
  simp [addAt]

@[simp] theorem smoothSums_length (s : SoapState) :
    (smoothSums s).length = s.vertices.length := by
  unfold smoothSums
  suffices h : ∀ (ts : List (Nat × Nat × Nat)) (init : List Vec3),
      (ts.foldl (fun sums t =>
        addAt (addAt (addAt sums t.1 (posD s t.2.1)) t.2.1 (posD s t.2.2))
          t.2.2 (posD s t.1)) init).length = init.length by
    rw [h]; simp
  intro ts
  induction ts with
  | nil => intro init; rfl
  | cons t rest ih => intro init; rw [List.foldl_cons, ih]; simp

@[simp] theorem smooth_vertices_length (s : SoapState) :
    (smooth s).vertices.length = s.vertices.length := by
  simp [smooth]

/-- Entry `i` of the smoothed vertex list, for `i` in range. -/
theorem smooth_posD (s : SoapState) (i : Nat) (h : i < s.vertices.length) :
    posD (smooth s) i =
      if alHas s.border i then posD s i
      else Vec3.scale (1/6) ((smoothSums s).getD i 0) := by
  have hi : i < (smoothSums s).length := by simpa using h
  have hlen : i < ((smoothSums s).enum.map
      (fun p => if alHas s.border p.1 then posD s p.1
                else Vec3.scale (1/6) p.2)).length := by
    simpa using hi
  unfold posD smooth
  rw [List.getD_eq_getElem _ _ hlen]
  rw [List.getElem_map, List.getElem_enum]
  rw [List.getD_eq_getElem _ _ hi]
  rfl

/-- Out-of-range reads are unchanged by smoothing. -/
theorem smooth_posD_oob (s : SoapState) (i : Nat)
    (h : s.vertices.length ≤ i) : posD (smooth s) i = posD s i := by
  unfold posD
  rw [List.getD_eq_default, List.getD_eq_default]
  · simpa using h
  · simpa using h

/-- Border vertices are never moved by a smoothing step. -/
theorem smooth_posD_border (s : SoapState) (i : Nat)
    (h : alHas s.border i) : posD (smooth s) i = posD s i := by
  rcases lt_or_le i s.vertices.length with hlt | hge
  · rw [smooth_posD s i hlt, if_pos h]
  · exact smooth_posD_oob s i hge

/-! ### Refinement multiplies the triangle count by four -/

theorem refineTri_corners_length (b : ℚ → Vec3) (t : Nat × Nat × Nat)
    (st : PassSt) : (refineTri b t st).1.2.length = 3 := rfl

theorem refinePass_lengths (b : ℚ → Vec3) (s : SoapState) :
    (refinePass b s).1.1.length = s.triangles.length ∧
    (refinePass b s).1.2.length = 3 * s.triangles.length := by
  unfold refinePass
  suffices h : ∀ (ts : List (Nat × Nat × Nat))
      (acc : (List (Nat × Nat × Nat) × List (Nat × Nat × Nat)) × PassSt),
      (ts.foldl (fun acc t =>
        let r := refineTri b t acc.2
        ((acc.1.1 ++ [r.1.1], acc.1.2 ++ r.1.2), r.2)) acc).1.1.length =
        acc.1.1.length + ts.length ∧
      (ts.foldl (fun acc t =>
        let r := refineTri b t acc.2
        ((acc.1.1 ++ [r.1.1], acc.1.2 ++ r.1.2), r.2)) acc).1.2.length =
        acc.1.2.length + 3 * ts.length by
    have := h s.triangles (([], []), ⟨s.vertices, s.border, []⟩)
    simpa using this
  intro ts
  induction ts with
  | nil => intro acc; simp
  | cons t rest ih =>
    intro acc
    rw [List.foldl_cons]
    refine ⟨?_, ?_⟩
    · rw [(ih _).1]; simp; omega
    · rw [(ih _).2]
      simp [refineTri_corners_length]
      omega

/-- Each refinement pass multiplies the triangle count by exactly four. -/
theorem refine_triangles_length (b : ℚ → Vec3) (s : SoapState) :
    (refine b s).triangles.length = 4 * s.triangles.length := by
  have h := refinePass_lengths b s
  simp only [refine, List.length_append, h.1, h.2]
  omega

end Soap

namespace Soap

open AListLemmas

/-! ### The edge-midpoint cache -/

/-- The packed key is symmetric in the unordered pair. -/
theorem edgeKey_comm (a b : Nat) : edgeKey a b = edgeKey b a := by
  simp [edgeKey, Nat.min_comm, Nat.max_comm]

/-- Below the packing width the key determines the unordered pair. -/
theorem edgeKey_inj (a b c d : Nat) (hb : max a b < 2 ^ 26)
    (hd : max c d < 2 ^ 26) (h : edgeKey a b = edgeKey c d) :
    min a b = min c d ∧ max a b = max c d := by
  unfold edgeKey at h
  have key : ∀ x y : Nat, max x y < 2 ^ 26 →
      (min x y * 2 ^ 26 + max x y) / 2 ^ 26 = min x y := by
    intro x y hxy
    have hc : min x y * 2 ^ 26 + max x y = max x y + min x y * 2 ^ 26 := by
      omega
    rw [hc, Nat.add_mul_div_right _ _ (by norm_num : (0:ℕ) < 2 ^ 26),
      Nat.div_eq_of_lt hxy, Nat.zero_add]
  have hm : min a b = min c d := by
    rw [← key a b hb, ← key c d hd, h]
  refine ⟨hm, ?_⟩
  rw [hm] at h
  omega

/-- At or above the packing width two distinct unordered pairs can share a
key: `{2, 5}` and `{1, 2²⁶ + 5}` collide. -/
theorem edgeKey_collision :
    edgeKey 2 5 = edgeKey 1 (2 ^ 26 + 5) ∧
    ¬(min 2 5 = min 1 (2 ^ 26 + 5) ∧ max 2 5 = max 1 (2 ^ 26 + 5)) := by
  constructor
  · decide
  · decide

/-- A cache hit returns the cached index and leaves the state untouched. -/
theorem getEdgeCenter_hit (bd : ℚ → Vec3) (a b : Nat) (st : PassSt) (v : Nat)
    (h : alGet st.cache (edgeKey a b) = some v) :
    getEdgeCenter bd a b st = (v, st) := by
  simp only [getEdgeCenter, h]

/-- After any call, the cache holds the returned index at the pair's key. -/
theorem getEdgeCenter_caches (bd : ℚ → Vec3) (a b : Nat) (st : PassSt) :
    alGet (getEdgeCenter bd a b st).2.cache (edgeKey a b) =
      some (getEdgeCenter bd a b st).1 := by
  cases hc : alGet st.cache (edgeKey a b) with
  | some v => simp only [getEdgeCenter, hc]
  | none =>
    by_cases hb : (alHas st.border a && alHas st.border b) = true
    · simp only [getEdgeCenter, hc, hb, if_true]
      exact AListLemmas.alGet_set_self _ _ _
    · rw [Bool.not_eq_true] at hb
      simp only [getEdgeCenter, hc, hb, Bool.false_eq_true, if_false]
      exact AListLemmas.alGet_set_self _ _ _

/-- A `getEdgeCenter` call never disturbs an existing cache entry. -/
theorem getEdgeCenter_cache_mono (bd : ℚ → Vec3) (a b : Nat) (st : PassSt)
    (k v : Nat) (h : alGet st.cache k = some v) :
    alGet (getEdgeCenter bd a b st).2.cache k = some v := by
  cases hc : alGet st.cache (edgeKey a b) with
  | some w => simp only [getEdgeCenter, hc]; exact h
  | none =>
    have hk : edgeKey a b ≠ k := by
      intro he; rw [← he, hc] at h; cases h
    by_cases hb : (alHas st.border a && alHas st.border b) = true
    · simp only [getEdgeCenter, hc, hb, if_true]
      rw [AListLemmas.alGet_set_ne _ _ _ _ hk]
      exact h
    · rw [Bool.not_eq_true] at hb
      simp only [getEdgeCenter, hc, hb, Bool.false_eq_true, if_false]
      rw [AListLemmas.alGet_set_ne _ _ _ _ hk]
      exact h

/-- Once the pair `{a, b}` has a cached midpoint, a request in either order
returns exactly that index and leaves the whole pass state unchanged (no new
vertex is created). -/
theorem getEdgeCenter_stable (bd : ℚ → Vec3) (a b : Nat) (st : PassSt)
    (v : Nat) (h : alGet st.cache (edgeKey a b) = some v) :
    getEdgeCenter bd a b st = (v, st) ∧ getEdgeCenter bd b a st = (v, st) := by
  refine ⟨getEdgeCenter_hit bd a b st v h, getEdgeCenter_hit bd b a st v ?_⟩
  rw [edgeKey_comm b a]
  exact h

/-! ### The border-border midpoint -/

/-- For a nonnegative argument, `x % 1` lies in `[0, 1)`. -/
theorem jsModOne_mem_Ico (x : ℚ) (hx : 0 ≤ x) :
    0 ≤ jsModOne x ∧ jsModOne x < 1 := by
  unfold jsModOne
  rw [if_pos hx]
  constructor
  · have := Int.floor_le x
    linarith
  · have := Int.lt_floor_add_one x
    linarith

/-- The midpoint parameter of a border edge lies in `[0, 1)` whenever the
endpoint parameters do. -/
theorem midParam_mem_Ico (fa fb : ℚ) (ha : 0 ≤ fa) (hb : 0 ≤ fb) :
    0 ≤ midParam fa fb ∧ midParam fa fb < 1 := by
  unfold midParam
  apply jsModOne_mem_Ico
  have : (0:ℚ) ≤ (if 1/2 < |fb - fa| then 1 else 0) := by positivity
  linarith

/-- The effect of a cache-miss `getEdgeCenter` call on a border-border
edge: a fresh vertex is created, tagged as a border vertex with the
shorter-arc average parameter, and positioned by evaluating the boundary
curve there (not by interpolating the endpoint positions). -/
theorem getEdgeCenter_border_spec (bd : ℚ → Vec3) (a b : Nat) (st : PassSt)
    (fa fb : ℚ)
    (hmiss : alGet st.cache (edgeKey a b) = none)
    (hfa : alGet st.border a = some fa) (hfb : alGet st.border b = some fb) :
    (getEdgeCenter bd a b st).1 = st.vertices.length ∧
    (getEdgeCenter bd a b st).2.vertices =
      st.vertices ++ [bd (midParam fa fb)] ∧
    (getEdgeCenter bd a b st).2.border =
      alSet st.border st.vertices.length (midParam fa fb) ∧
    (getEdgeCenter bd a b st).2.cache =
      alSet st.cache (edgeKey a b) st.vertices.length := by
  have hba : alHas st.border a = true := by simp [alHas, hfa]
  have hbb : alHas st.border b = true := by simp [alHas, hfb]
  simp only [getEdgeCenter, hmiss, hba, hbb, Bool.and_self, if_true, hfa, hfb,
    Option.getD_some]
  exact ⟨trivial, trivial, trivial, trivial⟩

/-- The effect of a cache-miss `getEdgeCenter` call on an edge with at
least one interior endpoint: a fresh interior vertex at the straight 3D
midpoint of the endpoint positions. -/
theorem getEdgeCenter_interior_spec (bd : ℚ → Vec3) (a b : Nat) (st : PassSt)
    (hmiss : alGet st.cache (edgeKey a b) = none)
    (hnb : (alHas st.border a && alHas st.border b) = false) :
    (getEdgeCenter bd a b st).1 = st.vertices.length ∧
    (getEdgeCenter bd a b st).2.vertices =
      st.vertices ++
        [Vec3.scale (1/2) (st.vertices.getD a 0 + st.vertices.getD b 0)] ∧
    (getEdgeCenter bd a b st).2.border = st.border ∧
    (getEdgeCenter bd a b st).2.cache =
      alSet st.cache (edgeKey a b) st.vertices.length := by
  simp only [getEdgeCenter, hmiss, hnb, Bool.false_eq_true, if_false]
  exact ⟨trivial, trivial, trivial, trivial⟩

end Soap

namespace Soap

open AListLemmas

/-! ### Border pinning -/

/-- All border entries are in range and pinned to the boundary curve. -/
def Pinned (b : ℚ → Vec3) (s : SoapState) : Prop :=
  (∀ e ∈ s.border, e.1 < s.vertices.length) ∧
  (∀ e ∈ s.border, posD s e.1 = b e.2)

/-- The pass-state version of `Pinned`. -/
def PinnedP (b : ℚ → Vec3) (st : PassSt) : Prop :=
  (∀ e ∈ st.border, e.1 < st.vertices.length) ∧
  (∀ e ∈ st.border, st.vertices.getD e.1 0 = b e.2)

theorem getD_append_left_of_lt {l l' : List Vec3} {k : Nat} (d : Vec3)
    (h : k < l.length) : (l ++ l').getD k d = l.getD k d := by
  rw [List.getD_eq_getElem _ _ (by simp; omega), List.getD_eq_getElem _ _ h]
  exact List.getElem_append_left h

theorem getD_append_len (l : List Vec3) (x d : Vec3) :
    (l ++ [x]).getD l.length d = x := by
  rw [List.getD_eq_getElem _ _ (by simp)]
  simp

/-- One `getEdgeCenter` call preserves `PinnedP` and only appends to the
vertex list. -/
theorem getEdgeCenter_pinned (bd : ℚ → Vec3) (a b : Nat) (st : PassSt)
    (hp : PinnedP bd st) :
    PinnedP bd (getEdgeCenter bd a b st).2 ∧
    ∃ ext, (getEdgeCenter bd a b st).2.vertices = st.vertices ++ ext := by
  obtain ⟨hbound, hpin⟩ := hp
  cases hc : alGet st.cache (edgeKey a b) with
  | some v =>
    rw [getEdgeCenter_hit bd a b st v hc]
    exact ⟨⟨hbound, hpin⟩, [], by simp⟩
  | none =>
    by_cases hb : (alHas st.border a && alHas st.border b) = true
    · rcases Bool.and_eq_true_iff.1 hb with ⟨hba, hbb⟩
      rcases Option.isSome_iff_exists.1 hba with ⟨fa, hfa⟩
      rcases Option.isSome_iff_exists.1 hbb with ⟨fb, hfb⟩
      obtain ⟨-, hv, hbr, -⟩ := getEdgeCenter_border_spec bd a b st fa fb hc hfa hfb
      have hkeys : ∀ e ∈ st.border, e.1 ≠ st.vertices.length := by
        intro e he
        exact Nat.ne_of_lt (hbound e he)
      have hset : (getEdgeCenter bd a b st).2.border =
          st.border ++ [(st.vertices.length, midParam fa fb)] := by
        rw [hbr]
        apply alSet_append_of_not_has
        rw [alHas, Bool.eq_false_iff]
        intro hsome
        rcases alGet_isSome_iff_mem.1 hsome with ⟨w, hw⟩
        exact hkeys _ hw rfl
      constructor
      · constructor
        · intro e he
          rw [hset] at he
          rw [hv]
          rcases List.mem_append.1 he with h | h
          · have := hbound e h
            simp only [List.length_append, List.length_cons, List.length_nil]
            omega
          · simp only [List.mem_singleton] at h
            subst h
            simp
        · intro e he
          rw [hset] at he
          rw [hv]
          rcases List.mem_append.1 he with h | h
          · rw [getD_append_left_of_lt _ (hbound e h)]
            exact hpin e h
          · simp only [List.mem_singleton] at h
            subst h
            rw [getD_append_len]
      · exact ⟨_, hv⟩
    · rw [Bool.not_eq_true] at hb
      obtain ⟨-, hv, hbr, -⟩ := getEdgeCenter_interior_spec bd a b st hc hb
      constructor
      · constructor
        · intro e he
          rw [hbr] at he
          rw [hv]
          have := hbound e he
          simp only [List.length_append, List.length_cons, List.length_nil]
          omega
        · intro e he
          rw [hbr] at he
          rw [hv, getD_append_left_of_lt _ (hbound e he)]
          exact hpin e he
      · exact ⟨_, hv⟩

/-- `refineTri` preserves `PinnedP` and only appends vertices. -/
theorem refineTri_pinned (bd : ℚ → Vec3) (t : Nat × Nat × Nat) (st : PassSt)
    (hp : PinnedP bd st) :
    PinnedP bd (refineTri bd t st).2 ∧
    ∃ ext, (refineTri bd t st).2.vertices = st.vertices ++ ext := by
  obtain ⟨h1, e1, he1⟩ := getEdgeCenter_pinned bd t.1 t.2.1 st hp
  obtain ⟨h2, e2, he2⟩ :=
    getEdgeCenter_pinned bd t.2.1 t.2.2 (getEdgeCenter bd t.1 t.2.1 st).2 h1
  obtain ⟨h3, e3, he3⟩ :=
    getEdgeCenter_pinned bd t.2.2 t.1
      (getEdgeCenter bd t.2.1 t.2.2 (getEdgeCenter bd t.1 t.2.1 st).2).2 h2
  refine ⟨h3, e1 ++ e2 ++ e3, ?_⟩
  show (getEdgeCenter bd t.2.2 t.1
      (getEdgeCenter bd t.2.1 t.2.2 (getEdgeCenter bd t.1 t.2.1 st).2).2).2.vertices = _
  rw [he3, he2, he1]
  simp

/-- The refinement pass preserves `PinnedP` and only appends vertices. -/
theorem refinePass_pinned (bd : ℚ → Vec3) (s : SoapState)
    (hp : Pinned bd s) :
    PinnedP bd (refinePass bd s).2 ∧
    ∃ ext, (refinePass bd s).2.vertices = s.vertices ++ ext := by
  unfold refinePass
  suffices h : ∀ (ts : List (Nat × Nat × Nat))
      (acc : (List (Nat × Nat × Nat) × List (Nat × Nat × Nat)) × PassSt),
      PinnedP bd acc.2 →
      PinnedP bd (ts.foldl (fun acc t =>
        let r := refineTri bd t acc.2
        ((acc.1.1 ++ [r.1.1], acc.1.2 ++ r.1.2), r.2)) acc).2 ∧
      ∃ ext, (ts.foldl (fun acc t =>
        let r := refineTri bd t acc.2
        ((acc.1.1 ++ [r.1.1], acc.1.2 ++ r.1.2), r.2)) acc).2.vertices =
        acc.2.vertices ++ ext by
    exact h s.triangles (([], []), ⟨s.vertices, s.border, []⟩) ⟨hp.1, hp.2⟩
  intro ts
  induction ts with
  | nil => intro acc hacc; exact ⟨hacc, [], by simp⟩
  | cons t rest ih =>
    intro acc hacc
    simp only [List.foldl_cons]
    obtain ⟨h1, e1, he1⟩ := refineTri_pinned bd t acc.2 hacc
    obtain ⟨h2, e2, he2⟩ := ih ((acc.1.1 ++ [(refineTri bd t acc.2).1.1],
      acc.1.2 ++ (refineTri bd t acc.2).1.2), (refineTri bd t acc.2).2) h1
    refine ⟨h2, e1 ++ e2, ?_⟩
    rw [he2]
    show (refineTri bd t acc.2).2.vertices ++ e2 = _
    rw [he1]
    simp

/-- A refinement pass preserves the pinning invariant. -/
theorem refine_pinned (bd : ℚ → Vec3) (s : SoapState) (hp : Pinned bd s) :
    Pinned bd (refine bd s) := by
  obtain ⟨⟨hb, hpin⟩, -⟩ := refinePass_pinned bd s hp
  exact ⟨hb, hpin⟩

/-- A refinement pass only appends to the vertex list. -/
theorem refine_vertices_ext (bd : ℚ → Vec3) (s : SoapState)
    (hp : Pinned bd s) :
    ∃ ext, (refine bd s).vertices = s.vertices ++ ext := by
  obtain ⟨-, ext, he⟩ := refinePass_pinned bd s hp
  exact ⟨ext, he⟩

/-- A smoothing step preserves the pinning invariant. -/
theorem smooth_pinned (bd : ℚ → Vec3) (s : SoapState) (hp : Pinned bd s) :
    Pinned bd (smooth s) := by
  obtain ⟨hb, hpin⟩ := hp
  constructor
  · intro e he
    rw [smooth_border] at he
    rw [smooth_vertices_length]
    exact hb e he
  · intro e he
    rw [smooth_border] at he
    have hhas : alHas s.border e.1 = true := by
      rw [alHas]
      exact alGet_isSome_iff_mem.2 ⟨e.2, he⟩
    rw [smooth_posD_border s e.1 hhas]
    exact hpin e he

/-- The bootstrap establishes the pinning invariant. -/
theorem bootstrap_pinned (bd : ℚ → Vec3) : Pinned bd (bootstrap bd) := by
  constructor
  · intro e he
    rw [bootstrap_border] at he
    rw [bootstrap_vertices]
    fin_cases he <;> simp
  · intro e he
    rw [bootstrap_border] at he
    fin_cases he <;> simp [posD, bootstrap_vertices]

/-- Every reachable state satisfies the pinning invariant. -/
theorem Reaches_pinned (bd : ℚ → Vec3) (s : SoapState)
    (h : Reaches bd s) : Pinned bd s := by
  induction h with
  | boot => exact bootstrap_pinned bd
  | refine _ ih => exact refine_pinned bd _ ih
  | smooth _ ih => exact smooth_pinned bd _ ih

end Soap

/-! ## The surface-geometry mesh builder (from `src/utils/Polynomial.tsx`)

```js
const vertices = []; const normals = [];
const addVertex = (v, {normal} = {}) => {
  if (normal) {
    if (vertices.length > 0 && normals.length === 0) { console.warn(...) }
    normals.push(normal);
  } else {
    if (normals.length > 0) { console.warn(...) }
  }
  return vertices.push(v) - 1;
};
const trianglesByMaterial = [];
const addTriangle = (a, b, c, {materialIndex = 0, invert = false} = {}) => {
  const triangles = trianglesByMaterial[materialIndex] ||
    (trianglesByMaterial[materialIndex] = []);
  if (invert) triangles.push(c, b, a); else triangles.push(a, b, c);
};
const addQuadrangle = (a, b, c, d, options) => {
  addTriangle(a, b, c, options); addTriangle(a, c, d, options);
}
// finalization:
this.setIndex(trianglesByMaterial.flat());
let groupStartIndex = 0;
trianglesByMaterial.forEach((triangles, i) => {
  this.addGroup(groupStartIndex, triangles.length, i);
  groupStartIndex += triangles.length;
});
this.setAttribute("position", ...vertices...);
if (normals.length === vertices.length) { this.setAttribute("normal", ...) }
else { if (normals.length !== 0) { console.warn(...) } this.computeVertexNormals(); }
```

`console.warn` calls are modelled by a warning counter; the sparse JS array
`trianglesByMaterial` is a list of `Option` slots (`none` = hole, skipped by
both `flat()` and `forEach`). -/

namespace Builder

structure BuilderState where
  vertices : List Vec3
  normals : List Vec3
  warnings : Nat
  trianglesByMaterial : List (Option (List Nat))
deriving DecidableEq, Repr

def emptyBuilder : BuilderState := ⟨[], [], 0, []⟩

/-- `addVertex(v, {normal})`: returns the new vertex index and the updated
builder. -/
def addVertex (st : BuilderState) (v : Vec3) (normal : Option Vec3) :
    Nat × BuilderState :=
  match normal with
  | some n =>
    (st.vertices.length,
     { st with
        vertices := st.vertices ++ [v],
        normals := st.normals ++ [n],
        warnings := st.warnings +
          (if 0 < st.vertices.length ∧ st.normals.length = 0 then 1 else 0) })
  | none =>
    (st.vertices.length,
     { st with
        vertices := st.vertices ++ [v],
        warnings := st.warnings +
          (if 0 < st.normals.length then 1 else 0) })

/-- Pad the sparse material array with holes so index `m` exists. -/
def ensureLen (l : List (Option (List Nat))) (m : Nat) :
    List (Option (List Nat)) :=
  l ++ List.replicate (m + 1 - l.length) none

/-- The flat triangle-index list currently stored for material `m`. -/
def matList (st : BuilderState) (m : Nat) : List Nat :=
  (st.trianglesByMaterial.getD m none).getD []

/-- `addTriangle(a, b, c, {materialIndex, invert})`: no validation of the
indices takes place; the triple is pushed (reversed if `invert`). -/
def addTriangle (st : BuilderState) (a b c : Nat) (materialIndex : Nat)
    (invert : Bool) : BuilderState :=
  let arr := ensureLen st.trianglesByMaterial materialIndex
  let triangles := (arr.getD materialIndex none).getD []
  let triangles := if invert then triangles ++ [c, b, a]
                   else triangles ++ [a, b, c]
  { st with trianglesByMaterial := arr.set materialIndex (some triangles) }

/-- `addQuadrangle`: two triangles sharing the `a`-`c` diagonal. -/
def addQuadrangle (st : BuilderState) (a b c d : Nat) (materialIndex : Nat)
    (invert : Bool) : BuilderState :=
  addTriangle (addTriangle st a b c materialIndex invert) a c d
    materialIndex invert

/-- The group records `(start, count, materialIndex)` produced by the
finalization loop (holes are skipped by `forEach`). -/
def buildGroups : List (Option (List Nat)) → Nat → Nat →
    List (Nat × Nat × Nat)
  | [], _, _ => []
  | none :: rest, start, i => buildGroups rest start (i + 1)
  | some ts :: rest, start, i =>
    (start, ts.length, i) :: buildGroups rest (start + ts.length) (i + 1)

/-- The finished indexed mesh.  `normals = none` means the explicit normal
list was not fully populated and the renderer-side
`computeVertexNormals()` fallback (computed from face geometry) is used. -/
structure IndexedMesh where
  positions : List Vec3
  normals : Option (List Vec3)
  indices : List Nat
  groups : List (Nat × Nat × Nat)
deriving DecidableEq, Repr

/-- Finalization.  A further warning is issued when `0 ≠ normals.length ≠
vertices.length`; the mesh is produced in every case. -/
def finish (st : BuilderState) : IndexedMesh × Nat :=
  (⟨st.vertices,
    if st.normals.length = st.vertices.length then some st.normals else none,
    (st.trianglesByMaterial.filterMap id).flatten,
    buildGroups st.trianglesByMaterial 0 0⟩,
   st.warnings +
     (if st.normals.length ≠ 0 ∧ st.normals.length ≠ st.vertices.length
      then 1 else 0))

/-- One recorded builder call (a "build" is a list of these, replayed onto
the empty builder). -/
inductive BuildCmd where
  | vertex (v : Vec3) (normal : Option Vec3)
  | triangle (a b c : Nat) (materialIndex : Nat) (invert : Bool)
deriving DecidableEq, Repr

def runBuild : List BuildCmd → BuilderState → BuilderState
  | [], st => st
  | .vertex v n :: rest, st => runBuild rest (addVertex st v n).2
  | .triangle a b c m i :: rest, st => runBuild rest (addTriangle st a b c m i)

/-- The normals supplied during a build, in call order. -/
def suppliedNormals (cmds : List BuildCmd) : List Vec3 :=
  cmds.filterMap (fun c => match c with
    | .vertex _ (some n) => some n
    | _ => none)

/-- The number of `addVertex` calls of a build. -/
def vertexCount (cmds : List BuildCmd) : Nat :=
  cmds.countP (fun c => match c with | .vertex _ _ => true | _ => false)

/-- `true` unless the command is an `addVertex` call without a normal. -/
def suppliesNormal : BuildCmd → Bool
  | .vertex _ none => false
  | _ => true

/-- Every `addVertex` call of the build supplied a normal. -/
def allNormalsSupplied (cmds : List BuildCmd) : Prop :=
  ∀ c ∈ cmds, suppliesNormal c = true

end Builder

namespace Builder

/-- Whether the command is an `addVertex` call with an explicit normal. -/
def suppliesExplicitNormal : BuildCmd → Bool
  | .vertex _ (some _) => true
  | _ => false

/-- Some `addVertex` call of the build supplied a normal. -/
def someNormalSupplied (cmds : List BuildCmd) : Prop :=
  ∃ c ∈ cmds, suppliesExplicitNormal c = true

/-- The builder's normal sequence is exactly the normals supplied so far. -/
theorem runBuild_normals (cmds : List BuildCmd) (st : BuilderState) :
    (runBuild cmds st).normals = st.normals ++ suppliedNormals cmds := by
  induction cmds generalizing st with
  | nil => simp [runBuild, suppliedNormals]
  | cons c rest ih =>
    cases c with
    | vertex v n =>
      cases n with
      | some nv => simp [runBuild, addVertex, ih, suppliedNormals]
      | none => simp [runBuild, addVertex, ih, suppliedNormals]
    | triangle a b c' m i => simp [runBuild, addTriangle, ih, suppliedNormals]

/-- The builder's vertex count is the number of `addVertex` calls. -/
theorem runBuild_vertices_length (cmds : List BuildCmd) (st : BuilderState) :
    (runBuild cmds st).vertices.length =
      st.vertices.length + vertexCount cmds := by
  induction cmds generalizing st with
  | nil => simp [runBuild, vertexCount]
  | cons c rest ih =>
    cases c with
    | vertex v n =>
      cases n with
      | some nv => simp [runBuild, addVertex, ih, vertexCount]; omega
      | none => simp [runBuild, addVertex, ih, vertexCount]; omega
    | triangle a b c' m i => simp [runBuild, addTriangle, ih, vertexCount]

theorem suppliedNormals_cons_vertex_some (v : Vec3) (nv : Vec3)
    (rest : List BuildCmd) :
    suppliedNormals (.vertex v (some nv) :: rest) =
      nv :: suppliedNormals rest := rfl

theorem suppliedNormals_cons_vertex_none (v : Vec3) (rest : List BuildCmd) :
    suppliedNormals (.vertex v none :: rest) = suppliedNormals rest := rfl

theorem suppliedNormals_cons_triangle (a b c m : Nat) (i : Bool)
    (rest : List BuildCmd) :
    suppliedNormals (.triangle a b c m i :: rest) = suppliedNormals rest := rfl

theorem vertexCount_cons_vertex (v : Vec3) (n : Option Vec3)
    (rest : List BuildCmd) :
    vertexCount (.vertex v n :: rest) = vertexCount rest + 1 := by
  simp [vertexCount, List.countP_cons]

theorem vertexCount_cons_triangle (a b c m : Nat) (i : Bool)
    (rest : List BuildCmd) :
    vertexCount (.triangle a b c m i :: rest) = vertexCount rest := by
  simp [vertexCount, List.countP_cons]

theorem allNormalsSupplied_cons (c : BuildCmd) (rest : List BuildCmd) :
    allNormalsSupplied (c :: rest) ↔
      (suppliesNormal c = true ∧ allNormalsSupplied rest) := by
  simp [allNormalsSupplied]

theorem suppliedNormals_length_le (cmds : List BuildCmd) :
    (suppliedNormals cmds).length ≤ vertexCount cmds := by
  induction cmds with
  | nil => simp [suppliedNormals, vertexCount]
  | cons c rest ih =>
    cases c with
    | vertex v n =>
      cases n with
      | some nv =>
        rw [suppliedNormals_cons_vertex_some, vertexCount_cons_vertex]
        simp only [List.length_cons]
        omega
      | none =>
        rw [suppliedNormals_cons_vertex_none, vertexCount_cons_vertex]
        omega
    | triangle a b c' m i =>
      rw [suppliedNormals_cons_triangle, vertexCount_cons_triangle]
      exact ih

theorem suppliedNormals_length_eq_iff (cmds : List BuildCmd) :
    (suppliedNormals cmds).length = vertexCount cmds ↔
      allNormalsSupplied cmds := by
  induction cmds with
  | nil => simp [suppliedNormals, vertexCount, allNormalsSupplied]
  | cons c rest ih =>
    have hle := suppliedNormals_length_le rest
    cases c with
    | vertex v n =>
      cases n with
      | some nv =>
        rw [suppliedNormals_cons_vertex_some, vertexCount_cons_vertex,
          allNormalsSupplied_cons]
        simp only [List.length_cons, suppliesNormal]
        constructor
        · intro h
          exact ⟨trivial, ih.1 (by omega)⟩
        · intro h
          have := ih.2 h.2
          omega
      | none =>
        rw [suppliedNormals_cons_vertex_none, vertexCount_cons_vertex,
          allNormalsSupplied_cons]
        constructor
        · intro h
          omega
        · intro h
          have := h.1
          simp [suppliesNormal] at this
    | triangle a b c' m i =>
      rw [suppliedNormals_cons_triangle, vertexCount_cons_triangle,
        allNormalsSupplied_cons]
      constructor
      · intro h
        exact ⟨rfl, ih.1 h⟩
      · intro h
        exact ih.2 h.2


theorem suppliedNormals_pos (cmds : List BuildCmd)
    (h : someNormalSupplied cmds) : 0 < (suppliedNormals cmds).length := by
  induction cmds with
  | nil => rcases h with ⟨c, hc, -⟩; simp at hc
  | cons c rest ih =>
    rcases h with ⟨c', hc', hs⟩
    rcases List.mem_cons.1 hc' with h' | h'
    · subst h'
      cases c' with
      | vertex v n =>
        cases n with
        | some nv => simp [suppliedNormals_cons_vertex_some]
        | none => simp [suppliesExplicitNormal] at hs
      | triangle a b c'' m i => simp [suppliesExplicitNormal] at hs
    · have hrest := ih ⟨c', h', hs⟩
      cases c with
      | vertex v n =>
        cases n with
        | some nv => simp [suppliedNormals_cons_vertex_some]
        | none => rw [suppliedNormals_cons_vertex_none]; exact hrest
      | triangle a b c'' m i =>
        rw [suppliedNormals_cons_triangle]; exact hrest

/-- The warning invariant: either a warning has been issued already, or the
normal supply so far is consistent (all or none). -/
def WarnInv (st : BuilderState) : Prop :=
  1 ≤ st.warnings ∨ st.normals.length = st.vertices.length ∨
    st.normals.length = 0

theorem warnInv_addVertex (st : BuilderState) (v : Vec3) (n : Option Vec3)
    (h : WarnInv st) : WarnInv (addVertex st v n).2 := by
  cases n with
  | some nv =>
    simp only [WarnInv, addVertex, List.length_append, List.length_cons,
      List.length_nil] at h ⊢
    rcases h with h | h | h
    · left
      exact le_trans h (Nat.le_add_right _ _)
    · right; left
      omega
    · by_cases hv : 0 < st.vertices.length
      · left
        rw [if_pos ⟨hv, h⟩]
        omega
      · right; left
        omega
  | none =>
    simp only [WarnInv, addVertex, List.length_append, List.length_cons,
      List.length_nil] at h ⊢
    rcases h with h | h | h
    · left
      exact le_trans h (Nat.le_add_right _ _)
    · by_cases hn : 0 < st.normals.length
      · left
        rw [if_pos hn]
        omega
      · right; right
        omega
    · right; right
      exact h

theorem warnInv_runBuild (cmds : List BuildCmd) (st : BuilderState)
    (h : WarnInv st) : WarnInv (runBuild cmds st) := by
  induction cmds generalizing st with
  | nil => exact h
  | cons c rest ih =>
    cases c with
    | vertex v n => exact ih _ (warnInv_addVertex st v n h)
    | triangle a b c' m i =>
      apply ih
      rcases h with h | h | h
      · left; exact h
      · right; left; exact h
      · right; right; exact h

end Builder

namespace Builder

theorem ensureLen_length (l : List (Option (List Nat))) (m : Nat) :
    (ensureLen l m).length = max l.length (m + 1) := by
  simp [ensureLen]
  omega

theorem getD_append_lt {α : Type} (l l' : List α) (k : Nat) (d : α)
    (h : k < l.length) : (l ++ l').getD k d = l.getD k d := by
  rw [List.getD_eq_getElem _ _ (by simp; omega), List.getD_eq_getElem _ _ h]
  exact List.getElem_append_left h

theorem ensureLen_getD (l : List (Option (List Nat))) (m : Nat) :
    (ensureLen l m).getD m none = l.getD m none := by
  unfold ensureLen
  rcases lt_or_le m l.length with h | h
  · exact getD_append_lt _ _ _ _ h
  · have htot : (l ++ List.replicate (m + 1 - l.length) none).length = m + 1 := by
      simp
      omega
    rw [List.getD_eq_default l _ (by simpa using h)]
    rw [List.getD_eq_getElem _ _ (by rw [htot]; omega)]
    rw [List.getElem_append_right (by simpa using h)]
    simp

theorem getD_set_self (l : List (Option (List Nat))) (m : Nat)
    (x : Option (List Nat)) (h : m < l.length) :
    (l.set m x).getD m none = x := by
  have h2 : m < (l.set m x).length := by simpa using h
  rw [List.getD_eq_getElem _ _ h2]
  exact List.getElem_set_self h2

/-- `addTriangle` touches nothing but the selected material's triangle
list. -/
theorem addTriangle_frame (st : BuilderState) (a b c m : Nat) (inv : Bool) :
    (addTriangle st a b c m inv).vertices = st.vertices ∧
    (addTriangle st a b c m inv).normals = st.normals ∧
    (addTriangle st a b c m inv).warnings = st.warnings :=
  ⟨rfl, rfl, rfl⟩

/-- `addTriangle` appends the triple (reversed when inverted) to the
selected material's list, with no validation of the indices against the
vertex registry. -/
theorem addTriangle_matList (st : BuilderState) (a b c m : Nat)
    (inv : Bool) :
    matList (addTriangle st a b c m inv) m =
      matList st m ++ (if inv then [c, b, a] else [a, b, c]) := by
  unfold addTriangle matList
  have hm : m < (ensureLen st.trianglesByMaterial m).length := by
    rw [ensureLen_length]
    omega
  rw [getD_set_self _ _ _ hm, ensureLen_getD]
  cases inv <;> simp

/-- `addTriangle` never reads the vertex registry: its output is the same
whatever the registered vertices are. -/
theorem addTriangle_ignores_vertices (st : BuilderState)
    (vs : List Vec3) (a b c m : Nat) (inv : Bool) :
    (addTriangle { st with vertices := vs } a b c m inv).trianglesByMaterial
      = (addTriangle st a b c m inv).trianglesByMaterial := rfl

/-- `addQuadrangle` appends its two triangles, again unvalidated. -/
theorem addQuadrangle_matList (st : BuilderState) (a b c d m : Nat)
    (inv : Bool) :
    matList (addQuadrangle st a b c d m inv) m =
      matList st m ++
        (if inv then [c, b, a] ++ [d, c, a] else [a, b, c] ++ [a, c, d]) := by
  unfold addQuadrangle
  rw [addTriangle_matList, addTriangle_matList]
  cases inv <;> simp

end Builder

/-! ## The barycentric triangle subdivider (from `src/utils/Polynomial.tsx`)

```js
export function triangulate(n, {addVertexFromIndices, emitTriangle}) {
  let prevRow;
  for (let i = 0; i <= n; i++) {
    const currentRow = [];
    const n_i = n-i;
    let prev;
    for (let j = 0; j <= n_i; j++) {
      const k = n_i - j;
      const v = addVertexFromIndices(i, j, k);
      currentRow.push(v);
      if (prevRow) {
        if (prev) {
          emitTriangle(v, prevRow[j], prev, 3*i-1, 3*j-1, 3*k+2);
        }
        emitTriangle(v, prevRow[j+1], prevRow[j], 3*i-2, 3*j+1, 3*k+1);
      }
      prev = v;
    }
    prevRow = currentRow;
  }
}
```

Both callbacks are modelled as state-threading functions over an arbitrary
state `σ`; alongside the final state the embedding returns the trace of
`addVertexFromIndices` calls (their `(i, j, k)` arguments) and of
`emitTriangle` calls (their six arguments), which is the observable
behaviour the specification talks about.  Note `if (prev)` tests JavaScript
truthiness of a `number | undefined`: it fails not only for `undefined`
(start of a row) but also for the vertex index `0`. -/

namespace Triangulate

/-- JavaScript truthiness of `prev : number | undefined`. -/
def truthy : Option Nat → Bool
  | none => false
  | some p => !(p == 0)

structure RowAcc (σ : Type) where
  s : σ
  currentRow : List Nat
  prev : Option Nat
  vcalls : List (Nat × Nat × Nat)
  emits : List ((Nat × Nat × Nat) × (Int × Int × Int))

/-- One iteration of the inner (`j`) loop. -/
def rowStep {σ : Type} (addV : Nat → Nat → Nat → σ → Nat × σ)
    (emitT : Nat → Nat → Nat → Int → Int → Int → σ → σ)
    (i n_i : Nat) (prevRow : Option (List Nat)) (acc : RowAcc σ) (j : Nat) :
    RowAcc σ :=
  let k := n_i - j
  let r := addV i j k acc.s
  let v := r.1
  match prevRow with
  | none =>
    { s := r.2, currentRow := acc.currentRow ++ [v], prev := some v,
      vcalls := acc.vcalls ++ [(i, j, k)], emits := acc.emits }
  | some pr =>
    let e1 : List ((Nat × Nat × Nat) × (Int × Int × Int)) :=
      if truthy acc.prev
      then [((v, pr.getD j 0, acc.prev.getD 0),
             (3 * (i:Int) - 1, 3 * (j:Int) - 1, 3 * (k:Int) + 2))]
      else []
    let s1 := if truthy acc.prev
      then emitT v (pr.getD j 0) (acc.prev.getD 0)
             (3 * (i:Int) - 1) (3 * (j:Int) - 1) (3 * (k:Int) + 2) r.2
      else r.2
    let s2 := emitT v (pr.getD (j+1) 0) (pr.getD j 0)
      (3 * (i:Int) - 2) (3 * (j:Int) + 1) (3 * (k:Int) + 1) s1
    { s := s2, currentRow := acc.currentRow ++ [v], prev := some v,
      vcalls := acc.vcalls ++ [(i, j, k)],
      emits := acc.emits ++ e1 ++
        [((v, pr.getD (j+1) 0, pr.getD j 0),
          (3 * (i:Int) - 2, 3 * (j:Int) + 1, 3 * (k:Int) + 1))] }

/-- The inner (`j`) loop of row `i`. -/
def runRow {σ : Type} (addV : Nat → Nat → Nat → σ → Nat × σ)
    (emitT : Nat → Nat → Nat → Int → Int → Int → σ → σ)
    (n i : Nat) (prevRow : Option (List Nat)) (s : σ) : RowAcc σ :=
  (List.range (n - i + 1)).foldl (rowStep addV emitT i (n - i) prevRow)
    ⟨s, [], none, [], []⟩

structure TriAcc (σ : Type) where
  s : σ
  prevRow : Option (List Nat)
  vcalls : List (Nat × Nat × Nat)
  emits : List ((Nat × Nat × Nat) × (Int × Int × Int))

/-- The whole `triangulate` run. -/
def triangulate {σ : Type} (n : Nat)
    (addV : Nat → Nat → Nat → σ → Nat × σ)
    (emitT : Nat → Nat → Nat → Int → Int → Int → σ → σ) (s0 : σ) :
    TriAcc σ :=
  (List.range (n + 1)).foldl
    (fun acc i =>
      let r := runRow addV emitT n i acc.prevRow acc.s
      ⟨r.s, some r.currentRow, acc.vcalls ++ r.vcalls, acc.emits ++ r.emits⟩)
    ⟨s0, none, [], []⟩

/-- The triangular lattice `{(i, j, k) | i + j + k = n}`, in the row-major
order walked by `triangulate`. -/
def lattice (n : Nat) : List (Nat × Nat × Nat) :=
  (List.range (n + 1)).flatMap
    (fun i => (List.range (n - i + 1)).map (fun j => (i, j, n - i - j)))

theorem mem_lattice (n : Nat) (p : Nat × Nat × Nat) :
    p ∈ lattice n ↔ p.1 + p.2.1 + p.2.2 = n := by
  obtain ⟨i, j, k⟩ := p
  simp only [lattice, List.mem_flatMap, List.mem_map, List.mem_range]
  constructor
  · rintro ⟨i', hi', j', hj', he⟩
    injection he with h1 he2
    injection he2 with h2 h3
    omega
  · intro h
    refine ⟨i, by omega, j, by omega, ?_⟩
    simp only at h ⊢
    have : n - i - j = k := by omega
    rw [this]

theorem nodup_lattice (n : Nat) : (lattice n).Nodup := by
  rw [lattice, List.nodup_flatMap]
  constructor
  · intro i _
    apply List.Nodup.map
    · intro a b he
      injection he with h1 he2
      injection he2 with h2 h3
    · exact List.nodup_range _
  · rw [List.pairwise_iff_forall_sublist]
    intro i i' hsub
    have hne : i ≠ i' := by
      intro he
      subst he
      have := List.Sublist.nodup hsub (List.nodup_range _)
      simp at this
    intro p hp hp'
    rcases List.mem_map.1 hp with ⟨j, -, he⟩
    rcases List.mem_map.1 hp' with ⟨j', -, he'⟩
    rw [← he'] at he
    injection he with h1 he2
    exact hne h1

end Triangulate

namespace Triangulate

variable {σ : Type} (addV : Nat → Nat → Nat → σ → Nat × σ)
variable (emitT : Nat → Nat → Nat → Int → Int → Int → σ → σ)

theorem rowStep_vcalls (i n_i : Nat) (prevRow : Option (List Nat))
    (acc : RowAcc σ) (j : Nat) :
    (rowStep addV emitT i n_i prevRow acc j).vcalls =
      acc.vcalls ++ [(i, j, n_i - j)] := by
  cases prevRow <;> rfl

theorem foldRow_vcalls (i n_i : Nat) (prevRow : Option (List Nat))
    (js : List Nat) :
    ∀ acc : RowAcc σ,
      (js.foldl (rowStep addV emitT i n_i prevRow) acc).vcalls =
        acc.vcalls ++ js.map (fun j => (i, j, n_i - j)) := by
  induction js with
  | nil => intro acc; simp
  | cons j rest ih =>
    intro acc
    rw [List.foldl_cons, ih, rowStep_vcalls]
    simp

theorem runRow_vcalls (n i : Nat) (prevRow : Option (List Nat)) (s : σ) :
    (runRow addV emitT n i prevRow s).vcalls =
      (List.range (n - i + 1)).map (fun j => (i, j, n - i - j)) := by
  unfold runRow
  rw [foldRow_vcalls]
  rfl

theorem foldTri_vcalls (n : Nat) (is : List Nat) :
    ∀ acc : TriAcc σ,
      (is.foldl (fun acc i =>
        let r := runRow addV emitT n i acc.prevRow acc.s
        ⟨r.s, some r.currentRow, acc.vcalls ++ r.vcalls,
         acc.emits ++ r.emits⟩) acc).vcalls =
        acc.vcalls ++ is.flatMap
          (fun i => (List.range (n - i + 1)).map (fun j => (i, j, n - i - j))) := by
  induction is with
  | nil => intro acc; simp
  | cons i rest ih =>
    intro acc
    rw [List.foldl_cons, ih]
    simp only [runRow_vcalls, List.flatMap_cons, List.append_assoc]

/-- `triangulate` passes to the vertex callback exactly the lattice points
`(i, j, k)` with `i + j + k = n`, in row-major order, whatever the
callback does. -/
theorem triangulate_vcalls (n : Nat) (s0 : σ) :
    (triangulate n addV emitT s0).vcalls = lattice n := by
  unfold triangulate lattice
  rw [foldTri_vcalls]
  rfl

end Triangulate

namespace Triangulate

variable {σ : Type} (addV : Nat → Nat → Nat → σ → Nat × σ)
variable (emitT : Nat → Nat → Nat → Int → Int → Int → σ → σ)

theorem rowStep_emits_none (i n_i : Nat) (acc : RowAcc σ) (j : Nat) :
    (rowStep addV emitT i n_i none acc j).emits = acc.emits := rfl

theorem rowStep_prev (i n_i : Nat) (prevRow : Option (List Nat))
    (acc : RowAcc σ) (j : Nat) :
    ∃ s', (rowStep addV emitT i n_i prevRow acc j).prev =
      some (addV i j (n_i - j) s').1 := by
  cases prevRow <;> exact ⟨acc.s, rfl⟩

theorem rowStep_emits_some (i n_i : Nat) (pr : List Nat) (acc : RowAcc σ)
    (j : Nat) :
    (rowStep addV emitT i n_i (some pr) acc j).emits.length =
      acc.emits.length + (if truthy acc.prev then 1 else 0) + 1 := by
  simp only [rowStep]
  by_cases h : truthy acc.prev <;> simp [h]

theorem foldRow_emits_none (i n_i : Nat) (js : List Nat) :
    ∀ acc : RowAcc σ,
      (js.foldl (rowStep addV emitT i n_i none) acc).emits = acc.emits := by
  induction js with
  | nil => intro acc; rfl
  | cons j rest ih =>
    intro acc
    rw [List.foldl_cons, ih, rowStep_emits_none]

theorem foldRow_emits_truthy
    (hnz : ∀ i j k s, (addV i j k s).1 ≠ 0)
    (i n_i : Nat) (pr : List Nat) (js : List Nat) :
    ∀ acc : RowAcc σ, truthy acc.prev = true →
      (js.foldl (rowStep addV emitT i n_i (some pr)) acc).emits.length =
        acc.emits.length + 2 * js.length := by
  induction js with
  | nil => intro acc _; simp
  | cons j rest ih =>
    intro acc hacc
    rw [List.foldl_cons]
    have hprev : truthy (rowStep addV emitT i n_i (some pr) acc j).prev
        = true := by
      obtain ⟨s', hs⟩ := rowStep_prev addV emitT i n_i (some pr) acc j
      rw [hs]
      simp [truthy, hnz i j (n_i - j) s']
    rw [ih _ hprev, rowStep_emits_some, if_pos hacc]
    simp only [List.length_cons]
    omega

/-- With a vertex callback that never returns index `0`, a row below a
previous row emits `2 (n - i) + 1` triangles. -/
theorem runRow_emits_some (hnz : ∀ i j k s, (addV i j k s).1 ≠ 0)
    (n i : Nat) (pr : List Nat) (s : σ) :
    (runRow addV emitT n i (some pr) s).emits.length = 2 * (n - i) + 1 := by
  unfold runRow
  rw [List.range_succ_eq_map, List.foldl_cons]
  have hprev : truthy (rowStep addV emitT i (n - i) (some pr)
      ⟨s, [], none, [], []⟩ 0).prev = true := by
    obtain ⟨s', hs⟩ := rowStep_prev addV emitT i (n - i) (some pr)
      ⟨s, [], none, [], []⟩ 0
    rw [hs]
    simp [truthy]
    exact hnz i 0 (n - i) s'
  rw [foldRow_emits_truthy addV emitT hnz i (n - i) pr _ _ hprev]
  rw [rowStep_emits_some]
  simp [truthy]
  omega

theorem runRow_emits_none (n i : Nat) (s : σ) :
    (runRow addV emitT n i none s).emits = [] := by
  unfold runRow
  rw [foldRow_emits_none]

/-- After the first `m` rows: no previous row and no triangles for
`m = 0`; otherwise a previous row exists and the count is
`2 n (m-1) - (m-1)²`. -/
theorem triangulate_emits_aux (hnz : ∀ i j k s, (addV i j k s).1 ≠ 0)
    (n : Nat) (s0 : σ) :
    ∀ m, m ≤ n + 1 →
      (m = 0 → ((List.range m).foldl (fun acc i =>
          let r := runRow addV emitT n i acc.prevRow acc.s
          (⟨r.s, some r.currentRow, acc.vcalls ++ r.vcalls,
            acc.emits ++ r.emits⟩ : TriAcc σ)) ⟨s0, none, [], []⟩).prevRow
            = none ∧
        ((List.range m).foldl (fun acc i =>
          let r := runRow addV emitT n i acc.prevRow acc.s
          (⟨r.s, some r.currentRow, acc.vcalls ++ r.vcalls,
            acc.emits ++ r.emits⟩ : TriAcc σ)) ⟨s0, none, [], []⟩).emits
            = []) ∧
      (1 ≤ m → (∃ pr, ((List.range m).foldl (fun acc i =>
          let r := runRow addV emitT n i acc.prevRow acc.s
          (⟨r.s, some r.currentRow, acc.vcalls ++ r.vcalls,
            acc.emits ++ r.emits⟩ : TriAcc σ)) ⟨s0, none, [], []⟩).prevRow
            = some pr) ∧
        ((List.range m).foldl (fun acc i =>
          let r := runRow addV emitT n i acc.prevRow acc.s
          (⟨r.s, some r.currentRow, acc.vcalls ++ r.vcalls,
            acc.emits ++ r.emits⟩ : TriAcc σ)) ⟨s0, none, [], []⟩).emits.length
            = 2*n*(m-1) - (m-1)*(m-1)) := by
  intro m
  induction m with
  | zero => intro _; exact ⟨fun _ => ⟨rfl, rfl⟩, fun h => absurd h (by omega)⟩
  | succ m ih =>
    intro hle
    have ihm := ih (by omega)
    refine ⟨fun h => absurd h (by omega), fun _ => ?_⟩
    rw [List.range_succ, List.foldl_append, List.foldl_cons, List.foldl_nil]
    rcases Nat.eq_zero_or_pos m with hm | hm
    · subst hm
      obtain ⟨hnone, hemits⟩ := ihm.1 rfl
      rw [hnone, hemits]
      refine ⟨⟨_, rfl⟩, ?_⟩
      simp [runRow_emits_none]
    · obtain ⟨⟨pr, hpr⟩, hlen⟩ := ihm.2 hm
      rw [hpr]
      refine ⟨⟨_, rfl⟩, ?_⟩
      simp only [List.length_append]
      rw [hlen, runRow_emits_some addV emitT hnz]
      have hmn : m ≤ n := by omega
      have hm1 : 1 ≤ m := hm
      have h1 : (m-1)*(m-1) ≤ 2*n*(m-1) :=
        Nat.mul_le_mul_right _ (by omega)
      have h2 : m*m ≤ 2*n*m :=
        Nat.mul_le_mul_right _ (by omega)
      simp only [Nat.add_sub_cancel]
      zify [h1, h2, hmn, hm1]
      ring

/-- With a vertex callback that never returns index `0`, `triangulate n`
emits exactly `n²` triangles. -/
theorem triangulate_emits_sq (hnz : ∀ i j k s, (addV i j k s).1 ≠ 0)
    (n : Nat) (s0 : σ) :
    (triangulate n addV emitT s0).emits.length = n * n := by
  unfold triangulate
  rcases Nat.eq_zero_or_pos n with hn | hn
  · subst hn
    obtain ⟨⟨pr, -⟩, hlen⟩ :=
      (triangulate_emits_aux addV emitT hnz 0 s0 1 (by omega)).2 (by omega)
    simpa using hlen
  · obtain ⟨⟨pr, -⟩, hlen⟩ :=
      (triangulate_emits_aux addV emitT hnz n s0 (n + 1) (by omega)).2
        (by omega)
    rw [hlen]
    simp only [Nat.add_sub_cancel]
    have h2 : 2*n*n = n*n + n*n := by ring
    omega

end Triangulate

namespace Soap

open AListLemmas

/-! ### Mesh combinatorics

The smoothing scan pulls each triangle vertex towards its cyclic successor,
so the relevant combinatorial data is the list of *directed* edges of the
triangle list. -/

/-- The three directed edges of one triangle, in scan order. -/
def edgeList (t : Nat × Nat × Nat) : List (Nat × Nat) :=
  [(t.1, t.2.1), (t.2.1, t.2.2), (t.2.2, t.1)]

/-- All directed edges of the mesh (with multiplicity). -/
def dEdges (s : SoapState) : List (Nat × Nat) :=
  s.triangles.flatMap edgeList

/-- The targets of the directed edges leaving `i` — exactly the vertices
whose positions the smoothing scan accumulates into `sums[i]`. -/
def outList (s : SoapState) (i : Nat) : List Nat :=
  (dEdges s).filterMap (fun e => if e.1 = i then some e.2 else none)

/-- The set of vertices directly connected to `i` by a triangle edge. -/
def nbrs (s : SoapState) (i : Nat) : Finset Nat :=
  ((dEdges s).filterMap (fun e =>
    if e.1 = i then some e.2
    else if e.2 = i then some e.1 else none)).toFinset

/-- The vertex set of a triangle. -/
def vset (t : Nat × Nat × Nat) : Finset Nat := {t.1, t.2.1, t.2.2}

/-- The structural invariant of the working mesh maintained by the
relaxation algorithm: indexes in range, consistently oriented nondegenerate
triangles, interior edges shared by exactly two triangles in opposite
orientation, interior vertices of out-degree six, and no two triangles on
the same vertex set. -/
structure MeshInv (s : SoapState) : Prop where
  triIdx : ∀ t ∈ s.triangles, t.1 < s.vertices.length ∧
    t.2.1 < s.vertices.length ∧ t.2.2 < s.vertices.length
  borderIdx : ∀ e ∈ s.border, e.1 < s.vertices.length
  borderNodup : (s.border.map Prod.fst).Nodup
  nondegen : ∀ t ∈ s.triangles, t.1 ≠ t.2.1 ∧ t.2.1 ≠ t.2.2 ∧ t.2.2 ≠ t.1
  orient : (dEdges s).Nodup
  symmEdge : ∀ e ∈ dEdges s,
    (alHas s.border e.1 = false ∨ alHas s.border e.2 = false) →
    (e.2, e.1) ∈ dEdges s
  six : ∀ i, i < s.vertices.length → alHas s.border i = false →
    (outList s i).length = 6
  uniq : (s.triangles.map vset).Nodup

/-! ### The refinement pass, characterized

The outputs of `refinePass` are expressed through `passMid`, the final
content of the edge-midpoint cache, which requires knowing that cache
entries are created at most once and never overwritten. -/

/-- Cache extension order. -/
def CacheLe (st st' : PassSt) : Prop :=
  ∀ k v, alGet st.cache k = some v → alGet st'.cache k = some v

theorem cacheLe_refl (st : PassSt) : CacheLe st st := fun _ _ h => h

theorem cacheLe_trans {st1 st2 st3 : PassSt} (h1 : CacheLe st1 st2)
    (h2 : CacheLe st2 st3) : CacheLe st1 st3 :=
  fun k v h => h2 k v (h1 k v h)

theorem getEdgeCenter_cacheLe (bd : ℚ → Vec3) (a b : Nat) (st : PassSt) :
    CacheLe st (getEdgeCenter bd a b st).2 :=
  fun k v h => getEdgeCenter_cache_mono bd a b st k v h

theorem refineTri_cacheLe (bd : ℚ → Vec3) (t : Nat × Nat × Nat)
    (st : PassSt) : CacheLe st (refineTri bd t st).2 := by
  show CacheLe st (getEdgeCenter bd t.2.2 t.1
    (getEdgeCenter bd t.2.1 t.2.2 (getEdgeCenter bd t.1 t.2.1 st).2).2).2
  exact cacheLe_trans (getEdgeCenter_cacheLe bd t.1 t.2.1 st)
    (cacheLe_trans (getEdgeCenter_cacheLe bd t.2.1 t.2.2 _)
      (getEdgeCenter_cacheLe bd t.2.2 t.1 _))

/-- The midpoint vertex recorded in a pass state for the unordered pair
`{x, y}`. -/
def midOf (st : PassSt) (x y : Nat) : Nat :=
  (alGet st.cache (edgeKey x y)).getD 0

theorem midOf_comm (st : PassSt) (x y : Nat) : midOf st x y = midOf st y x := by
  unfold midOf
  rw [edgeKey_comm]

/-- After `refineTri`, the three edge keys of the triangle are cached with
the returned midpoint indices. -/
theorem refineTri_caches (bd : ℚ → Vec3) (t : Nat × Nat × Nat) (st : PassSt) :
    alGet (refineTri bd t st).2.cache (edgeKey t.1 t.2.1) =
      some (refineTri bd t st).1.1.1 ∧
    alGet (refineTri bd t st).2.cache (edgeKey t.2.1 t.2.2) =
      some (refineTri bd t st).1.1.2.1 ∧
    alGet (refineTri bd t st).2.cache (edgeKey t.2.2 t.1) =
      some (refineTri bd t st).1.1.2.2 := by
  refine ⟨?_, ?_, ?_⟩
  · show alGet (getEdgeCenter bd t.2.2 t.1
      (getEdgeCenter bd t.2.1 t.2.2 (getEdgeCenter bd t.1 t.2.1 st).2).2).2.cache
        (edgeKey t.1 t.2.1) = some (getEdgeCenter bd t.1 t.2.1 st).1
    apply getEdgeCenter_cache_mono
    apply getEdgeCenter_cache_mono
    exact getEdgeCenter_caches bd t.1 t.2.1 st
  · show alGet (getEdgeCenter bd t.2.2 t.1
      (getEdgeCenter bd t.2.1 t.2.2 (getEdgeCenter bd t.1 t.2.1 st).2).2).2.cache
        (edgeKey t.2.1 t.2.2) =
      some (getEdgeCenter bd t.2.1 t.2.2 (getEdgeCenter bd t.1 t.2.1 st).2).1
    apply getEdgeCenter_cache_mono
    exact getEdgeCenter_caches bd t.2.1 t.2.2 _
  · exact getEdgeCenter_caches bd t.2.2 t.1 _

end Soap

namespace Soap

open AListLemmas

/-- The center replacement triangle of `t`, through a midpoint function. -/
def childCenter (mid : Nat → Nat → Nat) (t : Nat × Nat × Nat) :
    Nat × Nat × Nat :=
  (mid t.1 t.2.1, mid t.2.1 t.2.2, mid t.2.2 t.1)

/-- The three appended corner triangles of `t`. -/
def childCorners (mid : Nat → Nat → Nat) (t : Nat × Nat × Nat) :
    List (Nat × Nat × Nat) :=
  [(t.1, mid t.1 t.2.1, mid t.2.2 t.1),
   (t.2.1, mid t.2.1 t.2.2, mid t.1 t.2.1),
   (t.2.2, mid t.2.2 t.1, mid t.2.1 t.2.2)]

/-- The body of the `refinePass` fold. -/
def passStep (bd : ℚ → Vec3)
    (acc : (List (Nat × Nat × Nat) × List (Nat × Nat × Nat)) × PassSt)
    (t : Nat × Nat × Nat) :
    (List (Nat × Nat × Nat) × List (Nat × Nat × Nat)) × PassSt :=
  let r := refineTri bd t acc.2
  ((acc.1.1 ++ [r.1.1], acc.1.2 ++ r.1.2), r.2)

theorem refinePass_eq_fold (bd : ℚ → Vec3) (s : SoapState) :
    refinePass bd s =
      s.triangles.foldl (passStep bd) (([], []), ⟨s.vertices, s.border, []⟩) :=
  rfl

/-- The whole refinement pass, characterized: every processed edge key ends
up cached, and the two triangle output lists are exactly the centers and
the corner triples of the input triangles, built from the final midpoint
assignment. -/
theorem refineFold_spec (bd : ℚ → Vec3) (ts : List (Nat × Nat × Nat)) :
    ∀ acc : (List (Nat × Nat × Nat) × List (Nat × Nat × Nat)) × PassSt,
      CacheLe acc.2 (ts.foldl (passStep bd) acc).2 ∧
      (∀ t ∈ ts,
        (alGet (ts.foldl (passStep bd) acc).2.cache
          (edgeKey t.1 t.2.1)).isSome = true ∧
        (alGet (ts.foldl (passStep bd) acc).2.cache
          (edgeKey t.2.1 t.2.2)).isSome = true ∧
        (alGet (ts.foldl (passStep bd) acc).2.cache
          (edgeKey t.2.2 t.1)).isSome = true) ∧
      (ts.foldl (passStep bd) acc).1.1 =
        acc.1.1 ++ ts.map (childCenter (midOf (ts.foldl (passStep bd) acc).2)) ∧
      (ts.foldl (passStep bd) acc).1.2 =
        acc.1.2 ++
          ts.flatMap (childCorners (midOf (ts.foldl (passStep bd) acc).2)) := by
  induction ts with
  | nil =>
    intro acc
    exact ⟨cacheLe_refl _, by simp, by simp, by simp⟩
  | cons t rest ih =>
    intro acc
    rw [List.foldl_cons]
    obtain ⟨hle, hsome, hc, hk⟩ := ih (passStep bd acc t)
    obtain ⟨h1, h2, h3⟩ := refineTri_caches bd t acc.2
    have hle0 : CacheLe acc.2 (passStep bd acc t).2 :=
      refineTri_cacheLe bd t acc.2
    have hf1 : alGet (rest.foldl (passStep bd) (passStep bd acc t)).2.cache
        (edgeKey t.1 t.2.1) = some (refineTri bd t acc.2).1.1.1 :=
      hle _ _ h1
    have hf2 : alGet (rest.foldl (passStep bd) (passStep bd acc t)).2.cache
        (edgeKey t.2.1 t.2.2) = some (refineTri bd t acc.2).1.1.2.1 :=
      hle _ _ h2
    have hf3 : alGet (rest.foldl (passStep bd) (passStep bd acc t)).2.cache
        (edgeKey t.2.2 t.1) = some (refineTri bd t acc.2).1.1.2.2 :=
      hle _ _ h3
    refine ⟨cacheLe_trans hle0 hle, ?_, ?_, ?_⟩
    · intro t' ht'
      rcases List.mem_cons.1 ht' with h | h
      · subst h
        exact ⟨by simp [hf1], by simp [hf2], by simp [hf3]⟩
      · exact hsome t' h
    · rw [hc]
      have hcent : childCenter
          (midOf (rest.foldl (passStep bd) (passStep bd acc t)).2) t =
          (refineTri bd t acc.2).1.1 := by
        unfold childCenter midOf
        rw [hf1, hf2, hf3]
        rfl
      show (passStep bd acc t).1.1 ++ _ = _
      rw [List.map_cons, hcent]
      show acc.1.1 ++ [(refineTri bd t acc.2).1.1] ++ _ = _
      simp
    · rw [hk]
      have hcorn : childCorners
          (midOf (rest.foldl (passStep bd) (passStep bd acc t)).2) t =
          (refineTri bd t acc.2).1.2 := by
        unfold childCorners midOf
        rw [hf1, hf2, hf3]
        rfl
      show (passStep bd acc t).1.2 ++ _ = _
      rw [List.flatMap_cons, hcorn]
      show acc.1.2 ++ (refineTri bd t acc.2).1.2 ++ _ = _
      simp

end Soap

namespace Soap

open AListLemmas

/-- The pair `{x, y}` is an edge of some triangle of `s`. -/
def Queried (s : SoapState) (x y : Nat) : Prop :=
  ∃ t ∈ s.triangles, (x, y) ∈ edgeList t

/-- Invariant of the pass state during one refinement pass over the
pre-pass mesh `s`: the vertex list only grows, old border entries are
untouched, border keys stay in range with no duplicates, cache values are
exactly the freshly created midpoint vertices (all distinct), and every
cache entry carries the border/position semantics of the midpoint it
created. -/
structure PassInv (bd : ℚ → Vec3) (s : SoapState) (st : PassSt) : Prop where
  vext : ∃ ext, st.vertices = s.vertices ++ ext
  bold : ∀ i, i < s.vertices.length → alGet st.border i = alGet s.border i
  bkeys : ∀ e ∈ st.border, e.1 < st.vertices.length
  bnodup : (st.border.map Prod.fst).Nodup
  cval : ∀ e ∈ st.cache, s.vertices.length ≤ e.2 ∧ e.2 < st.vertices.length
  cvalNodup : (st.cache.map Prod.snd).Nodup
  csem : ∀ e ∈ st.cache, ∀ p q : Nat, p < s.vertices.length →
    q < s.vertices.length → e.1 = edgeKey p q →
    (if alHas s.border p && alHas s.border q then
       alGet st.border e.2 =
         some (midParam ((alGet s.border p).getD 0)
           ((alGet s.border q).getD 0)) ∧
       st.vertices.getD e.2 0 =
         bd (midParam ((alGet s.border p).getD 0) ((alGet s.border q).getD 0))
     else
       alHas st.border e.2 = false ∧
       st.vertices.getD e.2 0 =
         Vec3.scale (1/2) (posD s p + posD s q))
  ckeys : (st.cache.map Prod.fst).Nodup
  cquer : ∀ e ∈ st.cache, ∃ p q, p < s.vertices.length ∧
    q < s.vertices.length ∧ e.1 = edgeKey p q ∧ Queried s p q
  csurj : ∀ j, s.vertices.length ≤ j → j < st.vertices.length →
    ∃ e ∈ st.cache, e.2 = j

theorem midParam_comm (fa fb : ℚ) : midParam fa fb = midParam fb fa := by
  unfold midParam
  rw [add_comm fa fb, abs_sub_comm]

theorem PassInv.vlen_le {bd : ℚ → Vec3} {s : SoapState} {st : PassSt}
    (h : PassInv bd s st) : s.vertices.length ≤ st.vertices.length := by
  obtain ⟨ext, he⟩ := h.vext
  rw [he]
  simp

theorem PassInv.bold_has {bd : ℚ → Vec3} {s : SoapState} {st : PassSt}
    (h : PassInv bd s st) (i : Nat) (hi : i < s.vertices.length) :
    alHas st.border i = alHas s.border i := by
  unfold alHas
  rw [h.bold i hi]

theorem PassInv.posD_old {bd : ℚ → Vec3} {s : SoapState} {st : PassSt}
    (h : PassInv bd s st) (i : Nat) (hi : i < s.vertices.length) :
    st.vertices.getD i 0 = posD s i := by
  obtain ⟨ext, he⟩ := h.vext
  rw [he, getD_append_left_of_lt _ hi]
  rfl

theorem PassInv.border_len_false {bd : ℚ → Vec3} {s : SoapState}
    {st : PassSt} (h : PassInv bd s st) (k : Nat)
    (hk : st.vertices.length ≤ k) : alHas st.border k = false := by
  rw [alHas, Bool.eq_false_iff]
  intro hsome
  rcases alGet_isSome_iff_mem.1 hsome with ⟨w, hw⟩
  have := h.bkeys _ hw
  omega

theorem alGet_append_single {β : Type} (m : List (Nat × β)) (k i : Nat)
    (v : β) (h : k ≠ i) : alGet (m ++ [(k, v)]) i = alGet m i := by
  induction m with
  | nil => simp [alGet, h]
  | cons e rest ih => by_cases he : e.1 = i <;> simp [alGet, he, ih]

/-- One `getEdgeCenter` call on an edge of the pre-pass mesh preserves the
pass invariant — the crucial case being the creation of a fresh midpoint
vertex, whose cache entry then satisfies the midpoint semantics for every
decoding of its packed key (unique below the packing width). -/
theorem getEdgeCenter_passInv (bd : ℚ → Vec3) (s : SoapState) (st : PassSt)
    (a b : Nat) (ha : a < s.vertices.length) (hb : b < s.vertices.length)
    (hab : a ≠ b) (hq : Queried s a b)
    (hbound : s.vertices.length ≤ 2 ^ 26)
    (hinv : PassInv bd s st) :
    PassInv bd s (getEdgeCenter bd a b st).2 := by
  have hVle := hinv.vlen_le
  set L := st.vertices.length with hL
  cases hc : alGet st.cache (edgeKey a b) with
  | some v =>
    rw [getEdgeCenter_hit bd a b st v hc]
    exact hinv
  | none =>
    have hLhas : alHas st.border L = false :=
      hinv.border_len_false L (le_refl _)
    have hLkey : ∀ e ∈ st.border, e.1 ≠ L := by
      intro e he
      have := hinv.bkeys e he
      omega
    have hcmiss : alHas st.cache (edgeKey a b) = false := by
      rw [alHas, hc]
      rfl
    have hcache_app : alSet st.cache (edgeKey a b) L =
        st.cache ++ [(edgeKey a b, L)] :=
      alSet_append_of_not_has _ _ _ hcmiss
    have hdecode : ∀ p q : Nat, p < s.vertices.length →
        q < s.vertices.length → edgeKey a b = edgeKey p q →
        (p = a ∧ q = b) ∨ (p = b ∧ q = a) := by
      intro p q hp hq hk
      have h1 : max a b < 2 ^ 26 := by omega
      have h2 : max p q < 2 ^ 26 := by omega
      have := edgeKey_inj a b p q h1 h2 hk
      omega
    have hcache_mem : ∀ e ∈ alSet st.cache (edgeKey a b) L,
        e ∈ st.cache ∨ e = (edgeKey a b, L) := by
      intro e he
      exact mem_of_mem_alSet he
    have hknotmem : edgeKey a b ∉ st.cache.map Prod.fst := by
      intro hk
      rcases List.mem_map.1 hk with ⟨e, he, hke⟩
      have : (alGet st.cache (edgeKey a b)).isSome = true := by
        apply alGet_isSome_iff_mem.2
        obtain ⟨k', v'⟩ := e
        simp only at hke
        subst hke
        exact ⟨v', he⟩
      rw [hc] at this
      cases this
    by_cases hbb : (alHas st.border a && alHas st.border b) = true
    · -- a fresh border midpoint is created
      rcases Bool.and_eq_true_iff.1 hbb with ⟨hba, hbbb⟩
      rcases Option.isSome_iff_exists.1 hba with ⟨fa, hfa⟩
      rcases Option.isSome_iff_exists.1 hbbb with ⟨fb, hfb⟩
      obtain ⟨hres, hv, hbr, hcc⟩ :=
        getEdgeCenter_border_spec bd a b st fa fb hc hfa hfb
      have hsba : alGet s.border a = some fa := by
        rw [← hinv.bold a ha]; exact hfa
      have hsbb : alGet s.border b = some fb := by
        rw [← hinv.bold b hb]; exact hfb
      have hborder_app : alSet st.border L (midParam fa fb) =
          st.border ++ [(L, midParam fa fb)] :=
        alSet_append_of_not_has _ _ _ hLhas
      have hlen' : (getEdgeCenter bd a b st).2.vertices.length = L + 1 := by
        rw [hv]; simp
      constructor
      · obtain ⟨ext, he⟩ := hinv.vext
        exact ⟨ext ++ [bd (midParam fa fb)], by rw [hv, he]; simp⟩
      · intro i hi
        rw [hbr, hborder_app, alGet_append_single _ _ _ _ (by omega),
          hinv.bold i hi]
      · intro e he
        rw [hbr, hborder_app] at he
        rw [hlen']
        rcases List.mem_append.1 he with h | h
        · have := hinv.bkeys e h
          omega
        · simp only [List.mem_singleton] at h
          subst h
          omega
      · rw [hbr, hborder_app, List.map_append, List.nodup_append]
        refine ⟨hinv.bnodup, by simp, ?_⟩
        intro k hk1 hk2
        simp only [List.map_cons, List.map_nil, List.mem_singleton] at hk2
        subst hk2
        rcases List.mem_map.1 hk1 with ⟨e, he, hke⟩
        exact hLkey e he hke
      · intro e he
        rw [hcc, hcache_app] at he
        rw [hlen']
        rcases List.mem_append.1 he with h | h
        · have := hinv.cval e h
          omega
        · simp only [List.mem_singleton] at h
          subst h
          simp only
          omega
      · rw [hcc, hcache_app, List.map_append, List.nodup_append]
        refine ⟨hinv.cvalNodup, by simp, ?_⟩
        intro v hv1 hv2
        simp only [List.map_cons, List.map_nil, List.mem_singleton] at hv2
        subst hv2
        rcases List.mem_map.1 hv1 with ⟨e, he, hve⟩
        have := (hinv.cval e he).2
        omega
      · intro e he p q hp hq hkey
        rw [hcc] at he
        rcases hcache_mem e he with h | h
        · -- an old cache entry: its semantics survive the append
          have hsem := hinv.csem e h p q hp hq hkey
          have hev2 : e.2 < L := (hinv.cval e h).2
          by_cases hpq : (alHas s.border p && alHas s.border q) = true
          · rw [if_pos hpq] at hsem ⊢
            refine ⟨?_, ?_⟩
            · rw [hbr, hborder_app, alGet_append_single _ _ _ _ (by omega)]
              exact hsem.1
            · rw [hv, getD_append_left_of_lt _ hev2]
              exact hsem.2
          · rw [if_neg hpq] at hsem ⊢
            refine ⟨?_, ?_⟩
            · rw [hbr]
              rw [alHas_set]
              have : ¬ (L = e.2) := by omega
              simp [this, hsem.1]
            · rw [hv, getD_append_left_of_lt _ hev2]
              exact hsem.2
        · -- the fresh entry: decode its key and use the recorded data
          subst h
          simp only at hkey ⊢
          have hcond : (alHas s.border p && alHas s.border q) = true := by
            rcases hdecode p q hp hq hkey with ⟨hpa, hqb⟩ | ⟨hpb, hqa⟩
            · subst hpa; subst hqb
              simp [alHas, hsba, hsbb]
            · subst hpb; subst hqa
              simp [alHas, hsba, hsbb]
          rw [if_pos hcond]
          have hget : alGet (getEdgeCenter bd a b st).2.border L =
              some (midParam fa fb) := by
            rw [hbr]
            exact alGet_set_self _ _ _
          have hpos : (getEdgeCenter bd a b st).2.vertices.getD L 0 =
              bd (midParam fa fb) := by
            rw [hv]
            exact getD_append_len _ _ _
          rcases hdecode p q hp hq hkey with ⟨hpa, hqb⟩ | ⟨hpb, hqa⟩
          · subst hpa; subst hqb
            rw [hsba, hsbb]
            simp only [Option.getD_some]
            exact ⟨hget, hpos⟩
          · subst hpb; subst hqa
            rw [hsba, hsbb]
            simp only [Option.getD_some]
            rw [midParam_comm]
            exact ⟨hget, hpos⟩
      · rw [hcc, hcache_app, List.map_append, List.nodup_append]
        refine ⟨hinv.ckeys, by simp, ?_⟩
        intro k hk1 hk2
        simp only [List.map_cons, List.map_nil, List.mem_singleton] at hk2
        subst hk2
        exact hknotmem hk1
      · intro e he
        rw [hcc] at he
        rcases hcache_mem e he with h | h
        · exact hinv.cquer e h
        · subst h
          exact ⟨a, b, ha, hb, rfl, hq⟩
      · intro j hj1 hj2
        rw [hlen'] at hj2
        by_cases hjL : j < L
        · obtain ⟨e, he, hej⟩ := hinv.csurj j hj1 hjL
          refine ⟨e, ?_, hej⟩
          rw [hcc, hcache_app]
          exact List.mem_append_left _ he
        · have hjeq : j = L := by omega
          subst hjeq
          refine ⟨(edgeKey a b, L), ?_, rfl⟩
          rw [hcc, hcache_app]
          simp
    · -- a fresh interior midpoint is created
      rw [Bool.not_eq_true] at hbb
      obtain ⟨hres, hv, hbr, hcc⟩ :=
        getEdgeCenter_interior_spec bd a b st hc hbb
      have hsbb : (alHas s.border a && alHas s.border b) = false := by
        rw [← hinv.bold_has a ha, ← hinv.bold_has b hb]
        exact hbb
      have hlen' : (getEdgeCenter bd a b st).2.vertices.length = L + 1 := by
        rw [hv]; simp
      have hposmid : (getEdgeCenter bd a b st).2.vertices.getD L 0 =
          Vec3.scale (1/2) (posD s a + posD s b) := by
        rw [hv, getD_append_len, hinv.posD_old a ha, hinv.posD_old b hb]
      constructor
      · obtain ⟨ext, he⟩ := hinv.vext
        refine ⟨ext ++
          [Vec3.scale (1/2) (st.vertices.getD a 0 + st.vertices.getD b 0)],
          ?_⟩
        rw [hv, he]
        simp
      · intro i hi
        rw [hbr]
        exact hinv.bold i hi
      · intro e he
        rw [hbr] at he
        rw [hlen']
        have := hinv.bkeys e he
        omega
      · rw [hbr]
        exact hinv.bnodup
      · intro e he
        rw [hcc, hcache_app] at he
        rw [hlen']
        rcases List.mem_append.1 he with h | h
        · have := hinv.cval e h
          omega
        · simp only [List.mem_singleton] at h
          subst h
          simp only
          omega
      · rw [hcc, hcache_app, List.map_append, List.nodup_append]
        refine ⟨hinv.cvalNodup, by simp, ?_⟩
        intro v hv1 hv2
        simp only [List.map_cons, List.map_nil, List.mem_singleton] at hv2
        subst hv2
        rcases List.mem_map.1 hv1 with ⟨e, he, hve⟩
        have := (hinv.cval e he).2
        omega
      · intro e he p q hp hq hkey
        rw [hcc] at he
        rcases hcache_mem e he with h | h
        · have hsem := hinv.csem e h p q hp hq hkey
          have hev2 : e.2 < L := (hinv.cval e h).2
          by_cases hpq : (alHas s.border p && alHas s.border q) = true
          · rw [if_pos hpq] at hsem ⊢
            refine ⟨?_, ?_⟩
            · rw [hbr]
              exact hsem.1
            · rw [hv, getD_append_left_of_lt _ hev2]
              exact hsem.2
          · rw [if_neg hpq] at hsem ⊢
            refine ⟨?_, ?_⟩
            · rw [hbr]
              exact hsem.1
            · rw [hv, getD_append_left_of_lt _ hev2]
              exact hsem.2
        · subst h
          simp only at hkey ⊢
          have hcond : (alHas s.border p && alHas s.border q) = false := by
            rcases hdecode p q hp hq hkey with ⟨hpa, hqb⟩ | ⟨hpb, hqa⟩
            · subst hpa; subst hqb
              exact hsbb
            · subst hpb; subst hqa
              rw [Bool.and_comm]
              exact hsbb
          rw [hcond]
          simp only [Bool.false_eq_true, if_false]
          have hhas : alHas (getEdgeCenter bd a b st).2.border L = false := by
            rw [hbr]
            exact hLhas
          rcases hdecode p q hp hq hkey with ⟨hpa, hqb⟩ | ⟨hpb, hqa⟩
          · subst hpa; subst hqb
            exact ⟨hhas, hposmid⟩
          · subst hpb; subst hqa
            rw [add_comm (posD s p)]
            exact ⟨hhas, hposmid⟩
      · rw [hcc, hcache_app, List.map_append, List.nodup_append]
        refine ⟨hinv.ckeys, by simp, ?_⟩
        intro k hk1 hk2
        simp only [List.map_cons, List.map_nil, List.mem_singleton] at hk2
        subst hk2
        exact hknotmem hk1
      · intro e he
        rw [hcc] at he
        rcases hcache_mem e he with h | h
        · exact hinv.cquer e h
        · subst h
          exact ⟨a, b, ha, hb, rfl, hq⟩
      · intro j hj1 hj2
        rw [hlen'] at hj2
        by_cases hjL : j < L
        · obtain ⟨e, he, hej⟩ := hinv.csurj j hj1 hjL
          refine ⟨e, ?_, hej⟩
          rw [hcc, hcache_app]
          exact List.mem_append_left _ he
        · have hjeq : j = L := by omega
          subst hjeq
          refine ⟨(edgeKey a b, L), ?_, rfl⟩
          rw [hcc, hcache_app]
          simp

end Soap

namespace Soap

open AListLemmas

theorem refineTri_passInv (bd : ℚ → Vec3) (s : SoapState)
    (t : Nat × Nat × Nat) (st : PassSt)
    (h1 : t.1 < s.vertices.length) (h2 : t.2.1 < s.vertices.length)
    (h3 : t.2.2 < s.vertices.length)
    (d1 : t.1 ≠ t.2.1) (d2 : t.2.1 ≠ t.2.2) (d3 : t.2.2 ≠ t.1)
    (hq1 : Queried s t.1 t.2.1) (hq2 : Queried s t.2.1 t.2.2)
    (hq3 : Queried s t.2.2 t.1)
    (hbound : s.vertices.length ≤ 2 ^ 26)
    (hinv : PassInv bd s st) : PassInv bd s (refineTri bd t st).2 := by
  show PassInv bd s (getEdgeCenter bd t.2.2 t.1
    (getEdgeCenter bd t.2.1 t.2.2 (getEdgeCenter bd t.1 t.2.1 st).2).2).2
  apply getEdgeCenter_passInv bd s _ _ _ h3 h1 d3 hq3 hbound
  apply getEdgeCenter_passInv bd s _ _ _ h2 h3 d2 hq2 hbound
  exact getEdgeCenter_passInv bd s _ _ _ h1 h2 d1 hq1 hbound hinv

theorem foldPass_passInv (bd : ℚ → Vec3) (s : SoapState)
    (hbound : s.vertices.length ≤ 2 ^ 26) (ts : List (Nat × Nat × Nat))
    (hts : ∀ t ∈ ts, ((t.1 < s.vertices.length ∧ t.2.1 < s.vertices.length ∧
      t.2.2 < s.vertices.length) ∧
      (t.1 ≠ t.2.1 ∧ t.2.1 ≠ t.2.2 ∧ t.2.2 ≠ t.1)) ∧
      (Queried s t.1 t.2.1 ∧ Queried s t.2.1 t.2.2 ∧ Queried s t.2.2 t.1)) :
    ∀ acc : (List (Nat × Nat × Nat) × List (Nat × Nat × Nat)) × PassSt,
      PassInv bd s acc.2 → PassInv bd s (ts.foldl (passStep bd) acc).2 := by
  induction ts with
  | nil => intro acc h; exact h
  | cons t rest ih =>
    intro acc hacc
    rw [List.foldl_cons]
    have hmem := hts t (List.mem_cons_self _ _)
    apply ih (fun t' ht' => hts t' (List.mem_cons_of_mem _ ht'))
    show PassInv bd s (refineTri bd t acc.2).2
    exact refineTri_passInv bd s t acc.2 hmem.1.1.1 hmem.1.1.2.1 hmem.1.1.2.2
      hmem.1.2.1 hmem.1.2.2.1 hmem.1.2.2.2
      hmem.2.1 hmem.2.2.1 hmem.2.2.2 hbound hacc

/-- The final pass state of a refinement pass on a well-formed mesh
satisfies the pass invariant. -/
theorem refinePass_passInv (bd : ℚ → Vec3) (s : SoapState)
    (hM : MeshInv s) (hbound : s.vertices.length ≤ 2 ^ 26) :
    PassInv bd s (refinePass bd s).2 := by
  rw [refinePass_eq_fold]
  apply foldPass_passInv bd s hbound s.triangles
    (fun t ht => ⟨⟨hM.triIdx t ht, hM.nondegen t ht⟩,
      ⟨t, ht, by simp [edgeList]⟩, ⟨t, ht, by simp [edgeList]⟩,
      ⟨t, ht, by simp [edgeList]⟩⟩)
  constructor
  · exact ⟨[], by simp⟩
  · intro i _; rfl
  · exact hM.borderIdx
  · exact hM.borderNodup
  · intro e he; simp at he
  · simp
  · intro e he; simp at he
  · simp
  · intro e he; simp at he
  · intro j hj1 hj2
    exact absurd (lt_of_le_of_lt hj1 hj2) (lt_irrefl _)

theorem queried_cached (bd : ℚ → Vec3) (s : SoapState) (x y : Nat)
    (h : Queried s x y) :
    alGet (refinePass bd s).2.cache (edgeKey x y) = some (passMid bd s x y) := by
  obtain ⟨t, ht, he⟩ := h
  have hspec := (refineFold_spec bd s.triangles
    (([], []), ⟨s.vertices, s.border, []⟩)).2.1 t ht
  rw [refinePass_eq_fold] at *
  have hsome : (alGet (s.triangles.foldl (passStep bd)
      (([], []), ⟨s.vertices, s.border, []⟩)).2.cache (edgeKey x y)).isSome
      = true := by
    simp only [edgeList, List.mem_cons, List.not_mem_nil, or_false,
      Prod.mk.injEq] at he
    rcases he with ⟨hx, hy⟩ | ⟨hx, hy⟩ | ⟨hx, hy⟩
    · subst hx; subst hy; exact hspec.1
    · subst hx; subst hy; exact hspec.2.1
    · subst hx; subst hy; exact hspec.2.2
  rcases Option.isSome_iff_exists.1 hsome with ⟨v, hv⟩
  rw [hv]
  unfold passMid
  rw [refinePass_eq_fold, hv]
  rfl

theorem queried_symm {s : SoapState} {x y : Nat} (h : Queried s x y) :
    ∃ t ∈ s.triangles, (x, y) ∈ edgeList t := h

theorem passMid_comm (bd : ℚ → Vec3) (s : SoapState) (x y : Nat) :
    passMid bd s x y = passMid bd s y x := by
  unfold passMid
  rw [edgeKey_comm]

end Soap

namespace Soap

open AListLemmas

theorem refine_vertices_eq (bd : ℚ → Vec3) (s : SoapState) :
    (refine bd s).vertices = (refinePass bd s).2.vertices := rfl

theorem refine_border_eq (bd : ℚ → Vec3) (s : SoapState) :
    (refine bd s).border = (refinePass bd s).2.border := rfl

/-- The characterization of the refined triangle list. -/
theorem refine_triangles_char (bd : ℚ → Vec3) (s : SoapState) :
    (refine bd s).triangles =
      s.triangles.map (childCenter (passMid bd s)) ++
        s.triangles.flatMap (childCorners (passMid bd s)) := by
  have h := refineFold_spec bd s.triangles
    (([], []), ⟨s.vertices, s.border, []⟩)
  show (refinePass bd s).1.1 ++ (refinePass bd s).1.2 = _
  rw [refinePass_eq_fold]
  rw [h.2.2.1, h.2.2.2]
  simp only [List.nil_append]
  rfl

section MidFacts

variable (bd : ℚ → Vec3) (s : SoapState)

theorem passMid_range (hM : MeshInv s)
    (hbound : s.vertices.length ≤ 2 ^ 26) {x y : Nat}
    (hq : Queried s x y) :
    s.vertices.length ≤ passMid bd s x y ∧
      passMid bd s x y < (refine bd s).vertices.length := by
  have hinv := refinePass_passInv bd s hM hbound
  have hmem := alGet_mem (queried_cached bd s x y hq)
  exact hinv.cval _ hmem

theorem passMid_inj (hM : MeshInv s)
    (hbound : s.vertices.length ≤ 2 ^ 26) {x y u v : Nat}
    (hq : Queried s x y)
    (hq' : Queried s u v) (hk : edgeKey x y ≠ edgeKey u v) :
    passMid bd s x y ≠ passMid bd s u v := by
  intro hcontra
  have h1 := alGet_mem (queried_cached bd s x y hq)
  have h2 := alGet_mem (queried_cached bd s u v hq')
  have hinv := refinePass_passInv bd s hM hbound
  have heq := List.inj_on_of_nodup_map hinv.cvalNodup h1 h2 hcontra
  exact hk (congrArg Prod.fst heq)

theorem passMid_sem (hM : MeshInv s)
    (hbound : s.vertices.length ≤ 2 ^ 26) {x y : Nat}
    (hx : x < s.vertices.length)
    (hy : y < s.vertices.length) (hq : Queried s x y) :
    if alHas s.border x && alHas s.border y then
      alGet (refine bd s).border (passMid bd s x y) =
        some (midParam ((alGet s.border x).getD 0)
          ((alGet s.border y).getD 0)) ∧
      (refine bd s).vertices.getD (passMid bd s x y) 0 =
        bd (midParam ((alGet s.border x).getD 0) ((alGet s.border y).getD 0))
    else
      alHas (refine bd s).border (passMid bd s x y) = false ∧
      (refine bd s).vertices.getD (passMid bd s x y) 0 =
        Vec3.scale (1/2) (posD s x + posD s y) := by
  have hinv := refinePass_passInv bd s hM hbound
  have hmem := alGet_mem (queried_cached bd s x y hq)
  exact hinv.csem _ hmem x y hx hy rfl

/-- The border status of a created midpoint: a border vertex exactly when
both endpoints are border vertices. -/
theorem passMid_border_has (hM : MeshInv s)
    (hbound : s.vertices.length ≤ 2 ^ 26) {x y : Nat}
    (hx : x < s.vertices.length)
    (hy : y < s.vertices.length) (hq : Queried s x y) :
    alHas (refine bd s).border (passMid bd s x y) =
      (alHas s.border x && alHas s.border y) := by
  have h := passMid_sem bd s hM hbound hx hy hq
  by_cases hc : (alHas s.border x && alHas s.border y) = true
  · rw [if_pos hc] at h
    rw [hc, alHas, h.1]
    rfl
  · rw [if_neg hc] at h
    rw [Bool.not_eq_true] at hc
    rw [hc, h.1]

theorem refine_border_old (hM : MeshInv s)
    (hbound : s.vertices.length ≤ 2 ^ 26) (i : Nat)
    (hi : i < s.vertices.length) :
    alGet (refine bd s).border i = alGet s.border i :=
  (refinePass_passInv bd s hM hbound).bold i hi

theorem refine_has_old (hM : MeshInv s)
    (hbound : s.vertices.length ≤ 2 ^ 26) (i : Nat)
    (hi : i < s.vertices.length) :
    alHas (refine bd s).border i = alHas s.border i :=
  (refinePass_passInv bd s hM hbound).bold_has i hi

theorem refine_vlen_le' (hM : MeshInv s)
    (hbound : s.vertices.length ≤ 2 ^ 26) :
    s.vertices.length ≤ (refine bd s).vertices.length :=
  (refinePass_passInv bd s hM hbound).vlen_le

end MidFacts

end Soap

namespace Soap

open AListLemmas

theorem countP_flatMap {α β : Type} (p : β → Bool) (l : List α)
    (f : α → List β) :
    (l.flatMap f).countP p = (l.map (fun a => (f a).countP p)).sum := by
  induction l with
  | nil => rfl
  | cons a rest ih => simp [List.flatMap_cons, List.countP_append, ih]

theorem count_flatMap {α β : Type} [BEq β] (e : β) (l : List α)
    (f : α → List β) :
    (l.flatMap f).count e = (l.map (fun a => (f a).count e)).sum := by
  induction l with
  | nil => rfl
  | cons a rest ih => simp [List.flatMap_cons, List.count_append, ih]

/-- A sum of per-element counts is at most one when each count is and no
two distinct elements both contribute. -/
theorem sum_map_le_one {α : Type} (l : List α) (f : α → Nat)
    (hnd : l.Nodup) (h1 : ∀ t ∈ l, f t ≤ 1)
    (h2 : ∀ t ∈ l, ∀ t' ∈ l, t ≠ t' → f t = 0 ∨ f t' = 0) :
    (l.map f).sum ≤ 1 := by
  induction l with
  | nil => simp
  | cons t rest ih =>
    rw [List.map_cons, List.sum_cons]
    rcases Nat.eq_zero_or_pos (f t) with hz | hp
    · rw [hz, Nat.zero_add]
      exact ih (List.Nodup.of_cons hnd)
        (fun t' ht' => h1 t' (List.mem_cons_of_mem _ ht'))
        (fun t' ht' t'' ht'' => h2 t' (List.mem_cons_of_mem _ ht') t''
          (List.mem_cons_of_mem _ ht''))
    · have hrest : (rest.map f).sum = 0 := by
        rw [List.sum_eq_zero_iff]
        intro x hx
        rcases List.mem_map.1 hx with ⟨t', ht', hft⟩
        have hne : t ≠ t' := by
          intro he
          subst he
          exact (List.nodup_cons.1 hnd).1 ht'
        rcases h2 t (List.mem_cons_self _ _) t'
            (List.mem_cons_of_mem _ ht') hne with h | h
        · omega
        · omega
      rw [hrest]
      have := h1 t (List.mem_cons_self _ _)
      omega

/-- The twelve directed edges contributed by the four children of one
refined triangle, in emission order. -/
def childEdges (m : Nat → Nat → Nat) (t : Nat × Nat × Nat) :
    List (Nat × Nat) :=
  edgeList (childCenter m t) ++ (childCorners m t).flatMap edgeList

theorem childEdges_eq (m : Nat → Nat → Nat) (t : Nat × Nat × Nat) :
    childEdges m t =
      [(m t.1 t.2.1, m t.2.1 t.2.2), (m t.2.1 t.2.2, m t.2.2 t.1),
       (m t.2.2 t.1, m t.1 t.2.1),
       (t.1, m t.1 t.2.1), (m t.1 t.2.1, m t.2.2 t.1), (m t.2.2 t.1, t.1),
       (t.2.1, m t.2.1 t.2.2), (m t.2.1 t.2.2, m t.1 t.2.1),
       (m t.1 t.2.1, t.2.1),
       (t.2.2, m t.2.2 t.1), (m t.2.2 t.1, m t.2.1 t.2.2),
       (m t.2.1 t.2.2, t.2.2)] := rfl

theorem sum_map_add {α : Type} (l : List α) (f g : α → Nat) :
    (l.map f).sum + (l.map g).sum = (l.map (fun x => f x + g x)).sum := by
  induction l with
  | nil => simp
  | cons a rest ih => simp [List.map_cons, List.sum_cons]; omega

theorem flatMap_flatMap {α β γ : Type} (l : List α) (f : α → List β)
    (g : β → List γ) :
    (l.flatMap f).flatMap g = l.flatMap (fun a => (f a).flatMap g) := by
  induction l with
  | nil => rfl
  | cons a rest ih => simp [List.flatMap_cons, List.flatMap_append, ih]

/-- Counting directed edges in the refined mesh, one original triangle at
a time. -/
theorem dEdges_refine_countP (bd : ℚ → Vec3) (s : SoapState)
    (p : Nat × Nat → Bool) :
    (dEdges (refine bd s)).countP p =
      (s.triangles.map
        (fun t => (childEdges (passMid bd s) t).countP p)).sum := by
  rw [dEdges, refine_triangles_char, List.flatMap_append, List.countP_append]
  rw [countP_flatMap, List.map_map]
  rw [flatMap_flatMap, countP_flatMap]
  rw [sum_map_add]
  congr 1
  apply List.map_congr_left
  intro t _
  rw [childEdges, List.countP_append, countP_flatMap]
  rfl

end Soap

namespace Soap

open AListLemmas

theorem queried_of_mem {s : SoapState} {t : Nat × Nat × Nat}
    (ht : t ∈ s.triangles) :
    Queried s t.1 t.2.1 ∧ Queried s t.2.1 t.2.2 ∧ Queried s t.2.2 t.1 :=
  ⟨⟨t, ht, by simp [edgeList]⟩, ⟨t, ht, by simp [edgeList]⟩,
   ⟨t, ht, by simp [edgeList]⟩⟩

theorem edgeKey_ne (a b c d : Nat) (hab : max a b < 2 ^ 26)
    (hcd : max c d < 2 ^ 26)
    (h : ¬(min a b = min c d ∧ max a b = max c d)) :
    edgeKey a b ≠ edgeKey c d := by
  intro he
  exact h (edgeKey_inj a b c d hab hcd he)

section RefinePreserve

variable (bd : ℚ → Vec3) (s : SoapState)

theorem tri_comp_lt (hM : MeshInv s) {t : Nat × Nat × Nat}
    (ht : t ∈ s.triangles) (x y : Nat) (hxy : (x, y) ∈ edgeList t) :
    x < s.vertices.length ∧ y < s.vertices.length := by
  have h := hM.triIdx t ht
  simp only [edgeList, List.mem_cons, List.not_mem_nil, or_false,
    Prod.mk.injEq] at hxy
  rcases hxy with ⟨hx, hy⟩ | ⟨hx, hy⟩ | ⟨hx, hy⟩ <;> subst hx <;> subst hy <;>
    omega

theorem tri_mids_fresh (hM : MeshInv s)
    (hbound : s.vertices.length ≤ 2 ^ 26) {t : Nat × Nat × Nat}
    (ht : t ∈ s.triangles) :
    (s.vertices.length ≤ passMid bd s t.1 t.2.1 ∧
      passMid bd s t.1 t.2.1 < (refine bd s).vertices.length) ∧
    (s.vertices.length ≤ passMid bd s t.2.1 t.2.2 ∧
      passMid bd s t.2.1 t.2.2 < (refine bd s).vertices.length) ∧
    (s.vertices.length ≤ passMid bd s t.2.2 t.1 ∧
      passMid bd s t.2.2 t.1 < (refine bd s).vertices.length) := by
  obtain ⟨q1, q2, q3⟩ := queried_of_mem ht
  exact ⟨passMid_range bd s hM hbound q1, passMid_range bd s hM hbound q2,
    passMid_range bd s hM hbound q3⟩

theorem tri_mids_ne (hM : MeshInv s)
    (hbound : s.vertices.length ≤ 2 ^ 26) {t : Nat × Nat × Nat}
    (ht : t ∈ s.triangles) :
    passMid bd s t.1 t.2.1 ≠ passMid bd s t.2.1 t.2.2 ∧
    passMid bd s t.2.1 t.2.2 ≠ passMid bd s t.2.2 t.1 ∧
    passMid bd s t.2.2 t.1 ≠ passMid bd s t.1 t.2.1 := by
  obtain ⟨q1, q2, q3⟩ := queried_of_mem ht
  obtain ⟨h1, h2, h3⟩ := hM.triIdx t ht
  obtain ⟨d1, d2, d3⟩ := hM.nondegen t ht
  refine ⟨passMid_inj bd s hM hbound q1 q2 ?_,
    passMid_inj bd s hM hbound q2 q3 ?_, passMid_inj bd s hM hbound q3 q1 ?_⟩
  · exact edgeKey_ne _ _ _ _ (by omega) (by omega) (by omega)
  · exact edgeKey_ne _ _ _ _ (by omega) (by omega) (by omega)
  · exact edgeKey_ne _ _ _ _ (by omega) (by omega) (by omega)

theorem childEdges_nodup_generic (a b c m1 m2 m3 V : Nat)
    (hab : a ≠ b) (hbc : b ≠ c) (hca : c ≠ a)
    (ha : a < V) (hb : b < V) (hc : c < V)
    (h1 : V ≤ m1) (h2 : V ≤ m2) (h3 : V ≤ m3)
    (h12 : m1 ≠ m2) (h23 : m2 ≠ m3) (h31 : m3 ≠ m1) :
    ([(m1, m2), (m2, m3), (m3, m1),
      (a, m1), (m1, m3), (m3, a),
      (b, m2), (m2, m1), (m1, b),
      (c, m3), (m3, m2), (m2, c)] : List (Nat × Nat)).Nodup := by
  refine List.nodup_cons.2 ⟨?_, List.nodup_cons.2 ⟨?_, List.nodup_cons.2
    ⟨?_, List.nodup_cons.2 ⟨?_, List.nodup_cons.2 ⟨?_, List.nodup_cons.2
    ⟨?_, List.nodup_cons.2 ⟨?_, List.nodup_cons.2 ⟨?_, List.nodup_cons.2
    ⟨?_, List.nodup_cons.2 ⟨?_, List.nodup_cons.2 ⟨?_, List.nodup_cons.2
    ⟨?_, List.nodup_nil⟩⟩⟩⟩⟩⟩⟩⟩⟩⟩⟩⟩ <;>
  · intro hmem
    simp only [List.mem_cons, List.not_mem_nil, or_false,
      Prod.mk.injEq] at hmem
    all_goals omega

theorem tri_childEdges_nodup (hM : MeshInv s)
    (hbound : s.vertices.length ≤ 2 ^ 26) {t : Nat × Nat × Nat}
    (ht : t ∈ s.triangles) : (childEdges (passMid bd s) t).Nodup := by
  rw [childEdges_eq]
  obtain ⟨h1, h2, h3⟩ := hM.triIdx t ht
  obtain ⟨d1, d2, d3⟩ := hM.nondegen t ht
  obtain ⟨f1, f2, f3⟩ := tri_mids_fresh bd s hM hbound ht
  obtain ⟨n1, n2, n3⟩ := tri_mids_ne bd s hM hbound ht
  exact childEdges_nodup_generic t.1 t.2.1 t.2.2 _ _ _ s.vertices.length
    d1 d2 d3 h1 h2 h3 f1.1 f2.1 f3.1 n1 n2 n3

end RefinePreserve

end Soap

namespace Soap

open AListLemmas

/-- Classification of a child edge: it either links an original vertex to
a midpoint of one of its (directed) edges, or a midpoint to the far
endpoint of its edge, or two midpoints of two different edges of the same
parent. -/
theorem childEdges_shape {m : Nat → Nat → Nat} {t : Nat × Nat × Nat}
    {e : Nat × Nat}
    (d1 : t.1 ≠ t.2.1) (d2 : t.2.1 ≠ t.2.2) (d3 : t.2.2 ≠ t.1)
    (he : e ∈ childEdges m t) :
    (∃ u v, (u, v) ∈ edgeList t ∧ e = (u, m u v)) ∨
    (∃ u v, (u, v) ∈ edgeList t ∧ e = (m u v, v)) ∨
    (∃ u v u' v', (u, v) ∈ edgeList t ∧ (u', v') ∈ edgeList t ∧
      ¬(min u v = min u' v' ∧ max u v = max u' v') ∧
      e = (m u v, m u' v')) := by
  rw [childEdges_eq] at he
  simp only [List.mem_cons, List.not_mem_nil, or_false] at he
  have e1 : (t.1, t.2.1) ∈ edgeList t := by simp [edgeList]
  have e2 : (t.2.1, t.2.2) ∈ edgeList t := by simp [edgeList]
  have e3 : (t.2.2, t.1) ∈ edgeList t := by simp [edgeList]
  rcases he with h|h|h|h|h|h|h|h|h|h|h|h
  · exact Or.inr (Or.inr ⟨_, _, _, _, e1, e2, by omega, h⟩)
  · exact Or.inr (Or.inr ⟨_, _, _, _, e2, e3, by omega, h⟩)
  · exact Or.inr (Or.inr ⟨_, _, _, _, e3, e1, by omega, h⟩)
  · exact Or.inl ⟨_, _, e1, h⟩
  · exact Or.inr (Or.inr ⟨_, _, _, _, e1, e3, by omega, h⟩)
  · exact Or.inr (Or.inl ⟨_, _, e3, h⟩)
  · exact Or.inl ⟨_, _, e2, h⟩
  · exact Or.inr (Or.inr ⟨_, _, _, _, e2, e1, by omega, h⟩)
  · exact Or.inr (Or.inl ⟨_, _, e1, h⟩)
  · exact Or.inl ⟨_, _, e3, h⟩
  · exact Or.inr (Or.inr ⟨_, _, _, _, e3, e2, by omega, h⟩)
  · exact Or.inr (Or.inl ⟨_, _, e2, h⟩)

theorem le_sum_map_of_mem {α : Type} {l : List α} (f : α → Nat) {t : α}
    (h : t ∈ l) : f t ≤ (l.map f).sum := by
  induction l with
  | nil => simp at h
  | cons a rest ih =>
    rw [List.map_cons, List.sum_cons]
    rcases List.mem_cons.1 h with h' | h'
    · subst h'; omega
    · have := ih h'; omega

theorem two_mem_le_sum_map {α : Type} {l : List α} (f : α → Nat)
    (hnd : l.Nodup) {t t' : α} (ht : t ∈ l) (ht' : t' ∈ l) (hne : t ≠ t') :
    f t + f t' ≤ (l.map f).sum := by
  induction l with
  | nil => simp at ht
  | cons a rest ih =>
    rw [List.map_cons, List.sum_cons]
    rcases List.mem_cons.1 ht with h1 | h1
    · subst h1
      rcases List.mem_cons.1 ht' with h2 | h2
      · exact absurd h2.symm hne
      · have := le_sum_map_of_mem f h2; omega
    · rcases List.mem_cons.1 ht' with h2 | h2
      · subst h2
        have := le_sum_map_of_mem f h1; omega
      · have := ih (List.Nodup.of_cons hnd) h1 h2; omega

theorem ts_nodup {s : SoapState} (hM : MeshInv s) : s.triangles.Nodup :=
  List.Nodup.of_map _ hM.uniq

theorem vset_inj {s : SoapState} (hM : MeshInv s) {t t' : Nat × Nat × Nat}
    (ht : t ∈ s.triangles) (ht' : t' ∈ s.triangles)
    (h : vset t = vset t') : t = t' :=
  List.inj_on_of_nodup_map hM.uniq ht ht' h

theorem countP_eq_le_one {α : Type} [DecidableEq α] {l : List α}
    (h : l.Nodup) (e : α) : l.countP (fun x => decide (x = e)) ≤ 1 := by
  induction l with
  | nil => simp
  | cons a rest ih =>
    rw [List.countP_cons]
    by_cases ha : a = e
    · subst ha
      have hz : rest.countP (fun x => decide (x = a)) = 0 := by
        rw [List.countP_eq_zero]
        intro x hx
        simp only [decide_eq_true_eq]
        intro he
        subst he
        exact (List.nodup_cons.1 h).1 hx
      simp [hz]
    · have := ih (List.Nodup.of_cons h)
      simp [ha]
      all_goals omega

/-- A directed edge lies in at most one triangle of a well-formed mesh. -/
theorem edge_in_one_triangle {s : SoapState} (hM : MeshInv s)
    {t t' : Nat × Nat × Nat} (ht : t ∈ s.triangles) (ht' : t' ∈ s.triangles)
    {e : Nat × Nat} (he : e ∈ edgeList t) (he' : e ∈ edgeList t') :
    t = t' := by
  by_contra hne
  have h1 : 0 < (edgeList t).countP (fun x => decide (x = e)) :=
    List.countP_pos_iff.2 ⟨e, he, by simp⟩
  have h2 : 0 < (edgeList t').countP (fun x => decide (x = e)) :=
    List.countP_pos_iff.2 ⟨e, he', by simp⟩
  have hsum := two_mem_le_sum_map
    (fun t => (edgeList t).countP (fun x => decide (x = e)))
    (ts_nodup hM) ht ht' hne
  simp only at hsum
  have hcnt := countP_flatMap (fun x => decide (x = e)) s.triangles edgeList
  have hle : (dEdges s).countP (fun x => decide (x = e)) ≤ 1 :=
    countP_eq_le_one hM.orient e
  rw [dEdges] at hle
  omega

/-- Two edges of one nondegenerate triangle with different underlying
unordered pairs determine its vertex set. -/
theorem mem_vset_two_edges {t : Nat × Nat × Nat}
    (d1 : t.1 ≠ t.2.1) (d2 : t.2.1 ≠ t.2.2) (d3 : t.2.2 ≠ t.1)
    {e1 e2 : Nat × Nat} (h1 : e1 ∈ edgeList t) (h2 : e2 ∈ edgeList t)
    (hne : ¬(min e1.1 e1.2 = min e2.1 e2.2 ∧ max e1.1 e1.2 = max e2.1 e2.2))
    (v : Nat) :
    v ∈ vset t ↔ (v = e1.1 ∨ v = e1.2 ∨ v = e2.1 ∨ v = e2.2) := by
  obtain ⟨u1, w1⟩ := e1
  obtain ⟨u2, w2⟩ := e2
  simp only [edgeList, List.mem_cons, List.not_mem_nil, or_false,
    Prod.mk.injEq] at h1 h2
  simp only [vset, Finset.mem_insert, Finset.mem_singleton]
  simp only at hne ⊢
  rcases h1 with ⟨hx, hy⟩ | ⟨hx, hy⟩ | ⟨hx, hy⟩ <;>
    rcases h2 with ⟨hx', hy'⟩ | ⟨hx', hy'⟩ | ⟨hx', hy'⟩ <;>
    subst hx <;> subst hy <;> subst hx' <;> subst hy' <;> omega

end Soap

namespace Soap

open AListLemmas

theorem vset_eq_of_shared_pairs {t t' : Nat × Nat × Nat}
    (d1 : t.1 ≠ t.2.1) (d2 : t.2.1 ≠ t.2.2) (d3 : t.2.2 ≠ t.1)
    (d1' : t'.1 ≠ t'.2.1) (d2' : t'.2.1 ≠ t'.2.2) (d3' : t'.2.2 ≠ t'.1)
    {f1 f2 g1 g2 : Nat × Nat}
    (hf1 : f1 ∈ edgeList t) (hf2 : f2 ∈ edgeList t)
    (hg1 : g1 ∈ edgeList t') (hg2 : g2 ∈ edgeList t')
    (e11 : min f1.1 f1.2 = min g1.1 g1.2)
    (e12 : max f1.1 f1.2 = max g1.1 g1.2)
    (e21 : min f2.1 f2.2 = min g2.1 g2.2)
    (e22 : max f2.1 f2.2 = max g2.1 g2.2)
    (hne : ¬(min f1.1 f1.2 = min f2.1 f2.2 ∧
      max f1.1 f1.2 = max f2.1 f2.2)) :
    vset t = vset t' := by
  have p1 : (f1.1 = g1.1 ∧ f1.2 = g1.2) ∨ (f1.1 = g1.2 ∧ f1.2 = g1.1) := by
    omega
  have p2 : (f2.1 = g2.1 ∧ f2.2 = g2.2) ∨ (f2.1 = g2.2 ∧ f2.2 = g2.1) := by
    omega
  have hne' : ¬(min g1.1 g1.2 = min g2.1 g2.2 ∧
      max g1.1 g1.2 = max g2.1 g2.2) := by
    rw [← e11, ← e12, ← e21, ← e22]
    exact hne
  apply Finset.ext
  intro w
  have hL := mem_vset_two_edges d1 d2 d3 hf1 hf2 hne w
  have hR := mem_vset_two_edges d1' d2' d3' hg1 hg2 hne' w
  rw [hL, hR]
  clear hne hne' e11 e12 e21 e22 hL hR
  omega

section CrossEdge

variable (bd : ℚ → Vec3) (s : SoapState)

/-- One child edge determines its parent triangle: the heart of the
orientation-preservation argument for refinement. -/
theorem cross_child_edge (hM : MeshInv s)
    (hbound : s.vertices.length ≤ 2 ^ 26) {t t' : Nat × Nat × Nat}
    (ht : t ∈ s.triangles) (ht' : t' ∈ s.triangles) {e : Nat × Nat}
    (he : e ∈ childEdges (passMid bd s) t)
    (he' : e ∈ childEdges (passMid bd s) t') : t = t' := by
  obtain ⟨d1, d2, d3⟩ := hM.nondegen t ht
  obtain ⟨d1', d2', d3'⟩ := hM.nondegen t' ht'
  rcases childEdges_shape d1 d2 d3 he with
    ⟨u, v, huv, heq⟩ | ⟨u, v, huv, heq⟩ |
    ⟨u1, v1, u2, v2, h1, h2, hnep, heq⟩ <;>
  rcases childEdges_shape d1' d2' d3' he' with
    ⟨u', v', huv', heq'⟩ | ⟨u', v', huv', heq'⟩ |
    ⟨u1', v1', u2', v2', h1', h2', hnep', heq'⟩
  · -- old→mid on both sides
    have hcomb : (u, passMid bd s u v) = (u', passMid bd s u' v') := by
      rw [← heq, ← heq']
    injection hcomb with hu hm
    subst hu
    obtain ⟨hub, hvb⟩ := tri_comp_lt s hM ht u v huv
    obtain ⟨-, hvb'⟩ := tri_comp_lt s hM ht' u v' huv'
    by_cases hk : edgeKey u v = edgeKey u v'
    · have := edgeKey_inj u v u v' (by omega) (by omega) hk
      have hv : v = v' := by omega
      subst hv
      exact edge_in_one_triangle hM ht ht' huv huv'
    · exact absurd hm (passMid_inj bd s hM hbound ⟨t, ht, huv⟩
        ⟨t', ht', huv'⟩ hk)
  · -- old→mid vs mid→old: impossible by freshness
    have hcomb : (u, passMid bd s u v) = (passMid bd s u' v', v') := by
      rw [← heq, ← heq']
    injection hcomb with hu hm
    obtain ⟨hub, hvb⟩ := tri_comp_lt s hM ht u v huv
    have := (passMid_range bd s hM hbound ⟨t', ht', huv'⟩).1
    exact absurd hu (by omega)
  · -- old→mid vs mid→mid: impossible by freshness
    have hcomb : (u, passMid bd s u v) =
        (passMid bd s u1' v1', passMid bd s u2' v2') := by
      rw [← heq, ← heq']
    injection hcomb with hu hm
    obtain ⟨hub, hvb⟩ := tri_comp_lt s hM ht u v huv
    have := (passMid_range bd s hM hbound ⟨t', ht', h1'⟩).1
    exact absurd hu (by omega)
  · -- mid→old vs old→mid: impossible
    have hcomb : (passMid bd s u v, v) = (u', passMid bd s u' v') := by
      rw [← heq, ← heq']
    injection hcomb with hu hm
    obtain ⟨hub', hvb'⟩ := tri_comp_lt s hM ht' u' v' huv'
    have := (passMid_range bd s hM hbound ⟨t, ht, huv⟩).1
    exact absurd hu (by omega)
  · -- mid→old on both sides
    have hcomb : (passMid bd s u v, v) = (passMid bd s u' v', v') := by
      rw [← heq, ← heq']
    injection hcomb with hm hv
    subst hv
    obtain ⟨hub, hvb⟩ := tri_comp_lt s hM ht u v huv
    obtain ⟨hub', -⟩ := tri_comp_lt s hM ht' u' v huv'
    by_cases hk : edgeKey u v = edgeKey u' v
    · have := edgeKey_inj u v u' v (by omega) (by omega) hk
      have hu : u = u' := by omega
      subst hu
      exact edge_in_one_triangle hM ht ht' huv huv'
    · exact absurd hm (passMid_inj bd s hM hbound ⟨t, ht, huv⟩
        ⟨t', ht', huv'⟩ hk)
  · -- mid→old vs mid→mid: impossible
    have hcomb : (passMid bd s u v, v) =
        (passMid bd s u1' v1', passMid bd s u2' v2') := by
      rw [← heq, ← heq']
    injection hcomb with hm hv
    obtain ⟨hub, hvb⟩ := tri_comp_lt s hM ht u v huv
    have := (passMid_range bd s hM hbound ⟨t', ht', h2'⟩).1
    exact absurd hv (by omega)
  · -- mid→mid vs old→mid: impossible
    have hcomb : (passMid bd s u1 v1, passMid bd s u2 v2) =
        (u', passMid bd s u' v') := by
      rw [← heq, ← heq']
    injection hcomb with hu hm
    obtain ⟨hub', hvb'⟩ := tri_comp_lt s hM ht' u' v' huv'
    have := (passMid_range bd s hM hbound ⟨t, ht, h1⟩).1
    exact absurd hu (by omega)
  · -- mid→mid vs mid→old: impossible
    have hcomb : (passMid bd s u1 v1, passMid bd s u2 v2) =
        (passMid bd s u' v', v') := by
      rw [← heq, ← heq']
    injection hcomb with hm hv
    obtain ⟨hub', hvb'⟩ := tri_comp_lt s hM ht' u' v' huv'
    have := (passMid_range bd s hM hbound ⟨t, ht, h2⟩).1
    exact absurd hv (by omega)
  · -- mid→mid on both sides: the parents share two distinct edges
    have hcomb : (passMid bd s u1 v1, passMid bd s u2 v2) =
        (passMid bd s u1' v1', passMid bd s u2' v2') := by
      rw [← heq, ← heq']
    injection hcomb with hm1 hm2
    obtain ⟨hb11, hb12⟩ := tri_comp_lt s hM ht u1 v1 h1
    obtain ⟨hb21, hb22⟩ := tri_comp_lt s hM ht u2 v2 h2
    obtain ⟨hb11', hb12'⟩ := tri_comp_lt s hM ht' u1' v1' h1'
    obtain ⟨hb21', hb22'⟩ := tri_comp_lt s hM ht' u2' v2' h2'
    have hk1 : edgeKey u1 v1 = edgeKey u1' v1' := by
      by_contra hk
      exact absurd hm1 (passMid_inj bd s hM hbound ⟨t, ht, h1⟩
        ⟨t', ht', h1'⟩ hk)
    have hk2 : edgeKey u2 v2 = edgeKey u2' v2' := by
      by_contra hk
      exact absurd hm2 (passMid_inj bd s hM hbound ⟨t, ht, h2⟩
        ⟨t', ht', h2'⟩ hk)
    have hmm1 := edgeKey_inj u1 v1 u1' v1' (by omega) (by omega) hk1
    have hmm2 := edgeKey_inj u2 v2 u2' v2' (by omega) (by omega) hk2
    apply vset_inj hM ht ht'
    exact vset_eq_of_shared_pairs d1 d2 d3 d1' d2' d3' h1 h2 h1' h2'
      (by omega) (by omega) (by omega) (by omega) hnep

end CrossEdge

end Soap

namespace Soap

open AListLemmas

theorem nodup_of_countP_le_one {α : Type} [DecidableEq α] {l : List α}
    (h : ∀ e, l.countP (fun x => decide (x = e)) ≤ 1) : l.Nodup := by
  induction l with
  | nil => exact List.nodup_nil
  | cons a rest ih =>
    rw [List.nodup_cons]
    refine ⟨?_, ih ?_⟩
    · intro hmem
      have ha := h a
      rw [List.countP_cons_of_pos _ _ (by simp)] at ha
      have h1 : 0 < rest.countP (fun x => decide (x = a)) :=
        List.countP_pos_iff.2 ⟨a, hmem, by simp⟩
      omega
    · intro e
      have he := h e
      by_cases hae : a = e
      · subst hae
        rw [List.countP_cons_of_pos _ _ (by simp)] at he
        omega
      · rw [List.countP_cons_of_neg _ _ (by simp [hae])] at he
        exact he

section RefineMesh

variable (bd : ℚ → Vec3) (s : SoapState)

/-- Refinement preserves orientedness: no directed edge of the refined
mesh is repeated. -/
theorem refine_orient (hM : MeshInv s)
    (hbound : s.vertices.length ≤ 2 ^ 26) :
    (dEdges (refine bd s)).Nodup := by
  apply nodup_of_countP_le_one
  intro e
  rw [dEdges_refine_countP]
  apply sum_map_le_one _ _ (ts_nodup hM)
  · intro t ht
    exact countP_eq_le_one (tri_childEdges_nodup bd s hM hbound ht) e
  · intro t ht t' ht' hne
    by_contra hcon
    push_neg at hcon
    obtain ⟨hc1, hc2⟩ := hcon
    rcases List.countP_pos_iff.1 (Nat.pos_of_ne_zero hc1) with ⟨e1, he1, hp1⟩
    rcases List.countP_pos_iff.1 (Nat.pos_of_ne_zero hc2) with ⟨e2, he2, hp2⟩
    simp only [decide_eq_true_eq] at hp1 hp2
    subst hp1
    subst hp2
    exact hne (cross_child_edge bd s hM hbound ht ht' he1 he2)

/-- Membership in the refined edge list, via the per-parent child edges. -/
theorem mem_dEdges_refine (e : Nat × Nat) :
    e ∈ dEdges (refine bd s) ↔
      ∃ t ∈ s.triangles, e ∈ childEdges (passMid bd s) t := by
  rw [dEdges, refine_triangles_char, List.flatMap_append, List.mem_append]
  constructor
  · rintro (h | h)
    · rcases List.mem_flatMap.1 h with ⟨ct, hct, hect⟩
      rcases List.mem_map.1 hct with ⟨t, ht, rfl⟩
      exact ⟨t, ht, List.mem_append_left _ hect⟩
    · rcases List.mem_flatMap.1 h with ⟨ct, hct, hect⟩
      rcases List.mem_flatMap.1 hct with ⟨t, ht, hc⟩
      exact ⟨t, ht, List.mem_append_right _ (List.mem_flatMap.2 ⟨ct, hc, hect⟩)⟩
  · rintro ⟨t, ht, he⟩
    rw [childEdges, List.mem_append] at he
    rcases he with h | h
    · exact Or.inl (List.mem_flatMap.2 ⟨childCenter (passMid bd s) t,
        List.mem_map.2 ⟨t, ht, rfl⟩, h⟩)
    · rcases List.mem_flatMap.1 h with ⟨ct, hct, hect⟩
      exact Or.inr (List.mem_flatMap.2 ⟨ct,
        List.mem_flatMap.2 ⟨t, ht, hct⟩, hect⟩)

end RefineMesh

theorem child_of_parent_edge (m : Nat → Nat → Nat) (t : Nat × Nat × Nat)
    {x y : Nat} (hxy : (x, y) ∈ edgeList t) :
    (x, m x y) ∈ childEdges m t ∧ (m x y, y) ∈ childEdges m t := by
  rw [childEdges_eq]
  simp only [edgeList, List.mem_cons, List.not_mem_nil, or_false,
    Prod.mk.injEq] at hxy
  rcases hxy with ⟨hx, hy⟩ | ⟨hx, hy⟩ | ⟨hx, hy⟩ <;> subst hx <;> subst hy <;>
    exact ⟨by simp, by simp⟩

theorem child_fresh_pair (m : Nat → Nat → Nat) (t : Nat × Nat × Nat)
    {p q : Nat × Nat} (hp : p ∈ edgeList t) (hq : q ∈ edgeList t)
    (hne : p ≠ q) :
    (m p.1 p.2, m q.1 q.2) ∈ childEdges m t := by
  rw [childEdges_eq]
  obtain ⟨p1, p2⟩ := p
  obtain ⟨q1, q2⟩ := q
  simp only [edgeList, List.mem_cons, List.not_mem_nil, or_false,
    Prod.mk.injEq] at hp hq
  rcases hp with ⟨h1, h2⟩ | ⟨h1, h2⟩ | ⟨h1, h2⟩ <;>
    rcases hq with ⟨h3, h4⟩ | ⟨h3, h4⟩ | ⟨h3, h4⟩ <;>
    subst h1 <;> subst h2 <;> subst h3 <;> subst h4 <;>
    first
      | exact absurd rfl hne
      | simp

section RefineMesh2

variable (bd : ℚ → Vec3) (s : SoapState)

/-- Refinement preserves the opposite-orientation property of non-border
edges. -/
theorem refine_symm (hM : MeshInv s)
    (hbound : s.vertices.length ≤ 2 ^ 26) :
    ∀ e ∈ dEdges (refine bd s),
      (alHas (refine bd s).border e.1 = false ∨
        alHas (refine bd s).border e.2 = false) →
      (e.2, e.1) ∈ dEdges (refine bd s) := by
  intro e he hcond
  rcases (mem_dEdges_refine bd s e).1 he with ⟨t, ht, hce⟩
  obtain ⟨d1, d2, d3⟩ := hM.nondegen t ht
  rcases childEdges_shape d1 d2 d3 hce with
    ⟨u, v, huv, heq⟩ | ⟨u, v, huv, heq⟩ |
    ⟨u1, v1, u2, v2, h1, h2, hnep, heq⟩
  · -- old source, midpoint target
    subst heq
    obtain ⟨hu, hv⟩ := tri_comp_lt s hM ht u v huv
    have hqv : Queried s u v := ⟨t, ht, huv⟩
    have hBB : (alHas s.border u && alHas s.border v) = false := by
      simp only at hcond
      rcases hcond with h | h
      · rw [refine_has_old bd s hM hbound u hu] at h
        rw [h]
        simp
      · rw [passMid_border_has bd s hM hbound hu hv hqv] at h
        exact h
    have hold : alHas s.border u = false ∨ alHas s.border v = false := by
      cases hha : alHas s.border u
      · exact Or.inl rfl
      · cases hhb : alHas s.border v
        · exact Or.inr rfl
        · rw [hha, hhb] at hBB
          simp at hBB
    have hvu : (v, u) ∈ dEdges s :=
      hM.symmEdge (u, v) (List.mem_flatMap.2 ⟨t, ht, huv⟩) hold
    rcases List.mem_flatMap.1 hvu with ⟨t2, ht2, hvu2⟩
    have h2 := (child_of_parent_edge (passMid bd s) t2 hvu2).2
    rw [passMid_comm bd s v u] at h2
    exact (mem_dEdges_refine bd s _).2 ⟨t2, ht2, h2⟩
  · -- midpoint source, old target
    subst heq
    obtain ⟨hu, hv⟩ := tri_comp_lt s hM ht u v huv
    have hqv : Queried s u v := ⟨t, ht, huv⟩
    have hBB : (alHas s.border u && alHas s.border v) = false := by
      simp only at hcond
      rcases hcond with h | h
      · rw [passMid_border_has bd s hM hbound hu hv hqv] at h
        exact h
      · rw [refine_has_old bd s hM hbound v hv] at h
        rw [h]
        simp
    have hold : alHas s.border u = false ∨ alHas s.border v = false := by
      cases hha : alHas s.border u
      · exact Or.inl rfl
      · cases hhb : alHas s.border v
        · exact Or.inr rfl
        · rw [hha, hhb] at hBB
          simp at hBB
    have hvu : (v, u) ∈ dEdges s :=
      hM.symmEdge (u, v) (List.mem_flatMap.2 ⟨t, ht, huv⟩) hold
    rcases List.mem_flatMap.1 hvu with ⟨t2, ht2, hvu2⟩
    have h1 := (child_of_parent_edge (passMid bd s) t2 hvu2).1
    rw [passMid_comm bd s v u] at h1
    exact (mem_dEdges_refine bd s _).2 ⟨t2, ht2, h1⟩
  · -- two midpoints: the reversed edge is a child of the same parent
    subst heq
    have hne : ((u2, v2) : Nat × Nat) ≠ (u1, v1) := by
      intro hcon
      injection hcon with ha hb
      subst ha
      subst hb
      exact hnep ⟨rfl, rfl⟩
    have hmem := child_fresh_pair (passMid bd s) t h2 h1 hne
    simp only at hmem
    show (passMid bd s u2 v2, passMid bd s u1 v1) ∈ dEdges (refine bd s)
    exact (mem_dEdges_refine bd s _).2 ⟨t, ht, hmem⟩

/-- Refinement keeps all triangle indexes in range. -/
theorem refine_triIdx (hM : MeshInv s)
    (hbound : s.vertices.length ≤ 2 ^ 26) :
    ∀ t' ∈ (refine bd s).triangles,
      t'.1 < (refine bd s).vertices.length ∧
      t'.2.1 < (refine bd s).vertices.length ∧
      t'.2.2 < (refine bd s).vertices.length := by
  intro t' ht'
  have hlen := refine_vlen_le' bd s hM hbound
  rw [refine_triangles_char] at ht'
  rcases List.mem_append.1 ht' with h | h
  · rcases List.mem_map.1 h with ⟨t, ht, rfl⟩
    obtain ⟨f1, f2, f3⟩ := tri_mids_fresh bd s hM hbound ht
    exact ⟨f1.2, f2.2, f3.2⟩
  · rcases List.mem_flatMap.1 h with ⟨t, ht, hc⟩
    obtain ⟨h1, h2, h3⟩ := hM.triIdx t ht
    obtain ⟨f1, f2, f3⟩ := tri_mids_fresh bd s hM hbound ht
    simp only [childCorners, List.mem_cons, List.not_mem_nil, or_false] at hc
    rcases hc with rfl | rfl | rfl
    · exact ⟨by omega, f1.2, f3.2⟩
    · exact ⟨by omega, f2.2, f1.2⟩
    · exact ⟨by omega, f3.2, f2.2⟩

/-- Refinement produces only nondegenerate triangles. -/
theorem refine_nondegen (hM : MeshInv s)
    (hbound : s.vertices.length ≤ 2 ^ 26) :
    ∀ t' ∈ (refine bd s).triangles,
      t'.1 ≠ t'.2.1 ∧ t'.2.1 ≠ t'.2.2 ∧ t'.2.2 ≠ t'.1 := by
  intro t' ht'
  rw [refine_triangles_char] at ht'
  rcases List.mem_append.1 ht' with h | h
  · rcases List.mem_map.1 h with ⟨t, ht, rfl⟩
    obtain ⟨n1, n2, n3⟩ := tri_mids_ne bd s hM hbound ht
    exact ⟨n1, n2, n3⟩
  · rcases List.mem_flatMap.1 h with ⟨t, ht, hc⟩
    obtain ⟨h1, h2, h3⟩ := hM.triIdx t ht
    obtain ⟨f1, f2, f3⟩ := tri_mids_fresh bd s hM hbound ht
    obtain ⟨n1, n2, n3⟩ := tri_mids_ne bd s hM hbound ht
    simp only [childCorners, List.mem_cons, List.not_mem_nil, or_false] at hc
    rcases hc with rfl | rfl | rfl
    · refine ⟨?_, ?_, ?_⟩
      · show t.1 ≠ passMid bd s t.1 t.2.1
        omega
      · show passMid bd s t.1 t.2.1 ≠ passMid bd s t.2.2 t.1
        exact fun hcon => n3 hcon.symm
      · show passMid bd s t.2.2 t.1 ≠ t.1
        omega
    · refine ⟨?_, ?_, ?_⟩
      · show t.2.1 ≠ passMid bd s t.2.1 t.2.2
        omega
      · show passMid bd s t.2.1 t.2.2 ≠ passMid bd s t.1 t.2.1
        exact fun hcon => n1 hcon.symm
      · show passMid bd s t.1 t.2.1 ≠ t.2.1
        omega
    · refine ⟨?_, ?_, ?_⟩
      · show t.2.2 ≠ passMid bd s t.2.2 t.1
        omega
      · show passMid bd s t.2.2 t.1 ≠ passMid bd s t.2.1 t.2.2
        exact fun hcon => n2 hcon.symm
      · show passMid bd s t.2.1 t.2.2 ≠ t.2.2
        omega

theorem refine_borderIdx (hM : MeshInv s)
    (hbound : s.vertices.length ≤ 2 ^ 26) :
    ∀ e ∈ (refine bd s).border, e.1 < (refine bd s).vertices.length :=
  fun e he => (refinePass_passInv bd s hM hbound).bkeys e he

theorem refine_borderNodup (hM : MeshInv s)
    (hbound : s.vertices.length ≤ 2 ^ 26) :
    ((refine bd s).border.map Prod.fst).Nodup :=
  (refinePass_passInv bd s hM hbound).bnodup

end RefineMesh2

end Soap

namespace Soap

open AListLemmas

theorem filterMap_if_length (i : Nat) (l : List (Nat × Nat)) :
    (l.filterMap (fun e => if e.1 = i then some e.2 else none)).length =
      l.countP (fun e => decide (e.1 = i)) := by
  induction l with
  | nil => rfl
  | cons a rest ih =>
    by_cases h : a.1 = i
    · have hf : List.filterMap
          (fun (e : Nat × Nat) => if e.1 = i then some e.2 else none)
          (a :: rest) = a.2 :: List.filterMap
            (fun (e : Nat × Nat) => if e.1 = i then some e.2 else none)
            rest := by
        rw [List.filterMap_cons]
        simp [h]
      rw [hf, List.countP_cons_of_pos _ _ (by simp [h])]
      simp [ih]
    · have hf : List.filterMap
          (fun (e : Nat × Nat) => if e.1 = i then some e.2 else none)
          (a :: rest) = List.filterMap
            (fun (e : Nat × Nat) => if e.1 = i then some e.2 else none)
            rest := by
        rw [List.filterMap_cons]
        simp [h]
      rw [hf, List.countP_cons_of_neg _ _ (by simp [h])]
      exact ih

theorem countP_src_old_generic (a b c m1 m2 m3 i V : Nat)
    (hi : i < V) (h1 : V ≤ m1) (h2 : V ≤ m2) (h3 : V ≤ m3) :
    (([(m1, m2), (m2, m3), (m3, m1), (a, m1), (m1, m3), (m3, a),
      (b, m2), (m2, m1), (m1, b), (c, m3), (m3, m2), (m2, c)] :
        List (Nat × Nat)).countP (fun e => decide (e.1 = i))) =
      (([(a, b), (b, c), (c, a)] : List (Nat × Nat)).countP
        (fun e => decide (e.1 = i))) := by
  have hm1 : ¬ (m1 = i) := by omega
  have hm2 : ¬ (m2 = i) := by omega
  have hm3 : ¬ (m3 = i) := by omega
  by_cases e1 : a = i <;> by_cases e2 : b = i <;> by_cases e3 : c = i <;>
    simp [List.countP_cons, hm1, hm2, hm3, e1, e2, e3]

theorem countP_src_mid_generic (a b c m1 m2 m3 i V : Nat)
    (ha : a < V) (hb : b < V) (hc : c < V) (hiV : V ≤ i) :
    (([(m1, m2), (m2, m3), (m3, m1), (a, m1), (m1, m3), (m3, a),
      (b, m2), (m2, m1), (m1, b), (c, m3), (m3, m2), (m2, c)] :
        List (Nat × Nat)).countP (fun e => decide (e.1 = i))) =
      3 * (([m1, m2, m3] : List Nat).countP (fun x => decide (x = i))) := by
  have h1 : ¬ (a = i) := by omega
  have h2 : ¬ (b = i) := by omega
  have h3 : ¬ (c = i) := by omega
  by_cases e1 : m1 = i <;> by_cases e2 : m2 = i <;> by_cases e3 : m3 = i <;>
    simp [List.countP_cons, h1, h2, h3, e1, e2, e3]

theorem countP_congr_mem {α : Type} {l : List α} {p q : α → Bool}
    (h : ∀ x ∈ l, p x = q x) : l.countP p = l.countP q := by
  induction l with
  | nil => rfl
  | cons a rest ih =>
    rw [List.countP_cons, List.countP_cons,
      ih (fun x hx => h x (List.mem_cons_of_mem _ hx)),
      h a (List.mem_cons_self _ _)]

theorem countP_or_split {α : Type} [DecidableEq α] (l : List α) (x y : α)
    (hxy : x ≠ y) :
    l.countP (fun e => decide (e = x ∨ e = y)) =
      l.countP (fun e => decide (e = x)) +
        l.countP (fun e => decide (e = y)) := by
  induction l with
  | nil => rfl
  | cons a rest ih =>
    rw [List.countP_cons, List.countP_cons, List.countP_cons, ih]
    by_cases h1 : a = x
    · subst h1
      simp [hxy] <;> omega
    · by_cases h2 : a = y
      · subst h2
        simp [h1] <;> omega
      · simp [h1, h2] <;> omega

theorem countP_eq_one_of_mem_nodup {α : Type} [DecidableEq α] {l : List α}
    (hnd : l.Nodup) {e : α} (he : e ∈ l) :
    l.countP (fun x => decide (x = e)) = 1 := by
  have h1 := countP_eq_le_one hnd e
  have h2 : 0 < l.countP (fun x => decide (x = e)) :=
    List.countP_pos_iff.2 ⟨e, he, by simp⟩
  omega

theorem alGet_of_mem_nodup {β : Type} {m : List (Nat × β)}
    (hnd : (m.map Prod.fst).Nodup) {k : Nat} {v : β}
    (hmem : (k, v) ∈ m) : alGet m k = some v := by
  induction m with
  | nil => simp at hmem
  | cons e rest ih =>
    rcases List.mem_cons.1 hmem with h | h
    · rw [← h]
      show alGet ((k, v) :: rest) k = some v
      simp [alGet]
    · obtain ⟨k', v'⟩ := e
      by_cases hk : k' = k
      · subst hk
        exfalso
        have : k' ∈ rest.map Prod.fst :=
          List.mem_map.2 ⟨(k', v), h, rfl⟩
        rw [List.map_cons, List.nodup_cons] at hnd
        exact hnd.1 this
      · show alGet ((k', v') :: rest) k = some v
        simp only [alGet, if_neg hk]
        exact ih (by rw [List.map_cons, List.nodup_cons] at hnd; exact hnd.2) h

theorem sum_map_mul {α : Type} (l : List α) (k : Nat) (f : α → Nat) :
    (l.map (fun x => k * f x)).sum = k * (l.map f).sum := by
  induction l with
  | nil => simp
  | cons a rest ih => simp [List.map_cons, List.sum_cons, ih, Nat.mul_add]

section SixDeg

variable (bd : ℚ → Vec3) (s : SoapState)

theorem dEdges_comp_lt (hM : MeshInv s) {e : Nat × Nat}
    (he : e ∈ dEdges s) :
    e.1 < s.vertices.length ∧ e.2 < s.vertices.length := by
  rcases List.mem_flatMap.1 he with ⟨t, ht, het⟩
  obtain ⟨x, y⟩ := e
  exact tri_comp_lt s hM ht x y het

/-- An unordered mesh edge with a non-border endpoint occurs exactly twice
among the directed edges: once in each orientation. -/
theorem countP_keymatch_two (hM : MeshInv s) {u v : Nat}
    (hu : u < s.vertices.length) (hv : v < s.vertices.length)
    (hbound : s.vertices.length ≤ 2 ^ 26)
    (huv : u ≠ v) (hq : Queried s u v)
    (hcond : alHas s.border u = false ∨ alHas s.border v = false) :
    (dEdges s).countP
      (fun e => decide (edgeKey e.1 e.2 = edgeKey u v)) = 2 := by
  have hcongr : (dEdges s).countP
      (fun e => decide (edgeKey e.1 e.2 = edgeKey u v)) =
      (dEdges s).countP
        (fun e => decide (e = ((u, v) : Nat × Nat) ∨ e = (v, u))) := by
    apply countP_congr_mem
    intro e he
    obtain ⟨he1, he2⟩ := dEdges_comp_lt s hM he
    obtain ⟨x, y⟩ := e
    simp only at he1 he2
    rw [decide_eq_decide]
    constructor
    · intro hk
      have hmm := edgeKey_inj x y u v (by omega) (by omega) hk
      have hcases : (x = u ∧ y = v) ∨ (x = v ∧ y = u) := by omega
      rcases hcases with ⟨rfl, rfl⟩ | ⟨rfl, rfl⟩
      · exact Or.inl rfl
      · exact Or.inr rfl
    · intro h
      rcases h with h | h
      · injection h with hx hy
        rw [hx, hy]
      · injection h with hx hy
        rw [hx, hy]
        exact edgeKey_comm v u
  rw [hcongr, countP_or_split _ _ _
    (by intro hcon; injection hcon with hx hy; exact huv hx)]
  have hm1 : ((u, v) : Nat × Nat) ∈ dEdges s := by
    obtain ⟨t, ht, het⟩ := hq
    exact List.mem_flatMap.2 ⟨t, ht, het⟩
  have hm2 : ((v, u) : Nat × Nat) ∈ dEdges s := hM.symmEdge (u, v) hm1 hcond
  rw [countP_eq_one_of_mem_nodup hM.orient hm1,
    countP_eq_one_of_mem_nodup hM.orient hm2]

theorem childEdges_countP_src_old (hM : MeshInv s)
    (hbound : s.vertices.length ≤ 2 ^ 26) {t : Nat × Nat × Nat}
    (ht : t ∈ s.triangles) {i : Nat} (hi : i < s.vertices.length) :
    (childEdges (passMid bd s) t).countP (fun e => decide (e.1 = i)) =
      (edgeList t).countP (fun e => decide (e.1 = i)) := by
  obtain ⟨h1, h2, h3⟩ := hM.triIdx t ht
  obtain ⟨f1, f2, f3⟩ := tri_mids_fresh bd s hM hbound ht
  rw [childEdges_eq]
  simp only [edgeList]
  exact countP_src_old_generic t.1 t.2.1 t.2.2 _ _ _ i s.vertices.length
    hi f1.1 f2.1 f3.1

theorem childEdges_countP_src_mid (hM : MeshInv s)
    (hbound : s.vertices.length ≤ 2 ^ 26) {t : Nat × Nat × Nat}
    (ht : t ∈ s.triangles) {u v : Nat}
    (hu : u < s.vertices.length) (hv : v < s.vertices.length)
    (hq : Queried s u v) :
    (childEdges (passMid bd s) t).countP
        (fun e => decide (e.1 = passMid bd s u v)) =
      3 * (edgeList t).countP
        (fun e => decide (edgeKey e.1 e.2 = edgeKey u v)) := by
  obtain ⟨q1, q2, q3⟩ := queried_of_mem ht
  obtain ⟨h1, h2, h3⟩ := hM.triIdx t ht
  have hfresh := (passMid_range bd s hM hbound hq).1
  rw [childEdges_eq]
  rw [countP_src_mid_generic t.1 t.2.1 t.2.2 _ _ _ (passMid bd s u v)
    s.vertices.length h1 h2 h3 hfresh]
  congr 1
  have key_iff : ∀ x y : Nat, x < s.vertices.length →
      y < s.vertices.length → Queried s x y →
      decide (passMid bd s x y = passMid bd s u v) =
      decide (edgeKey x y = edgeKey u v) := by
    intro x y hx hy hqxy
    by_cases hk : edgeKey x y = edgeKey u v
    · have hpm : passMid bd s x y = passMid bd s u v := by
        unfold passMid
        rw [hk]
      simp [hpm, hk]
    · have hne := passMid_inj bd s hM hbound hqxy hq hk
      simp [hne, hk]
  simp only [edgeList, List.countP_cons, List.countP_nil]
  rw [key_iff t.1 t.2.1 h1 h2 q1, key_iff t.2.1 t.2.2 h2 h3 q2,
    key_iff t.2.2 t.1 h3 h1 q3]

/-- Refinement preserves the six-degree property of interior vertices. -/
theorem refine_six (hM : MeshInv s)
    (hbound : s.vertices.length ≤ 2 ^ 26) :
    ∀ i, i < (refine bd s).vertices.length →
      alHas (refine bd s).border i = false →
      (outList (refine bd s) i).length = 6 := by
  intro i hi hbord
  unfold outList
  rw [filterMap_if_length, dEdges_refine_countP]
  by_cases hiold : i < s.vertices.length
  · have hbold : alHas s.border i = false := by
      rw [← refine_has_old bd s hM hbound i hiold]
      exact hbord
    have hmap : s.triangles.map
        (fun t => (childEdges (passMid bd s) t).countP
          (fun e => decide (e.1 = i))) =
        s.triangles.map
          (fun t => (edgeList t).countP (fun e => decide (e.1 = i))) := by
      apply List.map_congr_left
      intro t ht
      exact childEdges_countP_src_old bd s hM hbound ht hiold
    rw [hmap]
    have h6 := hM.six i hiold hbold
    unfold outList at h6
    rw [filterMap_if_length] at h6
    unfold dEdges at h6
    rw [countP_flatMap] at h6
    exact h6
  · have hinv := refinePass_passInv bd s hM hbound
    obtain ⟨en, hen, hen2⟩ := hinv.csurj i (by omega) hi
    obtain ⟨p, q, hp, hq, hkey, hquer⟩ := hinv.cquer en hen
    obtain ⟨k, w⟩ := en
    have hw : w = i := hen2
    subst hw
    have hk2 : k = edgeKey p q := hkey
    have hpm : passMid bd s p q = w := by
      unfold passMid
      rw [alGet_of_mem_nodup hinv.ckeys (hk2 ▸ hen)]
      rfl
    have hpq_ne : p ≠ q := by
      obtain ⟨t0, ht0, hpq0⟩ := hquer
      obtain ⟨d1, d2, d3⟩ := hM.nondegen t0 ht0
      simp only [edgeList, List.mem_cons, List.not_mem_nil, or_false,
        Prod.mk.injEq] at hpq0
      rcases hpq0 with ⟨hx, hy⟩ | ⟨hx, hy⟩ | ⟨hx, hy⟩ <;> subst hx <;>
        subst hy <;> first
          | exact d1
          | exact d2
          | exact d3
    have hBB : (alHas s.border p && alHas s.border q) = false := by
      rw [← passMid_border_has bd s hM hbound hp hq hquer, hpm]
      exact hbord
    have hcond : alHas s.border p = false ∨ alHas s.border q = false := by
      cases hha : alHas s.border p
      · exact Or.inl rfl
      · cases hhb : alHas s.border q
        · exact Or.inr rfl
        · rw [hha, hhb] at hBB
          simp at hBB
    have hmap : s.triangles.map
        (fun t => (childEdges (passMid bd s) t).countP
          (fun e => decide (e.1 = w))) =
        s.triangles.map
          (fun t => 3 * (edgeList t).countP
            (fun e => decide (edgeKey e.1 e.2 = edgeKey p q))) := by
      apply List.map_congr_left
      intro t ht
      rw [← hpm]
      exact childEdges_countP_src_mid bd s hM hbound ht hp hq hquer
    rw [hmap, sum_map_mul]
    have h2 := countP_keymatch_two s hM hp hq hbound hpq_ne hquer hcond
    unfold dEdges at h2
    rw [countP_flatMap] at h2
    rw [h2]

end SixDeg

end Soap

namespace Soap

open AListLemmas

theorem pair_match {A B C D : Nat} (h1 : A = C ∨ A = D) (h2 : B = C ∨ B = D)
    (hAB : A ≠ B) : (A = C ∧ B = D) ∨ (A = D ∧ B = C) := by omega

theorem triangles_nodup_of_edges {ts : List (Nat × Nat × Nat)}
    (h : (ts.flatMap edgeList).Nodup) : ts.Nodup := by
  induction ts with
  | nil => exact List.nodup_nil
  | cons t rest ih =>
    rw [List.flatMap_cons, List.nodup_append] at h
    obtain ⟨h1, h2, hdisj⟩ := h
    rw [List.nodup_cons]
    refine ⟨?_, ih h2⟩
    intro hmem
    have he : (t.1, t.2.1) ∈ edgeList t := by simp [edgeList]
    have he2 : (t.1, t.2.1) ∈ rest.flatMap edgeList :=
      List.mem_flatMap.2 ⟨t, hmem, he⟩
    exact hdisj he he2

section UniqPreserve

variable (bd : ℚ → Vec3) (s : SoapState)

/-- Two parent triangles whose subdivision produced a common pair of
midpoints over two distinct unordered edges are equal. -/
theorem parents_eq_of_two_mids (hM : MeshInv s)
    (hbound : s.vertices.length ≤ 2 ^ 26)
    {pa pb : Nat × Nat × Nat} (hpa : pa ∈ s.triangles)
    (hpb : pb ∈ s.triangles) {x1 y1 x2 y2 a1 b1 a2 b2 : Nat}
    (hm1 : passMid bd s x1 y1 = passMid bd s a1 b1)
    (hm2 : passMid bd s x2 y2 = passMid bd s a2 b2)
    (he1 : (x1, y1) ∈ edgeList pb) (he2 : (x2, y2) ∈ edgeList pb)
    (hf1 : (a1, b1) ∈ edgeList pa) (hf2 : (a2, b2) ∈ edgeList pa)
    (hne : ¬(min x1 y1 = min x2 y2 ∧ max x1 y1 = max x2 y2)) :
    pb = pa := by
  obtain ⟨hx1, hy1⟩ := tri_comp_lt s hM hpb x1 y1 he1
  obtain ⟨hx2, hy2⟩ := tri_comp_lt s hM hpb x2 y2 he2
  obtain ⟨hA1, hB1⟩ := tri_comp_lt s hM hpa a1 b1 hf1
  obtain ⟨hA2, hB2⟩ := tri_comp_lt s hM hpa a2 b2 hf2
  obtain ⟨d1, d2, d3⟩ := hM.nondegen pb hpb
  obtain ⟨d1', d2', d3'⟩ := hM.nondegen pa hpa
  have hk1 : edgeKey x1 y1 = edgeKey a1 b1 := by
    by_contra hk
    exact absurd hm1 (passMid_inj bd s hM hbound ⟨pb, hpb, he1⟩
      ⟨pa, hpa, hf1⟩ hk)
  have hk2 : edgeKey x2 y2 = edgeKey a2 b2 := by
    by_contra hk
    exact absurd hm2 (passMid_inj bd s hM hbound ⟨pb, hpb, he2⟩
      ⟨pa, hpa, hf2⟩ hk)
  have hmm1 := edgeKey_inj x1 y1 a1 b1 (by omega) (by omega) hk1
  have hmm2 := edgeKey_inj x2 y2 a2 b2 (by omega) (by omega) hk2
  apply vset_inj hM hpb hpa
  exact vset_eq_of_shared_pairs d1 d2 d3 d1' d2' d3' he1 he2 hf1 hf2
    (by omega) (by omega) (by omega) (by omega) hne

theorem parents_eq_of_mid_pairs (hM : MeshInv s)
    (hbound : s.vertices.length ≤ 2 ^ 26)
    {pa pb : Nat × Nat × Nat} (hpa : pa ∈ s.triangles)
    (hpb : pb ∈ s.triangles) {x1 y1 x2 y2 a1 b1 a2 b2 : Nat}
    (he1 : (x1, y1) ∈ edgeList pb) (he2 : (x2, y2) ∈ edgeList pb)
    (hf1 : (a1, b1) ∈ edgeList pa) (hf2 : (a2, b2) ∈ edgeList pa)
    (hne : ¬(min x1 y1 = min x2 y2 ∧ max x1 y1 = max x2 y2))
    (hor : (passMid bd s x1 y1 = passMid bd s a1 b1 ∧
            passMid bd s x2 y2 = passMid bd s a2 b2) ∨
           (passMid bd s x1 y1 = passMid bd s a2 b2 ∧
            passMid bd s x2 y2 = passMid bd s a1 b1)) :
    pb = pa := by
  rcases hor with ⟨hm1, hm2⟩ | ⟨hm1, hm2⟩
  · exact parents_eq_of_two_mids bd s hM hbound hpa hpb hm1 hm2
      he1 he2 hf1 hf2 hne
  · exact parents_eq_of_two_mids bd s hM hbound hpa hpb hm1 hm2
      he1 he2 hf2 hf1 hne

end UniqPreserve

end Soap

namespace Soap

open AListLemmas

section UniqMain

variable (bd : ℚ → Vec3) (s : SoapState)

set_option maxHeartbeats 1600000 in
/-- Refinement never produces two triangles over the same vertex set. -/
theorem refine_uniq (hM : MeshInv s)
    (hbound : s.vertices.length ≤ 2 ^ 26) :
    (((refine bd s).triangles).map vset).Nodup := by
  have hnd : (refine bd s).triangles.Nodup := by
    apply triangles_nodup_of_edges
    have h := refine_orient bd s hM hbound
    unfold dEdges at h
    exact h
  apply List.Nodup.map_on ?_ hnd
  intro t1 h1mem t2 h2mem hv
  rw [refine_triangles_char] at h1mem h2mem
  rcases List.mem_append.1 h1mem with hc1 | hc1 <;>
    rcases List.mem_append.1 h2mem with hc2 | hc2
  · -- both are center triangles
    rcases List.mem_map.1 hc1 with ⟨pa, hpa, rfl⟩
    rcases List.mem_map.1 hc2 with ⟨pb, hpb, rfl⟩
    obtain ⟨db1, db2, db3⟩ := hM.nondegen pb hpb
    have hB1mem : passMid bd s pb.1 pb.2.1 ∈
        vset (childCenter (passMid bd s) pa) := by
      rw [hv]
      simp [vset, childCenter]
    have hB2mem : passMid bd s pb.2.1 pb.2.2 ∈
        vset (childCenter (passMid bd s) pa) := by
      rw [hv]
      simp [vset, childCenter]
    simp only [vset, childCenter, Finset.mem_insert, Finset.mem_singleton]
      at hB1mem hB2mem
    rcases hB1mem with hB1 | hB1 | hB1 <;>
      rcases hB2mem with hB2 | hB2 | hB2 <;>
      rw [parents_eq_of_two_mids bd s hM hbound hpa hpb hB1 hB2
        (by simp [edgeList]) (by simp [edgeList]) (by simp [edgeList])
        (by simp [edgeList]) (by omega)]
  · -- a center and a corner cannot share a vertex set
    rcases List.mem_map.1 hc1 with ⟨pa, hpa, rfl⟩
    rcases List.mem_flatMap.1 hc2 with ⟨pb, hpb, hcor⟩
    exfalso
    obtain ⟨hb1, hb2, hb3⟩ := hM.triIdx pb hpb
    obtain ⟨fa1, fa2, fa3⟩ := tri_mids_fresh bd s hM hbound hpa
    have hold : t2.1 = pb.1 ∨ t2.1 = pb.2.1 ∨ t2.1 = pb.2.2 := by
      simp only [childCorners, List.mem_cons, List.not_mem_nil, or_false]
        at hcor
      rcases hcor with rfl | rfl | rfl
      · exact Or.inl rfl
      · exact Or.inr (Or.inl rfl)
      · exact Or.inr (Or.inr rfl)
    have hxmem : t2.1 ∈ vset (childCenter (passMid bd s) pa) := by
      rw [hv]
      simp [vset]
    simp only [vset, childCenter, Finset.mem_insert, Finset.mem_singleton]
      at hxmem
    omega
  · -- a corner and a center cannot share a vertex set
    rcases List.mem_flatMap.1 hc1 with ⟨pa, hpa, hcor⟩
    rcases List.mem_map.1 hc2 with ⟨pb, hpb, rfl⟩
    exfalso
    obtain ⟨ha1, ha2, ha3⟩ := hM.triIdx pa hpa
    obtain ⟨fb1, fb2, fb3⟩ := tri_mids_fresh bd s hM hbound hpb
    have hold : t1.1 = pa.1 ∨ t1.1 = pa.2.1 ∨ t1.1 = pa.2.2 := by
      simp only [childCorners, List.mem_cons, List.not_mem_nil, or_false]
        at hcor
      rcases hcor with rfl | rfl | rfl
      · exact Or.inl rfl
      · exact Or.inr (Or.inl rfl)
      · exact Or.inr (Or.inr rfl)
    have hxmem : t1.1 ∈ vset (childCenter (passMid bd s) pb) := by
      rw [← hv]
      simp [vset]
    simp only [vset, childCenter, Finset.mem_insert, Finset.mem_singleton]
      at hxmem
    omega
  · -- both are corner triangles
    rcases List.mem_flatMap.1 hc1 with ⟨pa, hpa, hcor1⟩
    rcases List.mem_flatMap.1 hc2 with ⟨pb, hpb, hcor2⟩
    obtain ⟨ha1, ha2, ha3⟩ := hM.triIdx pa hpa
    obtain ⟨hb1, hb2, hb3⟩ := hM.triIdx pb hpb
    obtain ⟨fa1, fa2, fa3⟩ := tri_mids_fresh bd s hM hbound hpa
    obtain ⟨fb1, fb2, fb3⟩ := tri_mids_fresh bd s hM hbound hpb
    obtain ⟨na1, na2, na3⟩ := tri_mids_ne bd s hM hbound hpa
    obtain ⟨nb1, nb2, nb3⟩ := tri_mids_ne bd s hM hbound hpb
    obtain ⟨da1, da2, da3⟩ := hM.nondegen pa hpa
    obtain ⟨db1, db2, db3⟩ := hM.nondegen pb hpb
    simp only [childCorners, List.mem_cons, List.not_mem_nil, or_false]
      at hcor1 hcor2
    rcases hcor2 with h2 | h2 | h2 <;> rcases hcor1 with h1 | h1 | h1
    · -- corner 1 of pb against corner 1 of pa
      have hq1 : passMid bd s pb.1 pb.2.1 ∈ vset t1 := by
        rw [hv, h2]
        simp [vset]
      have hq2 : passMid bd s pb.2.2 pb.1 ∈ vset t1 := by
        rw [hv, h2]
        simp [vset]
      have hq3 : pb.1 ∈ vset t1 := by
        rw [hv, h2]
        simp [vset]
      rw [h1] at hq1 hq2 hq3
      simp only [vset, Finset.mem_insert, Finset.mem_singleton] at hq1 hq2 hq3
      have e1 : passMid bd s pb.1 pb.2.1 = passMid bd s pa.1 pa.2.1 ∨
          passMid bd s pb.1 pb.2.1 = passMid bd s pa.2.2 pa.1 := by omega
      have e2 : passMid bd s pb.2.2 pb.1 = passMid bd s pa.1 pa.2.1 ∨
          passMid bd s pb.2.2 pb.1 = passMid bd s pa.2.2 pa.1 := by omega
      have hpe := parents_eq_of_mid_pairs bd s hM hbound hpa hpb
        (by simp [edgeList]) (by simp [edgeList]) (by simp [edgeList])
        (by simp [edgeList]) (by omega) (pair_match e1 e2 (Ne.symm nb3))
      rw [h1, h2, hpe]
    · -- corner 1 of pb against corner 2 of pa
      have hq1 : passMid bd s pb.1 pb.2.1 ∈ vset t1 := by
        rw [hv, h2]
        simp [vset]
      have hq2 : passMid bd s pb.2.2 pb.1 ∈ vset t1 := by
        rw [hv, h2]
        simp [vset]
      have hq3 : pb.1 ∈ vset t1 := by
        rw [hv, h2]
        simp [vset]
      rw [h1] at hq1 hq2 hq3
      simp only [vset, Finset.mem_insert, Finset.mem_singleton] at hq1 hq2 hq3
      have e1 : passMid bd s pb.1 pb.2.1 = passMid bd s pa.2.1 pa.2.2 ∨
          passMid bd s pb.1 pb.2.1 = passMid bd s pa.1 pa.2.1 := by omega
      have e2 : passMid bd s pb.2.2 pb.1 = passMid bd s pa.2.1 pa.2.2 ∨
          passMid bd s pb.2.2 pb.1 = passMid bd s pa.1 pa.2.1 := by omega
      have hpe := parents_eq_of_mid_pairs bd s hM hbound hpa hpb
        (by simp [edgeList]) (by simp [edgeList]) (by simp [edgeList])
        (by simp [edgeList]) (by omega) (pair_match e1 e2 (Ne.symm nb3))
      exfalso
      rw [hpe] at hq3
      omega
    · -- corner 1 of pb against corner 3 of pa
      have hq1 : passMid bd s pb.1 pb.2.1 ∈ vset t1 := by
        rw [hv, h2]
        simp [vset]
      have hq2 : passMid bd s pb.2.2 pb.1 ∈ vset t1 := by
        rw [hv, h2]
        simp [vset]
      have hq3 : pb.1 ∈ vset t1 := by
        rw [hv, h2]
        simp [vset]
      rw [h1] at hq1 hq2 hq3
      simp only [vset, Finset.mem_insert, Finset.mem_singleton] at hq1 hq2 hq3
      have e1 : passMid bd s pb.1 pb.2.1 = passMid bd s pa.2.2 pa.1 ∨
          passMid bd s pb.1 pb.2.1 = passMid bd s pa.2.1 pa.2.2 := by omega
      have e2 : passMid bd s pb.2.2 pb.1 = passMid bd s pa.2.2 pa.1 ∨
          passMid bd s pb.2.2 pb.1 = passMid bd s pa.2.1 pa.2.2 := by omega
      have hpe := parents_eq_of_mid_pairs bd s hM hbound hpa hpb
        (by simp [edgeList]) (by simp [edgeList]) (by simp [edgeList])
        (by simp [edgeList]) (by omega) (pair_match e1 e2 (Ne.symm nb3))
      exfalso
      rw [hpe] at hq3
      omega
    · -- corner 2 of pb against corner 1 of pa
      have hq1 : passMid bd s pb.2.1 pb.2.2 ∈ vset t1 := by
        rw [hv, h2]
        simp [vset]
      have hq2 : passMid bd s pb.1 pb.2.1 ∈ vset t1 := by
        rw [hv, h2]
        simp [vset]
      have hq3 : pb.2.1 ∈ vset t1 := by
        rw [hv, h2]
        simp [vset]
      rw [h1] at hq1 hq2 hq3
      simp only [vset, Finset.mem_insert, Finset.mem_singleton] at hq1 hq2 hq3
      have e1 : passMid bd s pb.2.1 pb.2.2 = passMid bd s pa.1 pa.2.1 ∨
          passMid bd s pb.2.1 pb.2.2 = passMid bd s pa.2.2 pa.1 := by omega
      have e2 : passMid bd s pb.1 pb.2.1 = passMid bd s pa.1 pa.2.1 ∨
          passMid bd s pb.1 pb.2.1 = passMid bd s pa.2.2 pa.1 := by omega
      have hpe := parents_eq_of_mid_pairs bd s hM hbound hpa hpb
        (by simp [edgeList]) (by simp [edgeList]) (by simp [edgeList])
        (by simp [edgeList]) (by omega) (pair_match e1 e2 (Ne.symm nb1))
      exfalso
      rw [hpe] at hq3
      omega
    · -- corner 2 of pb against corner 2 of pa
      have hq1 : passMid bd s pb.2.1 pb.2.2 ∈ vset t1 := by
        rw [hv, h2]
        simp [vset]
      have hq2 : passMid bd s pb.1 pb.2.1 ∈ vset t1 := by
        rw [hv, h2]
        simp [vset]
      have hq3 : pb.2.1 ∈ vset t1 := by
        rw [hv, h2]
        simp [vset]
      rw [h1] at hq1 hq2 hq3
      simp only [vset, Finset.mem_insert, Finset.mem_singleton] at hq1 hq2 hq3
      have e1 : passMid bd s pb.2.1 pb.2.2 = passMid bd s pa.2.1 pa.2.2 ∨
          passMid bd s pb.2.1 pb.2.2 = passMid bd s pa.1 pa.2.1 := by omega
      have e2 : passMid bd s pb.1 pb.2.1 = passMid bd s pa.2.1 pa.2.2 ∨
          passMid bd s pb.1 pb.2.1 = passMid bd s pa.1 pa.2.1 := by omega
      have hpe := parents_eq_of_mid_pairs bd s hM hbound hpa hpb
        (by simp [edgeList]) (by simp [edgeList]) (by simp [edgeList])
        (by simp [edgeList]) (by omega) (pair_match e1 e2 (Ne.symm nb1))
      rw [h1, h2, hpe]
    · -- corner 2 of pb against corner 3 of pa
      have hq1 : passMid bd s pb.2.1 pb.2.2 ∈ vset t1 := by
        rw [hv, h2]
        simp [vset]
      have hq2 : passMid bd s pb.1 pb.2.1 ∈ vset t1 := by
        rw [hv, h2]
        simp [vset]
      have hq3 : pb.2.1 ∈ vset t1 := by
        rw [hv, h2]
        simp [vset]
      rw [h1] at hq1 hq2 hq3
      simp only [vset, Finset.mem_insert, Finset.mem_singleton] at hq1 hq2 hq3
      have e1 : passMid bd s pb.2.1 pb.2.2 = passMid bd s pa.2.2 pa.1 ∨
          passMid bd s pb.2.1 pb.2.2 = passMid bd s pa.2.1 pa.2.2 := by omega
      have e2 : passMid bd s pb.1 pb.2.1 = passMid bd s pa.2.2 pa.1 ∨
          passMid bd s pb.1 pb.2.1 = passMid bd s pa.2.1 pa.2.2 := by omega
      have hpe := parents_eq_of_mid_pairs bd s hM hbound hpa hpb
        (by simp [edgeList]) (by simp [edgeList]) (by simp [edgeList])
        (by simp [edgeList]) (by omega) (pair_match e1 e2 (Ne.symm nb1))
      exfalso
      rw [hpe] at hq3
      omega
    · -- corner 3 of pb against corner 1 of pa
      have hq1 : passMid bd s pb.2.2 pb.1 ∈ vset t1 := by
        rw [hv, h2]
        simp [vset]
      have hq2 : passMid bd s pb.2.1 pb.2.2 ∈ vset t1 := by
        rw [hv, h2]
        simp [vset]
      have hq3 : pb.2.2 ∈ vset t1 := by
        rw [hv, h2]
        simp [vset]
      rw [h1] at hq1 hq2 hq3
      simp only [vset, Finset.mem_insert, Finset.mem_singleton] at hq1 hq2 hq3
      have e1 : passMid bd s pb.2.2 pb.1 = passMid bd s pa.1 pa.2.1 ∨
          passMid bd s pb.2.2 pb.1 = passMid bd s pa.2.2 pa.1 := by omega
      have e2 : passMid bd s pb.2.1 pb.2.2 = passMid bd s pa.1 pa.2.1 ∨
          passMid bd s pb.2.1 pb.2.2 = passMid bd s pa.2.2 pa.1 := by omega
      have hpe := parents_eq_of_mid_pairs bd s hM hbound hpa hpb
        (by simp [edgeList]) (by simp [edgeList]) (by simp [edgeList])
        (by simp [edgeList]) (by omega) (pair_match e1 e2 (Ne.symm nb2))
      exfalso
      rw [hpe] at hq3
      omega
    · -- corner 3 of pb against corner 2 of pa
      have hq1 : passMid bd s pb.2.2 pb.1 ∈ vset t1 := by
        rw [hv, h2]
        simp [vset]
      have hq2 : passMid bd s pb.2.1 pb.2.2 ∈ vset t1 := by
        rw [hv, h2]
        simp [vset]
      have hq3 : pb.2.2 ∈ vset t1 := by
        rw [hv, h2]
        simp [vset]
      rw [h1] at hq1 hq2 hq3
      simp only [vset, Finset.mem_insert, Finset.mem_singleton] at hq1 hq2 hq3
      have e1 : passMid bd s pb.2.2 pb.1 = passMid bd s pa.2.1 pa.2.2 ∨
          passMid bd s pb.2.2 pb.1 = passMid bd s pa.1 pa.2.1 := by omega
      have e2 : passMid bd s pb.2.1 pb.2.2 = passMid bd s pa.2.1 pa.2.2 ∨
          passMid bd s pb.2.1 pb.2.2 = passMid bd s pa.1 pa.2.1 := by omega
      have hpe := parents_eq_of_mid_pairs bd s hM hbound hpa hpb
        (by simp [edgeList]) (by simp [edgeList]) (by simp [edgeList])
        (by simp [edgeList]) (by omega) (pair_match e1 e2 (Ne.symm nb2))
      exfalso
      rw [hpe] at hq3
      omega
    · -- corner 3 of pb against corner 3 of pa
      have hq1 : passMid bd s pb.2.2 pb.1 ∈ vset t1 := by
        rw [hv, h2]
        simp [vset]
      have hq2 : passMid bd s pb.2.1 pb.2.2 ∈ vset t1 := by
        rw [hv, h2]
        simp [vset]
      have hq3 : pb.2.2 ∈ vset t1 := by
        rw [hv, h2]
        simp [vset]
      rw [h1] at hq1 hq2 hq3
      simp only [vset, Finset.mem_insert, Finset.mem_singleton] at hq1 hq2 hq3
      have e1 : passMid bd s pb.2.2 pb.1 = passMid bd s pa.2.2 pa.1 ∨
          passMid bd s pb.2.2 pb.1 = passMid bd s pa.2.1 pa.2.2 := by omega
      have e2 : passMid bd s pb.2.1 pb.2.2 = passMid bd s pa.2.2 pa.1 ∨
          passMid bd s pb.2.1 pb.2.2 = passMid bd s pa.2.1 pa.2.2 := by omega
      have hpe := parents_eq_of_mid_pairs bd s hM hbound hpa hpb
        (by simp [edgeList]) (by simp [edgeList]) (by simp [edgeList])
        (by simp [edgeList]) (by omega) (pair_match e1 e2 (Ne.symm nb2))
      rw [h1, h2, hpe]

end UniqMain

end Soap

namespace Soap

open AListLemmas

section Assembly

variable (bd : ℚ → Vec3) (s : SoapState)

/-- A refinement pass preserves the whole structural mesh invariant, as
long as the packed cache key cannot collide. -/
theorem refine_meshInv (hM : MeshInv s)
    (hbound : s.vertices.length ≤ 2 ^ 26) : MeshInv (refine bd s) :=
  ⟨refine_triIdx bd s hM hbound, refine_borderIdx bd s hM hbound,
   refine_borderNodup bd s hM hbound, refine_nondegen bd s hM hbound,
   refine_orient bd s hM hbound, refine_symm bd s hM hbound,
   refine_six bd s hM hbound, refine_uniq bd s hM hbound⟩

theorem getEdgeCenter_vlen_mono (a b : Nat) (st : PassSt) :
    st.vertices.length ≤ (getEdgeCenter bd a b st).2.vertices.length := by
  cases hc : alGet st.cache (edgeKey a b) with
  | some v => simp [getEdgeCenter_hit bd a b st v hc]
  | none =>
    by_cases hbb : (alHas st.border a && alHas st.border b) = true
    · rcases Bool.and_eq_true_iff.1 hbb with ⟨hba, hbbb⟩
      rcases Option.isSome_iff_exists.1 hba with ⟨fa, hfa⟩
      rcases Option.isSome_iff_exists.1 hbbb with ⟨fb, hfb⟩
      obtain ⟨hres, hv, hbr, hcc⟩ :=
        getEdgeCenter_border_spec bd a b st fa fb hc hfa hfb
      rw [hv]
      simp
    · rw [Bool.not_eq_true] at hbb
      obtain ⟨hres, hv, hbr, hcc⟩ :=
        getEdgeCenter_interior_spec bd a b st hc hbb
      rw [hv]
      simp

theorem refineTri_vlen_mono (t : Nat × Nat × Nat) (st : PassSt) :
    st.vertices.length ≤ (refineTri bd t st).2.vertices.length := by
  show st.vertices.length ≤ (getEdgeCenter bd t.2.2 t.1
    (getEdgeCenter bd t.2.1 t.2.2 (getEdgeCenter bd t.1 t.2.1 st).2).2).2.vertices.length
  exact le_trans (getEdgeCenter_vlen_mono bd t.1 t.2.1 st)
    (le_trans (getEdgeCenter_vlen_mono bd t.2.1 t.2.2 _)
      (getEdgeCenter_vlen_mono bd t.2.2 t.1 _))

theorem foldPass_vlen_mono (ts : List (Nat × Nat × Nat)) :
    ∀ acc : (List (Nat × Nat × Nat) × List (Nat × Nat × Nat)) × PassSt,
      acc.2.vertices.length ≤
        ((ts.foldl (passStep bd) acc).2).vertices.length := by
  induction ts with
  | nil => intro acc; exact le_refl _
  | cons t rest ih =>
    intro acc
    rw [List.foldl_cons]
    exact le_trans (refineTri_vlen_mono bd t acc.2) (ih (passStep bd acc t))

/-- Refinement never shrinks the vertex list (independent of any
invariant). -/
theorem refine_vlen_mono :
    s.vertices.length ≤ (refine bd s).vertices.length := by
  show s.vertices.length ≤ (refinePass bd s).2.vertices.length
  rw [refinePass_eq_fold]
  exact foldPass_vlen_mono bd s.triangles (([], []), ⟨s.vertices, s.border, []⟩)

/-- A smoothing step preserves the structural mesh invariant outright. -/
theorem smooth_meshInv (hM : MeshInv s) : MeshInv (smooth s) := by
  have ht : (smooth s).triangles = s.triangles := smooth_triangles s
  have hb : (smooth s).border = s.border := smooth_border s
  have hv : (smooth s).vertices.length = s.vertices.length :=
    smooth_vertices_length s
  constructor
  · intro t htm
    rw [hv]
    exact hM.triIdx t (ht ▸ htm)
  · intro e he
    rw [hv]
    exact hM.borderIdx e (hb ▸ he)
  · rw [hb]
    exact hM.borderNodup
  · intro t htm
    exact hM.nondegen t (ht ▸ htm)
  · unfold dEdges
    rw [ht]
    exact hM.orient
  · intro e he hc
    unfold dEdges at he ⊢
    rw [ht] at he ⊢
    rw [hb] at hc
    exact hM.symmEdge e he hc
  · intro i hi hbi
    rw [hv] at hi
    rw [hb] at hbi
    have h := hM.six i hi hbi
    unfold outList dEdges at h ⊢
    rw [ht]
    exact h
  · rw [ht]
    exact hM.uniq

end Assembly

/-- The bootstrap fan satisfies the structural mesh invariant. -/
theorem bootstrap_meshInv (bd : ℚ → Vec3) : MeshInv (bootstrap bd) := by
  have hv : (bootstrap bd).vertices.length = 7 := by
    rw [bootstrap_vertices]
    rfl
  constructor
  · rw [bootstrap_triangles, hv]
    decide
  · rw [bootstrap_border, hv]
    decide
  · rw [bootstrap_border]
    decide
  · rw [bootstrap_triangles]
    decide
  · unfold dEdges
    rw [bootstrap_triangles]
    decide
  · unfold dEdges
    rw [bootstrap_triangles, bootstrap_border]
    decide
  · unfold outList dEdges
    rw [bootstrap_triangles, bootstrap_border, hv]
    decide
  · rw [bootstrap_triangles]
    decide

/-- Every reachable state below the packing bound satisfies the structural
mesh invariant. -/
theorem reaches_meshInv (bd : ℚ → Vec3) {s : SoapState} (h : Reaches bd s)
    (hbound : s.vertices.length ≤ 2 ^ 26) : MeshInv s := by
  induction h with
  | boot => exact bootstrap_meshInv bd
  | refine hr ih =>
    rename_i s0
    have hb0 : s0.vertices.length ≤ 2 ^ 26 :=
      le_trans (refine_vlen_mono bd s0) hbound
    exact refine_meshInv bd s0 (ih hb0) hb0
  | smooth hr ih =>
    rename_i s0
    have hb0 : s0.vertices.length ≤ 2 ^ 26 := by
      rw [← smooth_vertices_length s0]
      exact hbound
    exact smooth_meshInv s0 (ih hb0)

end Soap

namespace Soap

open AListLemmas

theorem vec_getD_set (l : List Vec3) (j : Nat) (v : Vec3) (i : Nat) :
    (l.set j v).getD i 0 =
      if i = j ∧ j < l.length then v else l.getD i 0 := by
  induction l generalizing i j with
  | nil => simp
  | cons a rest ih =>
    cases j with
    | zero =>
      cases i with
      | zero => simp
      | succ i' => simp
    | succ j' =>
      cases i with
      | zero => simp
      | succ i' =>
        simp only [List.set_cons_succ, List.getD_cons_succ, ih,
          List.length_cons]
        by_cases h : i' = j' ∧ j' < rest.length
        · rw [if_pos h, if_pos (by omega)]
        · rw [if_neg h, if_neg (by omega)]

theorem addAt_getD (l : List Vec3) (j : Nat) (w : Vec3) (i : Nat)
    (hj : j < l.length) :
    (addAt l j w).getD i 0 =
      if j = i then l.getD i 0 + w else l.getD i 0 := by
  unfold addAt
  rw [vec_getD_set]
  by_cases h : i = j
  · subst h
    rw [if_pos ⟨rfl, hj⟩, if_pos rfl]
  · rw [if_neg (fun hc => h hc.1), if_neg (fun hc => h hc.symm)]

theorem smoothFold_getD (s : SoapState) (ts : List (Nat × Nat × Nat))
    (hts : ∀ t ∈ ts, t.1 < s.vertices.length ∧ t.2.1 < s.vertices.length ∧
      t.2.2 < s.vertices.length) :
    ∀ init : List Vec3, init.length = s.vertices.length → ∀ i,
      (ts.foldl (fun sums t =>
        addAt (addAt (addAt sums t.1 (posD s t.2.1)) t.2.1 (posD s t.2.2))
          t.2.2 (posD s t.1)) init).getD i 0 =
      init.getD i 0 +
        (((ts.flatMap edgeList).filterMap
          (fun e => if e.1 = i then some e.2 else none)).map (posD s)).sum := by
  induction ts with
  | nil =>
    intro init hlen i
    simp
  | cons t rest ih =>
    intro init hlen i
    rw [List.foldl_cons]
    have hmem := hts t (List.mem_cons_self _ _)
    have hlen1 : (addAt (addAt (addAt init t.1 (posD s t.2.1)) t.2.1
        (posD s t.2.2)) t.2.2 (posD s t.1)).length = s.vertices.length := by
      simp [hlen]
    rw [ih (fun t' ht' => hts t' (List.mem_cons_of_mem _ ht')) _ hlen1 i]
    rw [List.flatMap_cons, List.filterMap_append, List.map_append,
      List.sum_append]
    rw [← add_assoc]
    congr 1
    rw [addAt_getD _ _ _ _
        (by rw [addAt_length, addAt_length, hlen]; exact hmem.2.2),
      addAt_getD _ _ _ _ (by rw [addAt_length, hlen]; exact hmem.2.1),
      addAt_getD _ _ _ _ (by rw [hlen]; exact hmem.1)]
    simp only [edgeList]
    by_cases h1 : t.1 = i <;> by_cases h2 : t.2.1 = i <;>
      by_cases h3 : t.2.2 = i <;>
      simp [List.filterMap_cons, h1, h2, h3] <;> abel

theorem smoothSums_getD (s : SoapState) (hM : MeshInv s) (i : Nat) :
    (smoothSums s).getD i 0 = ((outList s i).map (posD s)).sum := by
  unfold smoothSums outList dEdges
  rw [smoothFold_getD s s.triangles hM.triIdx _ (by simp) i]
  have h0 : ((s.vertices.map (fun _ => (0 : Vec3))).getD i 0) = 0 := by
    rcases lt_or_le i s.vertices.length with h | h
    · rw [List.getD_eq_getElem _ _ (by simpa using h), List.getElem_map]
    · rw [List.getD_eq_default _ _ (by simpa using h)]
  rw [h0, zero_add]

theorem nodup_filterMap_if (i : Nat) {l : List (Nat × Nat)} (h : l.Nodup) :
    (l.filterMap (fun e => if e.1 = i then some e.2 else none)).Nodup := by
  induction l with
  | nil => simp
  | cons a rest ih =>
    obtain ⟨hna, hrest⟩ := List.nodup_cons.1 h
    by_cases ha : a.1 = i
    · have hf : (a :: rest).filterMap
          (fun (e : Nat × Nat) => if e.1 = i then some e.2 else none) =
          a.2 :: rest.filterMap
            (fun (e : Nat × Nat) => if e.1 = i then some e.2 else none) := by
        rw [List.filterMap_cons]
        simp [ha]
      rw [hf, List.nodup_cons]
      refine ⟨?_, ih hrest⟩
      intro hmem
      rcases List.mem_filterMap.1 hmem with ⟨e, he, hfe⟩
      by_cases he1 : e.1 = i
      · rw [if_pos he1] at hfe
        injection hfe with hv
        apply hna
        have hea : e = a := by
          obtain ⟨e1, e2⟩ := e
          obtain ⟨a1, a2⟩ := a
          simp only at ha he1 hv
          rw [he1, ha, hv]
        rw [← hea]
        exact he
      · rw [if_neg he1] at hfe
        cases hfe
    · have hf : (a :: rest).filterMap
          (fun (e : Nat × Nat) => if e.1 = i then some e.2 else none) =
          rest.filterMap
            (fun (e : Nat × Nat) => if e.1 = i then some e.2 else none) := by
        rw [List.filterMap_cons]
        simp [ha]
      rw [hf]
      exact ih hrest

theorem nbrs_eq_outList (s : SoapState) (hM : MeshInv s) (i : Nat)
    (hbi : alHas s.border i = false) :
    nbrs s i = (outList s i).toFinset := by
  apply Finset.ext
  intro j
  rw [List.mem_toFinset]
  unfold nbrs outList
  rw [List.mem_toFinset, List.mem_filterMap, List.mem_filterMap]
  constructor
  · rintro ⟨e, he, hfe⟩
    by_cases h1 : e.1 = i
    · rw [if_pos h1] at hfe
      exact ⟨e, he, by rw [if_pos h1]; exact hfe⟩
    · rw [if_neg h1] at hfe
      by_cases h2 : e.2 = i
      · rw [if_pos h2] at hfe
        injection hfe with hv
        have hsym : (e.2, e.1) ∈ dEdges s := by
          apply hM.symmEdge e he
          right
          rw [h2]
          exact hbi
        refine ⟨(e.2, e.1), hsym, ?_⟩
        show (if e.2 = i then some e.1 else none) = some j
        rw [if_pos h2, hv]
      · rw [if_neg h2] at hfe
        cases hfe
  · rintro ⟨e, he, hfe⟩
    by_cases h1 : e.1 = i
    · rw [if_pos h1] at hfe
      exact ⟨e, he, by rw [if_pos h1]; exact hfe⟩
    · rw [if_neg h1] at hfe
      cases hfe

theorem sum_toFinset_eq (l : List Nat) (hnd : l.Nodup) (f : Nat → Vec3) :
    (∑ j ∈ l.toFinset, f j) = (l.map f).sum := by
  induction l with
  | nil => simp
  | cons a rest ih =>
    obtain ⟨hna, hrest⟩ := List.nodup_cons.1 hnd
    rw [List.toFinset_cons, Finset.sum_insert (by simpa using hna),
      List.map_cons, List.sum_cons, ih hrest]

/-- The smoothing update at an interior vertex of a well-formed mesh: the
new position is the average of the six neighbor positions of the previous
step. -/
theorem smooth_avg (s : SoapState) (hM : MeshInv s) (i : Nat)
    (hi : i < s.vertices.length) (hbi : alHas s.border i = false) :
    (nbrs s i).card = 6 ∧
    posD (smooth s) i =
      Vec3.scale (1 / ((nbrs s i).card : ℚ)) (∑ j ∈ nbrs s i, posD s j) := by
  have hlen := hM.six i hi hbi
  have hnd : (outList s i).Nodup := nodup_filterMap_if i hM.orient
  have hcard : (nbrs s i).card = 6 := by
    rw [nbrs_eq_outList s hM i hbi, List.toFinset_card_of_nodup hnd, hlen]
  refine ⟨hcard, ?_⟩
  rw [smooth_posD s i hi, if_neg (by simp [hbi])]
  rw [smoothSums_getD s hM i]
  rw [hcard, nbrs_eq_outList s hM i hbi, sum_toFinset_eq _ hnd (posD s)]
  norm_num

end Soap

namespace Soap

open AListLemmas

/-- The vertex growth of a refinement pass is the final cache size: every
fresh vertex is a cached midpoint and conversely. -/
theorem refine_vlen_count (bd : ℚ → Vec3) (s : SoapState) (hM : MeshInv s)
    (hbound : s.vertices.length ≤ 2 ^ 26) :
    (refine bd s).vertices.length =
      s.vertices.length + (refinePass bd s).2.cache.length := by
  have hinv := refinePass_passInv bd s hM hbound
  have hle := hinv.vlen_le
  rw [refine_vertices_eq]
  have hset : ((refinePass bd s).2.cache.map Prod.snd).toFinset =
      Finset.Ico s.vertices.length ((refinePass bd s).2.vertices.length) := by
    apply Finset.ext
    intro j
    rw [List.mem_toFinset, Finset.mem_Ico]
    constructor
    · intro hj
      rcases List.mem_map.1 hj with ⟨e, he, hje⟩
      have := hinv.cval e he
      omega
    · intro hj
      obtain ⟨e, he, hej⟩ := hinv.csurj j hj.1 hj.2
      exact List.mem_map.2 ⟨e, he, hej⟩
  have hcard1 : ((refinePass bd s).2.cache.map Prod.snd).toFinset.card =
      (refinePass bd s).2.cache.length := by
    rw [List.toFinset_card_of_nodup hinv.cvalNodup, List.length_map]
  rw [hset, Nat.card_Ico] at hcard1
  omega

/-- The final cache holds one entry per distinct packed key of a mesh
edge. -/
theorem cache_keys_card (bd : ℚ → Vec3) (s : SoapState) (hM : MeshInv s)
    (hbound : s.vertices.length ≤ 2 ^ 26) :
    (refinePass bd s).2.cache.length =
      (((dEdges s).map (fun e => edgeKey e.1 e.2)).toFinset).card := by
  have hinv := refinePass_passInv bd s hM hbound
  have h1 : ((refinePass bd s).2.cache.map Prod.fst).toFinset =
      ((dEdges s).map (fun e => edgeKey e.1 e.2)).toFinset := by
    apply Finset.ext
    intro k
    rw [List.mem_toFinset, List.mem_toFinset, List.mem_map, List.mem_map]
    constructor
    · rintro ⟨e, he, hke⟩
      obtain ⟨p, q, hp, hq, hkey, hquer⟩ := hinv.cquer e he
      obtain ⟨t, ht, hpq⟩ := hquer
      refine ⟨(p, q), List.mem_flatMap.2 ⟨t, ht, hpq⟩, ?_⟩
      show edgeKey p q = k
      rw [← hkey]
      exact hke
    · rintro ⟨e, he, hke⟩
      have hq : Queried s e.1 e.2 := by
        rcases List.mem_flatMap.1 he with ⟨t, ht, het⟩
        exact ⟨t, ht, het⟩
      have hcached := queried_cached bd s e.1 e.2 hq
      have hmem := alGet_mem hcached
      exact ⟨_, hmem, hke⟩
  have h2 := congrArg Finset.card h1
  rw [List.toFinset_card_of_nodup hinv.ckeys, List.length_map] at h2
  exact h2

theorem bootstrap_vlen (bd : ℚ → Vec3) :
    (bootstrap bd).vertices.length = 7 := by
  rw [bootstrap_vertices]
  rfl

theorem bootstrap_vlen_bound (bd : ℚ → Vec3) :
    (bootstrap bd).vertices.length ≤ 2 ^ 26 := by
  rw [bootstrap_vlen]
  norm_num

/-- One refinement pass on the bootstrap fan yields nineteen vertices, for
every boundary curve. -/
theorem refine_bootstrap_vlen (bd : ℚ → Vec3) :
    (refine bd (bootstrap bd)).vertices.length = 19 := by
  rw [refine_vlen_count bd _ (bootstrap_meshInv bd) (bootstrap_vlen_bound bd),
    cache_keys_card bd _ (bootstrap_meshInv bd) (bootstrap_vlen_bound bd),
    bootstrap_vlen]
  have h12 : (((dEdges (bootstrap bd)).map
      (fun e => edgeKey e.1 e.2)).toFinset).card = 12 := by
    unfold dEdges
    rw [bootstrap_triangles]
    decide
  rw [h12]

end Soap

/-! ## The ten claims -/

namespace Soap

/-- C1: after one smoothing step on any mesh state reachable from the
6-sample bootstrap fan by refinement and smoothing passes (kept below the
cache-key packing bound), every in-range non-border vertex has exactly six
neighbors, and its new position is the average of the positions those
neighbors (the vertices directly connected to it by a triangle edge) had at
the start of the step — computed entirely from the pre-step positions, not
in place. -/
theorem claim_C1 (bd : ℚ → Vec3) (s : SoapState) (h : Reaches bd s)
    (hbound : s.vertices.length ≤ 2 ^ 26) (i : Nat)
    (hi : i < s.vertices.length) (hbi : alHas s.border i = false) :
    (nbrs s i).card = 6 ∧
    posD (smooth s) i =
      Vec3.scale (1 / ((nbrs s i).card : ℚ)) (∑ j ∈ nbrs s i, posD s j) :=
  smooth_avg s (reaches_meshInv bd h hbound) i hi hbi

/-- C1, instantiated at the bootstrap fan's center vertex. -/
theorem claim_C1_witness :
    ((bootstrap (fun _ => (⟨0, 0, 0⟩ : Vec3))).vertices.length ≤ 2 ^ 26 ∧
     6 < (bootstrap (fun _ => (⟨0, 0, 0⟩ : Vec3))).vertices.length ∧
     alHas (bootstrap (fun _ => (⟨0, 0, 0⟩ : Vec3))).border 6 = false) ∧
    ((nbrs (bootstrap (fun _ => (⟨0, 0, 0⟩ : Vec3))) 6).card = 6 ∧
     posD (smooth (bootstrap (fun _ => (⟨0, 0, 0⟩ : Vec3)))) 6 =
       Vec3.scale
         (1 / ((nbrs (bootstrap (fun _ => (⟨0, 0, 0⟩ : Vec3))) 6).card : ℚ))
         (∑ j ∈ nbrs (bootstrap (fun _ => (⟨0, 0, 0⟩ : Vec3))) 6,
           posD (bootstrap (fun _ => (⟨0, 0, 0⟩ : Vec3))) j)) :=
  ⟨⟨by decide, by decide, by decide⟩,
   claim_C1 (fun _ => (⟨0, 0, 0⟩ : Vec3)) _ Reaches.boot (by decide) 6
     (by decide) (by decide)⟩

/-- C2: during a refinement pass, the midpoint created for a subdivided
edge whose endpoints both carry border parameters `fa` and `fb` is itself a
border vertex whose recorded parameter is the shorter-arc average
`((fa + fb + [|fb - fa| > 1/2]) / 2) % 1`, and whose position is the
boundary curve evaluated at that parameter — not the linear interpolation
of the endpoint positions; the parameter stays in `[0, 1)` when the
endpoint parameters are nonnegative. -/
theorem claim_C2 (bd : ℚ → Vec3) (s : SoapState) (hM : MeshInv s)
    (hbound : s.vertices.length ≤ 2 ^ 26) (x y : Nat)
    (hx : x < s.vertices.length) (hy : y < s.vertices.length)
    (hq : Queried s x y) (fa fb : ℚ)
    (hfa : alGet s.border x = some fa) (hfb : alGet s.border y = some fb) :
    alGet (refine bd s).border (passMid bd s x y) = some (midParam fa fb) ∧
    posD (refine bd s) (passMid bd s x y) = bd (midParam fa fb) ∧
    midParam fa fb =
      jsModOne ((fa + fb + (if 1/2 < |fb - fa| then 1 else 0)) / 2) ∧
    (0 ≤ fa → 0 ≤ fb → 0 ≤ midParam fa fb ∧ midParam fa fb < 1) := by
  have h := passMid_sem bd s hM hbound hx hy hq
  rw [if_pos (by simp [alHas, hfa, hfb])] at h
  rw [hfa, hfb] at h
  simp only [Option.getD_some] at h
  exact ⟨h.1, h.2, rfl, fun h0a h0b => midParam_mem_Ico fa fb h0a h0b⟩

/-- C2, instantiated at the bootstrap border edge `{0, 1}`. -/
theorem claim_C2_witness :
    (0 < (bootstrap (fun _ => (⟨0, 0, 0⟩ : Vec3))).vertices.length ∧
     1 < (bootstrap (fun _ => (⟨0, 0, 0⟩ : Vec3))).vertices.length ∧
     alGet (bootstrap (fun _ => (⟨0, 0, 0⟩ : Vec3))).border 0 = some 0 ∧
     alGet (bootstrap (fun _ => (⟨0, 0, 0⟩ : Vec3))).border 1 = some (1/6)) ∧
    (alGet (refine (fun _ => (⟨0, 0, 0⟩ : Vec3))
        (bootstrap (fun _ => (⟨0, 0, 0⟩ : Vec3)))).border
        (passMid (fun _ => (⟨0, 0, 0⟩ : Vec3))
          (bootstrap (fun _ => (⟨0, 0, 0⟩ : Vec3))) 0 1) =
        some (midParam 0 (1/6)) ∧
     posD (refine (fun _ => (⟨0, 0, 0⟩ : Vec3))
        (bootstrap (fun _ => (⟨0, 0, 0⟩ : Vec3))))
        (passMid (fun _ => (⟨0, 0, 0⟩ : Vec3))
          (bootstrap (fun _ => (⟨0, 0, 0⟩ : Vec3))) 0 1) =
        (fun _ => (⟨0, 0, 0⟩ : Vec3)) (midParam 0 (1/6)) ∧
     midParam 0 (1/6) =
       jsModOne ((0 + 1/6 +
         (if (1:ℚ)/2 < |1/6 - (0:ℚ)| then (1:ℚ) else 0)) / 2) ∧
     (0 ≤ (0:ℚ) → 0 ≤ (1/6:ℚ) →
       0 ≤ midParam 0 (1/6) ∧ midParam 0 (1/6) < 1)) :=
  ⟨⟨by decide, by decide,
    by rw [bootstrap_border]; rfl,
    by rw [bootstrap_border]; rfl⟩,
   claim_C2 (fun _ => (⟨0, 0, 0⟩ : Vec3)) _ (bootstrap_meshInv _) (by decide)
     0 1 (by decide) (by decide) ⟨(6, 0, 1), by decide, by decide⟩ 0 (1/6)
     (by rw [bootstrap_border]; rfl) (by rw [bootstrap_border]; rfl)⟩

/-- C3: every refinement pass multiplies the triangle count by exactly
four; on the bootstrap fan (6 triangles, 7 vertices) one pass yields 24
triangles and 19 vertices, and a second pass yields 96 triangles — for
every boundary curve. -/
theorem claim_C3 (bd : ℚ → Vec3) (s : SoapState) (h : Reaches bd s) :
    (refine bd s).triangles.length = 4 * s.triangles.length ∧
    (refine bd (bootstrap bd)).triangles.length = 24 ∧
    (refine bd (bootstrap bd)).vertices.length = 19 ∧
    (refine bd (refine bd (bootstrap bd))).triangles.length = 96 := by
  refine ⟨refine_triangles_length bd s, ?_, refine_bootstrap_vlen bd, ?_⟩
  · rw [refine_triangles_length, bootstrap_triangles]
    rfl
  · rw [refine_triangles_length, refine_triangles_length, bootstrap_triangles]
    rfl

/-- C3, instantiated at the bootstrap itself. -/
theorem claim_C3_witness :
    (refine (fun _ => (⟨0, 0, 0⟩ : Vec3))
        (bootstrap (fun _ => (⟨0, 0, 0⟩ : Vec3)))).triangles.length =
      4 * (bootstrap (fun _ => (⟨0, 0, 0⟩ : Vec3))).triangles.length ∧
    (refine (fun _ => (⟨0, 0, 0⟩ : Vec3))
        (bootstrap (fun _ => (⟨0, 0, 0⟩ : Vec3)))).triangles.length = 24 ∧
    (refine (fun _ => (⟨0, 0, 0⟩ : Vec3))
        (bootstrap (fun _ => (⟨0, 0, 0⟩ : Vec3)))).vertices.length = 19 ∧
    (refine (fun _ => (⟨0, 0, 0⟩ : Vec3)) (refine (fun _ => (⟨0, 0, 0⟩ : Vec3))
        (bootstrap (fun _ => (⟨0, 0, 0⟩ : Vec3))))).triangles.length = 96 :=
  claim_C3 (fun _ => (⟨0, 0, 0⟩ : Vec3)) _ Reaches.boot

/-- C4: at every reachable point of the relaxation — after the bootstrap
and after every refinement pass and every smoothing step — the position of
every border vertex equals the boundary curve evaluated exactly at that
vertex's recorded parameter. -/
theorem claim_C4 (bd : ℚ → Vec3) (s : SoapState) (h : Reaches bd s) :
    ∀ e ∈ s.border, posD s e.1 = bd e.2 :=
  fun e he => (Reaches_pinned bd s h).2 e he

/-- C4, instantiated at the first bootstrap border vertex. -/
theorem claim_C4_witness :
    (((0:Nat), (0:ℚ)) ∈ (bootstrap (fun _ => (⟨0, 0, 0⟩ : Vec3))).border) ∧
    posD (bootstrap (fun _ => (⟨0, 0, 0⟩ : Vec3))) 0 =
      (fun _ => (⟨0, 0, 0⟩ : Vec3)) (0:ℚ) :=
  ⟨by simp [bootstrap_border],
   claim_C4 (fun _ => (⟨0, 0, 0⟩ : Vec3)) _ Reaches.boot (0, 0)
     (by simp [bootstrap_border])⟩

/-- C5: once the edge-midpoint cache holds an index for an unordered pair,
a request in either order returns exactly that index and leaves the pass
state unchanged (no second midpoint vertex is ever created for the pair);
accordingly the midpoint assignment of a pass depends only on the
unordered pair, so two triangles sharing an edge share one midpoint. -/
theorem claim_C5 (bd : ℚ → Vec3) (st : PassSt) (a b v : Nat)
    (h : alGet st.cache (edgeKey a b) = some v)
    (s : SoapState) (x y u w : Nat)
    (hup : min x y = min u w ∧ max x y = max u w) :
    (getEdgeCenter bd a b st = (v, st) ∧ getEdgeCenter bd b a st = (v, st)) ∧
    passMid bd s x y = passMid bd s u w := by
  refine ⟨getEdgeCenter_stable bd a b st v h, ?_⟩
  have hcases : (x = u ∧ y = w) ∨ (x = w ∧ y = u) := by
    rcases hup with ⟨h1, h2⟩
    omega
  rcases hcases with ⟨rfl, rfl⟩ | ⟨rfl, rfl⟩
  · rfl
  · exact passMid_comm bd s x y

/-- C5, instantiated at a one-entry cache and the pair `{3, 4}`. -/
theorem claim_C5_witness :
    (alGet (PassSt.mk [] [] [(edgeKey 1 2, 5)]).cache (edgeKey 1 2) =
        some 5 ∧
     min 3 4 = min 4 3 ∧ max 3 4 = max 4 3) ∧
    ((getEdgeCenter (fun _ => (⟨0, 0, 0⟩ : Vec3)) 1 2
        (PassSt.mk [] [] [(edgeKey 1 2, 5)]) =
          (5, PassSt.mk [] [] [(edgeKey 1 2, 5)]) ∧
      getEdgeCenter (fun _ => (⟨0, 0, 0⟩ : Vec3)) 2 1
        (PassSt.mk [] [] [(edgeKey 1 2, 5)]) =
          (5, PassSt.mk [] [] [(edgeKey 1 2, 5)])) ∧
     passMid (fun _ => (⟨0, 0, 0⟩ : Vec3)) (SoapState.mk [] [] []) 3 4 =
       passMid (fun _ => (⟨0, 0, 0⟩ : Vec3)) (SoapState.mk [] [] []) 4 3) :=
  ⟨⟨by decide, by decide, by decide⟩,
   claim_C5 (fun _ => (⟨0, 0, 0⟩ : Vec3)) _ 1 2 5 (by decide)
     (SoapState.mk [] [] []) 3 4 4 3 ⟨by decide, by decide⟩⟩

end Soap

namespace Triangulate

/-- C6: the barycentric subdivider calls the vertex callback exactly once
per lattice point `(i, j, k)` with `i + j + k = n`, for every callback and
every `n` (and `n = 0` emits nothing); with a callback that never returns
vertex index `0` it emits exactly `n²` triangles — but the unconditional
`n²` count claimed FAILS: the `if (prev)` truthiness test also rejects the
valid vertex index `0`, so with the constant-`0` callback and `n = 2` only
3 of the 4 triangles are emitted. -/
theorem claim_C6 :
    (∀ (σ : Type) (addV : Nat → Nat → Nat → σ → Nat × σ)
       (emitT : Nat → Nat → Nat → Int → Int → Int → σ → σ) (n : Nat) (s0 : σ),
       (triangulate n addV emitT s0).vcalls = lattice n) ∧
    (∀ (σ : Type) (addV : Nat → Nat → Nat → σ → Nat × σ)
       (emitT : Nat → Nat → Nat → Int → Int → Int → σ → σ) (n : Nat) (s0 : σ),
       (∀ i j k s, (addV i j k s).1 ≠ 0) →
       (triangulate n addV emitT s0).emits.length = n * n) ∧
    (triangulate 2 (fun _ _ _ (s : Unit) => (0, s))
       (fun _ _ _ _ _ _ s => s) ()).emits.length = 3 ∧
    ¬ (∀ (σ : Type) (addV : Nat → Nat → Nat → σ → Nat × σ)
         (emitT : Nat → Nat → Nat → Int → Int → Int → σ → σ) (n : Nat)
         (s0 : σ),
         (triangulate n addV emitT s0).emits.length = n * n) := by
  refine ⟨fun σ addV emitT n s0 => triangulate_vcalls addV emitT n s0,
    fun σ addV emitT n s0 hnz => triangulate_emits_sq addV emitT hnz n s0,
    by decide, ?_⟩
  intro hall
  have h4 := hall Unit (fun _ _ _ s => (0, s)) (fun _ _ _ _ _ _ s => s) 2 ()
  have h3 : (triangulate 2 (fun _ _ _ (s : Unit) => (0, s))
      (fun _ _ _ _ _ _ s => s) ()).emits.length = 3 := by decide
  rw [h3] at h4
  exact absurd h4 (by decide)

end Triangulate

namespace Builder

/-- C7: the finished mesh carries the explicitly supplied normals exactly
when every `addVertex` call of the build supplied one; a partial normal
supply is flagged by at least one warning (never a hard failure) and the
mesh is still produced, with `none` signalling the computed-normal
fallback. -/
theorem claim_C7 (cmds : List BuildCmd) :
    ((finish (runBuild cmds emptyBuilder)).1.normals =
        some (suppliedNormals cmds) ↔ allNormalsSupplied cmds) ∧
    (someNormalSupplied cmds → ¬ allNormalsSupplied cmds →
      (finish (runBuild cmds emptyBuilder)).1.normals = none ∧
      1 ≤ (finish (runBuild cmds emptyBuilder)).2) := by
  have hN : (runBuild cmds emptyBuilder).normals = suppliedNormals cmds := by
    rw [runBuild_normals]
    rfl
  have hV : (runBuild cmds emptyBuilder).vertices.length =
      vertexCount cmds := by
    rw [runBuild_vertices_length]
    simp [emptyBuilder]
  constructor
  · constructor
    · intro hsome
      by_contra hnall
      have hne : (suppliedNormals cmds).length ≠ vertexCount cmds := by
        intro he
        exact hnall ((suppliedNormals_length_eq_iff cmds).1 he)
      unfold finish at hsome
      simp only [hN, hV] at hsome
      rw [if_neg hne] at hsome
      cases hsome
    · intro hall
      have hlen := (suppliedNormals_length_eq_iff cmds).2 hall
      unfold finish
      simp only [hN, hV]
      rw [if_pos hlen]
  · intro hsome hnall
    have hpos := suppliedNormals_pos cmds hsome
    have hne : (suppliedNormals cmds).length ≠ vertexCount cmds := by
      intro he
      exact hnall ((suppliedNormals_length_eq_iff cmds).1 he)
    constructor
    · unfold finish
      simp only [hN, hV]
      rw [if_neg hne]
    · unfold finish
      simp only [hN, hV]
      rw [if_pos ⟨by omega, hne⟩]
      omega

/-- C8 (amended): `addTriangle` performs no validation of its vertex
indices against the vertex registry: the triple is appended to the
selected material list unchanged (reversed under `invert`), the vertex
list is not even consulted, and no error or warning is signalled. -/
theorem claim_C8 (st : BuilderState) (a b c m : Nat) (inv : Bool) :
    matList (addTriangle st a b c m inv) m =
      matList st m ++ (if inv then [c, b, a] else [a, b, c]) ∧
    (addTriangle st a b c m inv).vertices = st.vertices ∧
    (addTriangle st a b c m inv).warnings = st.warnings :=
  ⟨addTriangle_matList st a b c m inv, rfl, rfl⟩

/-- C8, counterexample to the claimed hard failure: on an empty builder
(no vertex ever added) `addTriangle 5 6 7` is silently accepted — the
unknown indices reach the finished mesh's index buffer and no warning is
recorded. -/
theorem claim_C8_counterexample :
    (finish (addTriangle emptyBuilder 5 6 7 0 false)).1.indices =
      [5, 6, 7] ∧
    (finish (addTriangle emptyBuilder 5 6 7 0 false)).2 = 0 := by
  decide

end Builder

namespace Soap

/-- C9: one smoothing step changes only non-border positions: the vertex
count, the triangle list, the border map (hence the set of border indices
and their recorded parameters) and the position of every border vertex are
all unchanged. -/
theorem claim_C9 (s : SoapState) :
    (smooth s).vertices.length = s.vertices.length ∧
    (smooth s).triangles = s.triangles ∧
    (smooth s).border = s.border ∧
    ∀ i, alHas s.border i = true → posD (smooth s) i = posD s i :=
  ⟨smooth_vertices_length s, rfl, rfl, fun i hi => smooth_posD_border s i hi⟩

/-- C10: below the packing width `2²⁶` the packed cache key
`min(a,b)·2²⁶ + max(a,b)` is injective on unordered pairs, so two distinct
edges subdivided in one pass receive distinct midpoint vertices; at or
above the width the packing can collide (`{2, 5}` against
`{1, 2²⁶ + 5}`). -/
theorem claim_C10 (bd : ℚ → Vec3) (s : SoapState) (hM : MeshInv s)
    (hbound : s.vertices.length ≤ 2 ^ 26) (a b c d : Nat)
    (hab : max a b < 2 ^ 26) (hcd : max c d < 2 ^ 26) :
    (edgeKey a b = edgeKey c d →
      min a b = min c d ∧ max a b = max c d) ∧
    (∀ x y u v : Nat, Queried s x y → Queried s u v →
      edgeKey x y ≠ edgeKey u v →
      passMid bd s x y ≠ passMid bd s u v) ∧
    (edgeKey 2 5 = edgeKey 1 (2 ^ 26 + 5) ∧
      ¬(min 2 5 = min 1 (2 ^ 26 + 5) ∧ max 2 5 = max 1 (2 ^ 26 + 5))) :=
  ⟨fun h => edgeKey_inj a b c d hab hcd h,
   fun x y u v hq hq' hk => passMid_inj bd s hM hbound hq hq' hk,
   edgeKey_collision⟩

/-- C10, instantiated at the bootstrap fan. -/
theorem claim_C10_witness :
    ((bootstrap (fun _ => (⟨0, 0, 0⟩ : Vec3))).vertices.length ≤ 2 ^ 26 ∧
     max 0 1 < 2 ^ 26 ∧ max 2 3 < 2 ^ 26) ∧
    ((edgeKey 0 1 = edgeKey 2 3 →
       min 0 1 = min 2 3 ∧ max 0 1 = max 2 3) ∧
     (∀ x y u v : Nat,
       Queried (bootstrap (fun _ => (⟨0, 0, 0⟩ : Vec3))) x y →
       Queried (bootstrap (fun _ => (⟨0, 0, 0⟩ : Vec3))) u v →
       edgeKey x y ≠ edgeKey u v →
       passMid (fun _ => (⟨0, 0, 0⟩ : Vec3))
           (bootstrap (fun _ => (⟨0, 0, 0⟩ : Vec3))) x y ≠
         passMid (fun _ => (⟨0, 0, 0⟩ : Vec3))
           (bootstrap (fun _ => (⟨0, 0, 0⟩ : Vec3))) u v) ∧
     (edgeKey 2 5 = edgeKey 1 (2 ^ 26 + 5) ∧
       ¬(min 2 5 = min 1 (2 ^ 26 + 5) ∧
         max 2 5 = max 1 (2 ^ 26 + 5)))) :=
  ⟨⟨by decide, by decide, by decide⟩,
   claim_C10 (fun _ => (⟨0, 0, 0⟩ : Vec3)) _ (bootstrap_meshInv _)
     (by decide) 0 1 2 3 (by decide) (by decide)⟩

end Soap
